import Mathlib

/-!
Smart Parking System Simulation: the allocation engine of `parking_system.c`.

A shallow embedding of the state engine of `parking_system.c` and the proofs of
its specified properties.

Conventions of the embedding:

* A C pointer is an `Option Nat`: `none` is `NULL`, `some a` is the address `a`.
  `Car` nodes live in a heap `List (Option Car)` indexed by address: `malloc`
  returns the next fresh address (the length of the list, it never fails and never
  reuses an address), `free` overwrites the cell with `none`. `Floor` nodes live in
  a heap `List Floor` of their own (floors are never freed).
* `uint64_t` is a `Nat` kept below `2 ^ 64` with an explicit `% 2 ^ 64`.
* `int` (ids, counts, the stack top) is a mathematical `Int`; the wrap-around of a
  32-bit `int` is not modelled (signed overflow is undefined in C).
* Every operation that dereferences a pointer, indexes an array or loops over the
  ring returns an `Option`: `none` stands for undefined behaviour (a `NULL` or
  dangling dereference, an index outside the array) or for a loop that has not
  finished within the given `fuel` (the number of loop iterations allowed).
* `time(NULL)` is an input: the operations that enqueue take the time `now`.
* A row `char[100]` of `actionLog` is the list of its bytes. A `const char *` message is
  a `String`; its bytes in memory are those of its UTF-8 encoding, and `strncpy` reads
  them up to the first NUL.
-/

namespace ParkingSystem

/-! ## Constants (lines 10-15) -/

def MAX_FLOORS : Nat := 4

def SLOTS_PER_FLOOR : Nat := 64

def LOG_SIZE : Nat := 5

/-- The number of values of a `uint64_t`. -/
def UINT64_MOD : Nat := 2 ^ 64

/-- The all-ones `uint64_t`, `~0ULL`. -/
def UINT64_MAX : Nat := 2 ^ 64 - 1

/-! ## Data structures (lines 19-56) -/

/-- A C pointer: `none` is `NULL`. -/
abbrev Ptr := Option Nat

/-- Type `struct Car`. -/
structure Car where
  id : Int
  entry_time : Int
  next : Ptr
deriving DecidableEq, Repr

/-- Type `struct Queue`. -/
structure Queue where
  front : Ptr
  rear : Ptr
  count : Int
deriving DecidableEq, Repr

/-- Type `struct Floor`; `slots` is the `uint64_t` occupancy mask. -/
structure Floor where
  floor_number : Int
  slots : Nat
  next : Ptr
deriving DecidableEq, Repr

/-- Type `struct Stack`; `items` is the array `int items[MAX_FLOORS * SLOTS_PER_FLOOR]`. -/
structure Stack where
  items : List Int
  top : Int
deriving DecidableEq, Repr

/-- The heap of `Car` nodes: `some c` is a live node, `none` a freed one. -/
abbrev CarHeap := List (Option Car)

/-- A row `char[100]` of `actionLog` (line 47): its bytes, in order. -/
abbrev Row := List Nat

/-- The global variables of the program together with the two heaps. -/
structure State where
  carHeap : CarHeap
  floorHeap : List Floor
  actionLog : List Row
  entryQueue : Queue
  exitQueue : Queue
  currentFloorDisplay : Ptr
  headFloor : Ptr
  evacuationStack : Stack
  carIdCounter : Int
deriving DecidableEq, Repr

/-! ## Action log (lines 78-84) -/

/-- The bytes a `const char *` points at, without the terminator: the UTF-8 encoding of
the text, one `char` per byte. -/
def utf8_bytes (s : String) : List Nat :=
  s.data.flatMap (fun c => (String.utf8EncodeChar c).map UInt8.toNat)

/-- Call `strncpy(dst, src, 100)` with a row `char[100]` as `dst`; `src` lists the bytes
at the source address (the end of the list stands for the terminator of a string). The
bytes before the first NUL are copied, 100 of them at most, and the rest of the 100 bytes
of the row is filled with NULs: when the source has 100 or more bytes before its first
NUL, the row receives its first 100 bytes and no terminator. -/
def strncpy100 (src : List Nat) : Row :=
  let copied := (src.takeWhile (fun b => b != 0)).take 100
  copied ++ List.replicate (100 - copied.length) 0

/-- The loop `for (i = LOG_SIZE - 1; i > 0; i--) strncpy(actionLog[i], actionLog[i - 1], 100)`,
entered with `i = k`. -/
def log_shift : Nat → List Row → List Row
  | 0, log => log
  | i + 1, log => log_shift i (log.set (i + 1) (strncpy100 (log.getD i [])))

/-- Function `log_action` (lines 78-84). -/
def log_action (log : List Row) (message : String) : List Row :=
  (log_shift (LOG_SIZE - 1) log).set 0 (strncpy100 (utf8_bytes message))

/-- The loop `for (i = 0; i < LOG_SIZE; i++) strcpy(actionLog[i], "")` of `init_system`
(lines 99-100), with `n` iterations left at index `i`: each call writes the one byte NUL
at the start of the row. -/
def clear_log : Nat → Nat → List Row → List Row
  | 0, _, log => log
  | n + 1, i, log => clear_log n (i + 1) (log.set i ((log.getD i []).set 0 0))

/-! ## Queue operations (lines 86-89, 123-152) -/

/-- Function `init_queue` (lines 86-89). -/
def init_queue (_q : Queue) : Queue :=
  { front := none, rear := none, count := 0 }

/-- Function `enqueue` (lines 123-136): allocates a node on the heap and links it behind `rear`. -/
def enqueue (h : CarHeap) (q : Queue) (id : Int) (now : Int) : Option (CarHeap × Queue) :=
  let newCar : Nat := h.length
  let h1 : CarHeap := h ++ [some { id := id, entry_time := now, next := none }]
  match q.rear with
  | none => some (h1, { front := some newCar, rear := some newCar, count := q.count + 1 })
  | some r =>
    match h[r]? with
    | some (some c) =>
      some (h1.set r (some { c with next := some newCar }),
            { q with rear := some newCar, count := q.count + 1 })
    | _ => none

/-- Function `dequeue` (lines 138-152): returns the new heap, the new queue and the returned `int`. -/
def dequeue (h : CarHeap) (q : Queue) : Option (CarHeap × Queue × Int) :=
  match q.front with
  | none => some (h, q, -1)
  | some temp =>
    match h[temp]? with
    | some (some c) =>
      let id := c.id
      let q1 : Queue := { q with front := c.next }
      let q2 : Queue := if q1.front = none then { q1 with rear := none } else q1
      let q3 : Queue := { q2 with count := q2.count - 1 }
      some (h.set temp none, q3, id)
    | _ => none

/-! ## Stack operations (lines 91, 155-166) -/

/-- Function `init_stack` (line 91). -/
def init_stack (s : Stack) : Stack :=
  { s with top := -1 }

/-- Function `push` (lines 155-159). -/
def push (s : Stack) (value : Int) : Option Stack :=
  if s.top < (MAX_FLOORS * SLOTS_PER_FLOOR : Int) - 1 then
    let top1 := s.top + 1
    if 0 ≤ top1 ∧ top1.toNat < s.items.length then
      some { items := s.items.set top1.toNat value, top := top1 }
    else none
  else some s

/-- Function `pop` (lines 161-166): returns the new stack and the returned `int`. -/
def pop (s : Stack) : Option (Stack × Int) :=
  if s.top ≥ 0 then
    match s.items[s.top.toNat]? with
    | some v => some ({ s with top := s.top - 1 }, v)
    | none => none
  else some (s, -1)

/-! ## Bit manipulation (lines 169-186) -/

/-- The loop of `find_free_slot`, entered at index `i` with `n` iterations left. -/
def find_free_slot_from (slots : Nat) : Nat → Nat → Int
  | 0, _ => -1
  | n + 1, i => if (slots >>> i) &&& 1 = 0 then (i : Int) else find_free_slot_from slots n (i + 1)

/-- Function `find_free_slot` (lines 169-176). -/
def find_free_slot (slots : Nat) : Int :=
  find_free_slot_from slots SLOTS_PER_FLOOR 0

/-- Function `set_slot`: `*slots |= (1ULL << bitIndex)`. -/
def set_slot (slots : Nat) (bitIndex : Nat) : Nat :=
  (slots ||| (1 <<< bitIndex) % UINT64_MOD) % UINT64_MOD

/-- Function `clear_slot`: `*slots &= ~(1ULL << bitIndex)`. -/
def clear_slot (slots : Nat) (bitIndex : Nat) : Nat :=
  slots &&& (UINT64_MAX ^^^ ((1 <<< bitIndex) % UINT64_MOD))

/-- Function `is_slot_occupied` (lines 184-186). -/
def is_slot_occupied (slots : Nat) (bitIndex : Nat) : Bool :=
  (slots >>> bitIndex) &&& 1 != 0

/-- The occupancy count of `display_ui` (lines 373-376): the number of set bits among
the 64 slots of a mask. -/
def occupied (slots : Nat) : Nat :=
  (List.range 64).countP (fun i => (slots >>> i) &&& 1 != 0)

/-- Total number of set occupancy bits over all floors. -/
def total_occupied (fh : List Floor) : Nat :=
  (fh.map (fun f => occupied f.slots)).sum

/-! ## Initialisation (lines 93-120) -/

/-- The zero-initialised globals at program start (`carIdCounter = 1`). -/
def boot : State :=
  { carHeap := []
    floorHeap := []
    actionLog := List.replicate LOG_SIZE (List.replicate 100 0)
    entryQueue := { front := none, rear := none, count := 0 }
    exitQueue := { front := none, rear := none, count := 0 }
    currentFloorDisplay := none
    headFloor := none
    evacuationStack := { items := List.replicate (MAX_FLOORS * SLOTS_PER_FLOOR) 0, top := 0 }
    carIdCounter := 1 }

/-- The loop of `init_system` creating the floors (lines 104-117) followed by
`prev->next = headFloor` (line 118); `n` iterations left, at index `i`. -/
def init_floors : Nat → Nat → Ptr → State → Option State
  | 0, _, prev, s =>
    match prev with
    | none => none
    | some p =>
      match s.floorHeap[p]? with
      | none => none
      | some f => some { s with floorHeap := s.floorHeap.set p { f with next := s.headFloor } }
  | n + 1, i, prev, s =>
    let newFloor : Nat := s.floorHeap.length
    let s1 : State :=
      { s with floorHeap := s.floorHeap ++ [{ floor_number := (i : Int) + 1, slots := 0, next := none }] }
    if i = 0 then
      init_floors n (i + 1) (some newFloor)
        { s1 with headFloor := some newFloor, currentFloorDisplay := some newFloor }
    else
      match prev with
      | none => none
      | some p =>
        match s1.floorHeap[p]? with
        | none => none
        | some f =>
          init_floors n (i + 1) (some newFloor)
            { s1 with floorHeap := s1.floorHeap.set p { f with next := some newFloor } }

/-- Function `init_system` (lines 93-120). -/
def init_system (s : State) : Option State :=
  let s1 : State :=
    { s with
      entryQueue := init_queue s.entryQueue
      exitQueue := init_queue s.exitQueue
      evacuationStack := init_stack s.evacuationStack
      actionLog := clear_log LOG_SIZE 0 s.actionLog }
  match init_floors MAX_FLOORS 0 none s1 with
  | none => none
  | some s2 => some { s2 with actionLog := log_action s2.actionLog "System Initialized." }

/-! ## Core logic (lines 189-288) -/

/-- Function `add_car_to_entry` (lines 189-194). -/
def add_car_to_entry (now : Int) (s : State) : Option State :=
  match enqueue s.carHeap s.entryQueue s.carIdCounter now with
  | none => none
  | some (h1, q1) =>
    let counter1 := s.carIdCounter + 1
    let msg := "Car #" ++ toString (counter1 - 1) ++ " joined Entry Queue"
    some { s with
      carHeap := h1, entryQueue := q1, carIdCounter := counter1,
      actionLog := log_action s.actionLog msg }

/-- The floor search of `process_entry` (lines 208-215), a `do ... while (temp != headFloor)`
entered at `temp`: returns `(targetFloor, slotIndex)`. -/
def find_floor (fh : List Floor) (head : Ptr) : Nat → Ptr → Option (Ptr × Int)
  | 0, _ => none
  | fuel + 1, temp =>
    match temp with
    | none => none
    | some t =>
      match fh[t]? with
      | none => none
      | some f =>
        let slotIndex := find_free_slot f.slots
        if slotIndex ≠ -1 then some (some t, slotIndex)
        else
          let temp1 := f.next
          if temp1 ≠ head then find_floor fh head fuel temp1 else some (none, slotIndex)

/-- The message of a successful park (lines 222-224). -/
def parked_msg (carId : Int) (floor_number : Int) (slotIndex : Int) : String :=
  "Car #" ++ toString carId ++ " Parked: Floor " ++ toString floor_number ++ ", Slot "
    ++ toString (slotIndex + 1)

/-- Function `process_entry` (lines 196-229). -/
def process_entry (fuel : Nat) (s : State) : Option State :=
  if s.entryQueue.count = 0 then
    some { s with actionLog := log_action s.actionLog "Entry Queue is empty!" }
  else
    match find_floor s.floorHeap s.headFloor fuel s.headFloor with
    | none => none
    | some (some t, slotIndex) =>
      match dequeue s.carHeap s.entryQueue with
      | none => none
      | some (h1, q1, carId) =>
        match s.floorHeap[t]? with
        | none => none
        | some f =>
          match push s.evacuationStack carId with
          | none => none
          | some st1 =>
            some { s with
              carHeap := h1, entryQueue := q1,
              floorHeap := s.floorHeap.set t { f with slots := set_slot f.slots slotIndex.toNat },
              evacuationStack := st1,
              actionLog := log_action s.actionLog (parked_msg carId f.floor_number slotIndex) }
    | some (none, _) =>
      some { s with actionLog := log_action s.actionLog "PARKING FULL! Please wait." }

/-- The inner loop of `request_exit` (lines 236-247), entered at index `i` with `n`
iterations left: the first index whose slot is occupied. -/
def first_occupied_from (slots : Nat) : Nat → Nat → Option Nat
  | 0, _ => none
  | n + 1, i => if is_slot_occupied slots i then some i else first_occupied_from slots n (i + 1)

/-- The message of a cleared slot (lines 242-243). -/
def leaving_msg (floor_number : Int) (i : Nat) : String :=
  "Car leaving Floor " ++ toString floor_number ++ ", Slot " ++ toString ((i : Int) + 1)

/-- The outer loop of `request_exit` (lines 234-252), entered at `temp`: returns the
state and the flag `found`. -/
def request_exit_loop (now : Int) : Nat → State → Ptr → Option (State × Bool)
  | 0, _, _ => none
  | fuel + 1, s, temp =>
    match temp with
    | none => none
    | some t =>
      match s.floorHeap[t]? with
      | none => none
      | some f =>
        match (if f.slots ≠ 0 then first_occupied_from f.slots 64 0 else none) with
        | some i =>
          match enqueue s.carHeap s.exitQueue 999 now with
          | none => none
          | some (h1, q1) =>
            some ({ s with
              carHeap := h1, exitQueue := q1,
              floorHeap := s.floorHeap.set t { f with slots := clear_slot f.slots i },
              actionLog := log_action s.actionLog (leaving_msg f.floor_number i) }, true)
        | none =>
          let temp1 := f.next
          if temp1 ≠ s.headFloor then request_exit_loop now fuel s temp1 else some (s, false)

/-- Function `request_exit` (lines 231-257). -/
def request_exit (fuel : Nat) (now : Int) (s : State) : Option State :=
  match request_exit_loop now fuel s s.headFloor with
  | none => none
  | some (s1, found) =>
    if !found then some { s1 with actionLog := log_action s1.actionLog "No cars to exit!" }
    else some s1

/-- Function `process_exit` (lines 259-267). -/
def process_exit (s : State) : Option State :=
  if s.exitQueue.count = 0 then
    some { s with actionLog := log_action s.actionLog "Exit Queue is empty!" }
  else
    match dequeue s.carHeap s.exitQueue with
    | none => none
    | some (h1, q1, _carId) =>
      some { s with
        carHeap := h1, exitQueue := q1,
        actionLog := log_action s.actionLog "Payment Processed. Car Exited." }

/-- The loop `while (evacuationStack.top >= 0)` of `simulate_emergency` (lines 272-278). -/
def evacuate_loop : Nat → Stack → List Row → Option (Stack × List Row)
  | 0, _, _ => none
  | fuel + 1, st, log =>
    if st.top ≥ 0 then
      match pop st with
      | none => none
      | some (st1, carId) =>
        evacuate_loop fuel st1 (log_action log ("Evacuating Car #" ++ toString carId))
    else some (st, log)

/-- The loop clearing all slots in `simulate_emergency` (lines 281-285), entered at `temp`. -/
def clear_floors (head : Ptr) : Nat → List Floor → Ptr → Option (List Floor)
  | 0, _, _ => none
  | fuel + 1, fh, temp =>
    match temp with
    | none => none
    | some t =>
      match fh[t]? with
      | none => none
      | some f =>
        let fh1 := fh.set t { f with slots := 0 }
        let temp1 := f.next
        if temp1 ≠ head then clear_floors head fuel fh1 temp1 else some fh1

/-- Function `simulate_emergency` (lines 269-288); each of its two loops may run `fuel` iterations. -/
def simulate_emergency (fuel : Nat) (s : State) : Option State :=
  let log1 := log_action s.actionLog "!!! EMERGENCY EVACUATION STARTED !!!"
  match evacuate_loop fuel s.evacuationStack log1 with
  | none => none
  | some (st1, log2) =>
    match clear_floors s.headFloor fuel s.floorHeap s.headFloor with
    | none => none
    | some fh1 =>
      some { s with
        evacuationStack := st1, floorHeap := fh1,
        actionLog := log_action log2 "Evacuation Complete. All slots empty." }

/-- The command `case 3` of `main`: `currentFloorDisplay = currentFloorDisplay->next`. -/
def rotate_view (s : State) : Option State :=
  match s.currentFloorDisplay with
  | none => none
  | some d =>
    match s.floorHeap[d]? with
    | none => none
    | some f => some { s with currentFloorDisplay := f.next }

/-- The command `case 8` of `main`: `currentFloorDisplay->slots = ~0ULL`. -/
def debug_fill_current_floor (s : State) : Option State :=
  match s.currentFloorDisplay with
  | none => none
  | some d =>
    match s.floorHeap[d]? with
    | none => none
    | some f =>
      some { s with
        floorHeap := s.floorHeap.set d { f with slots := UINT64_MAX },
        actionLog := log_action s.actionLog "DEBUG: Current Floor Filled!" }

/-! ## The command interface (the `switch` of `main`, lines 416-444) -/

/-- The six commands exposed to the operator; the enqueuing ones carry the clock. -/
inductive Cmd where
  | add_entry (now : Int)
  | process_entry
  | rotate_view
  | request_exit (now : Int)
  | process_exit
  | emergency_evacuate
deriving DecidableEq, Repr

/-- One command of the `switch` of `main`. -/
def exec (fuel : Nat) (c : Cmd) (s : State) : Option State :=
  match c with
  | Cmd.add_entry now => add_car_to_entry now s
  | Cmd.process_entry => process_entry fuel s
  | Cmd.rotate_view => rotate_view s
  | Cmd.request_exit now => request_exit fuel now s
  | Cmd.process_exit => process_exit s
  | Cmd.emergency_evacuate => simulate_emergency fuel s

/-- A sequence of commands, run from left to right. -/
def run (fuel : Nat) : List Cmd → State → Option State
  | [], s => some s
  | c :: cs, s =>
    match exec fuel c s with
    | none => none
    | some s1 => run fuel cs s1

/-- A state is reachable when some command sequence leads to it from the state
`init_system` builds out of the program's initial globals. -/
def Reachable (s : State) : Prop :=
  ∃ (fuel : Nat) (cmds : List Cmd) (s0 : State),
    init_system boot = some s0 ∧ run fuel cmds s0 = some s

/-! ## Well-formed states

The predicates below describe the states the program can be in: the ring that
`init_system` builds (the masks are arbitrary), a stack whose top is inside its array,
and queues whose `front` pointer starts a list of live nodes ending at `rear`. -/

/-- The floor ring `init_system` builds, with occupancy masks `m0 .. m3`. -/
def ring (m0 m1 m2 m3 : Nat) : List Floor :=
  [ { floor_number := 1, slots := m0, next := some 1 },
    { floor_number := 2, slots := m1, next := some 2 },
    { floor_number := 3, slots := m2, next := some 3 },
    { floor_number := 4, slots := m3, next := some 0 } ]

/-- The floors are numbered and linked the way `init_system` left them and every mask is
a 64-bit value. -/
def RingShape (fh : List Floor) : Prop :=
  fh.map (fun f => (f.floor_number, f.next))
    = [(1, some 1), (2, some 2), (3, some 3), (4, some 0)] ∧
  ∀ f ∈ fh, f.slots < UINT64_MOD

/-- The ring has the shape `init_system` gave it, with the first floor as its head. -/
def RingOK (s : State) : Prop :=
  s.headFloor = some 0 ∧ RingShape s.floorHeap

/-- The successor of a floor pointer in the ring (`temp->next`). -/
def ring_step (fh : List Floor) (p : Ptr) : Ptr :=
  match p with
  | none => none
  | some a =>
    match fh[a]? with
    | none => none
    | some f => f.next

/-- The floor reached from `head` after `n` steps along `next`. -/
def ring_nth (fh : List Floor) (head : Ptr) : Nat → Ptr
  | 0 => head
  | n + 1 => ring_step fh (ring_nth fh head n)

/-- The occupancy mask of the floor a pointer refers to. -/
def mask_at (fh : List Floor) (p : Ptr) : Option Nat :=
  match p with
  | none => none
  | some a => (fh[a]?).map (fun f => f.slots)

/-- The stack's array has its declared size and `top` is between -1 and 255. -/
def StackOK (st : Stack) : Prop :=
  st.items.length = MAX_FLOORS * SLOTS_PER_FLOOR ∧ -1 ≤ st.top ∧
    st.top < (MAX_FLOORS * SLOTS_PER_FLOOR : Int)

/-- The stack depth, `top + 1`. -/
def depth (st : Stack) : Int := st.top + 1

/-- The addresses `as` are the nodes linked from pointer `p`, in order, up to `NULL`. -/
def IsChain (h : CarHeap) : Ptr → List Nat → Prop
  | p, [] => p = none
  | p, a :: as =>
    p = some a ∧
      match h[a]? with
      | some (some c) => IsChain h c.next as
      | _ => False

/-- The queue `q` consists of the nodes at addresses `as`: they are linked from `front`,
`rear` is the last of them and `count` is their number. -/
def QueueOK (h : CarHeap) (q : Queue) (as : List Nat) : Prop :=
  IsChain h q.front as ∧ q.rear = as.getLast? ∧ q.count = (as.length : Int)

/-- The records (id and entry time) stored at the addresses `as`, in order. -/
def records (h : CarHeap) (as : List Nat) : List (Int × Int) :=
  as.filterMap (fun a =>
    match h[a]? with
    | some (some c) => some (c.id, c.entry_time)
    | _ => none)

/-- The traversal of `draw_queue_horizontal` (lines 305-308), `while (temp)`: the ids of
the nodes linked from `temp`. -/
def linked_ids (h : CarHeap) : Nat → Ptr → Option (List Int)
  | 0, _ => none
  | fuel + 1, temp =>
    match temp with
    | none => some []
    | some a =>
      match h[a]? with
      | some (some c) => (linked_ids h fuel c.next).map (fun l => c.id :: l)
      | _ => none

/-- A well-formed program state: ring, stack, log and display cursor are valid and the two
queues are lists of live nodes that share no node. -/
def WF (s : State) : Prop :=
  RingOK s ∧ StackOK s.evacuationStack ∧ s.actionLog.length = LOG_SIZE ∧
  (∃ d, d < MAX_FLOORS ∧ s.currentFloorDisplay = some d) ∧
  ∃ as bs, QueueOK s.carHeap s.entryQueue as ∧ QueueOK s.carHeap s.exitQueue bs ∧
    as.Disjoint bs

/-! ## Concrete states used to exercise the theorems -/

/-- The row `char[100]` that holds the string `s`: the bytes of `s`, then NULs up to the
size of the row. -/
def c_row (s : String) : Row :=
  utf8_bytes s ++ List.replicate (100 - (utf8_bytes s).length) 0

/-- The string that `strlen` and `printf("%s")` read in a row with a terminator (lines
386-387): the bytes before the first NUL. For a row without NUL the value is its 100
bytes, the row having no terminator of its own. -/
def row_text (r : Row) : List Nat :=
  r.takeWhile (fun b => b != 0)

/-- The row is in the state `strncpy(row, _, 100)` leaves it: it has 100 bytes and from
its first NUL on every byte is NUL (a row without NUL holds 100 bytes of text and no
terminator). -/
def Padded (r : Row) : Prop :=
  r.length = 100 ∧ ∀ b, b ∈ r.dropWhile (fun b => b != 0) → b = 0

/-- The state `init_system` builds from the initial globals. -/
def initial : State :=
  { carHeap := []
    floorHeap := ring 0 0 0 0
    actionLog := [c_row "System Initialized.", c_row "", c_row "", c_row "", c_row ""]
    entryQueue := { front := none, rear := none, count := 0 }
    exitQueue := { front := none, rear := none, count := 0 }
    currentFloorDisplay := some 0
    headFloor := some 0
    evacuationStack := { items := List.replicate (MAX_FLOORS * SLOTS_PER_FLOOR) 0, top := -1 }
    carIdCounter := 1 }

/-- The state after `init_system` and one `add_entry` at time 0: car 1 is waiting. -/
def one_waiting : State :=
  { carHeap := [some { id := 1, entry_time := 0, next := none }]
    floorHeap := ring 0 0 0 0
    actionLog := [c_row "Car #1 joined Entry Queue", c_row "System Initialized.", c_row "",
                  c_row "", c_row ""]
    entryQueue := { front := some 0, rear := some 0, count := 1 }
    exitQueue := { front := none, rear := none, count := 0 }
    currentFloorDisplay := some 0
    headFloor := some 0
    evacuationStack := { items := List.replicate (MAX_FLOORS * SLOTS_PER_FLOOR) 0, top := -1 }
    carIdCounter := 2 }

/-- An empty evacuation stack (`top = -1`) over a zeroed array. -/
def empty_stack : Stack :=
  { items := List.replicate (MAX_FLOORS * SLOTS_PER_FLOOR) 0, top := -1 }

/-- A full evacuation stack (`top = 255`) holding the ids 1..256. -/
def full_stack : Stack :=
  { items := List.map (fun k : Nat => Int.ofNat (k + 1)) (List.range (MAX_FLOORS * SLOTS_PER_FLOOR)),
    top := 255 }

/-- A state with floor masks `m0 .. m3`, the cars 7 and 8 waiting in the entry queue (nodes
0 and 1), one placeholder record in the exit queue (node 2), the evacuation stack `st`
and the display cursor on floor `d`. -/
def sample (m0 m1 m2 m3 : Nat) (st : Stack) (d : Nat) : State :=
  { carHeap := [some { id := 7, entry_time := 100, next := some 1 },
                some { id := 8, entry_time := 101, next := none },
                some { id := 999, entry_time := 102, next := none }]
    floorHeap := ring m0 m1 m2 m3
    actionLog := [c_row "Car #8 joined Entry Queue", c_row "Car #7 joined Entry Queue",
                  c_row "System Initialized.", c_row "", c_row ""]
    entryQueue := { front := some 0, rear := some 1, count := 2 }
    exitQueue := { front := some 2, rear := some 2, count := 1 }
    currentFloorDisplay := some d
    headFloor := some 0
    evacuationStack := st
    carIdCounter := 9 }

/-! ## Command sequences and call sequences -/

/-- The commands of `n` rounds of "add one car, park it" (all at time 0). -/
def park_rounds : Nat → List Cmd
  | 0 => []
  | n + 1 => park_rounds n ++ [Cmd.add_entry 0, Cmd.process_entry]

/-- Fill the car park (256 cars), let one car leave, queue one more car. -/
def overflow_cmds : List Cmd :=
  park_rounds (MAX_FLOORS * SLOTS_PER_FLOOR) ++ [Cmd.request_exit 0, Cmd.add_entry 0]

/-- A call on a queue: `enqueue(q, id)` at time `now`, or `dequeue(q)`. -/
inductive QueueCall where
  | enq (id : Int) (now : Int)
  | deq
deriving DecidableEq, Repr

/-- One call on the queue `q` living on heap `h`. -/
def queue_call (c : QueueCall) (hq : CarHeap × Queue) : Option (CarHeap × Queue) :=
  match c with
  | QueueCall.enq id now => enqueue hq.1 hq.2 id now
  | QueueCall.deq =>
    match dequeue hq.1 hq.2 with
    | none => none
    | some (h1, q1, _) => some (h1, q1)

/-- A sequence of calls on one queue, run from left to right. -/
def queue_calls : List QueueCall → CarHeap × Queue → Option (CarHeap × Queue)
  | [], hq => some hq
  | c :: cs, hq =>
    match queue_call c hq with
    | none => none
    | some hq1 => queue_calls cs hq1

/-- Field `count` equals the number of records linked from `front`, as the traversal of
`draw_queue_horizontal` sees them, and is zero exactly when `front` is `NULL`. -/
def CountOK (h : CarHeap) (q : Queue) : Prop :=
  ∃ ids, linked_ids h (ids.length + 1) q.front = some ids ∧ q.count = (ids.length : Int) ∧
    (q.count = 0 ↔ q.front = none)

/-- After `n` rounds of "add one car, park it": the state is well formed, nobody is
waiting, `n` ids are stacked and `n` slots are occupied. -/
def Parked (n : Nat) (s : State) : Prop :=
  WF s ∧ s.entryQueue.count = 0 ∧ s.evacuationStack.top = (n : Int) - 1 ∧
    total_occupied s.floorHeap = n

/-! ## Repeated queue calls -/

/-- One `enqueue` call for each `(id, now)` of a list, in order. -/
def enqueue_all : List (Int × Int) → CarHeap × Queue → Option (CarHeap × Queue)
  | [], hq => some hq
  | (id, now) :: rest, hq =>
    match enqueue hq.1 hq.2 id now with
    | none => none
    | some hq1 => enqueue_all rest hq1

/-- A run of `n` calls of `dequeue`; the returned ids are collected in call order. -/
def dequeue_many : Nat → CarHeap × Queue → Option (CarHeap × Queue × List Int)
  | 0, hq => some (hq.1, hq.2, [])
  | n + 1, hq =>
    match dequeue hq.1 hq.2 with
    | none => none
    | some (h1, q1, id) =>
      match dequeue_many n (h1, q1) with
      | none => none
      | some (h2, q2, ids) => some (h2, q2, id :: ids)

/-! ## Observations -/

/-- The ids on the evacuation stack, bottom first: `items[0 .. top]`. -/
def stack_ids (st : Stack) : List Int :=
  st.items.take (st.top + 1).toNat

/-- What a scenario observes of a state: the floors (number and mask) in heap order,
the ids linked from the front of each queue, the two counts, the stacked ids and the
display cursor. -/
structure View where
  floors : List (Int × Nat)
  entry_ids : Option (List Int)
  entry_count : Int
  exit_ids : Option (List Int)
  exit_count : Int
  stacked : List Int
  top : Int
  display : Ptr
deriving DecidableEq, Repr

/-- The observation of a state. -/
def observe (s : State) : View :=
  { floors := s.floorHeap.map (fun f => (f.floor_number, f.slots))
    entry_ids := linked_ids s.carHeap (s.carHeap.length + 1) s.entryQueue.front
    entry_count := s.entryQueue.count
    exit_ids := linked_ids s.carHeap (s.carHeap.length + 1) s.exitQueue.front
    exit_count := s.exitQueue.count
    stacked := stack_ids s.evacuationStack
    top := s.evacuationStack.top
    display := s.currentFloorDisplay }

/-! ## The states of the end-to-end scenario -/

/-- After `add_entry` at times `t1` and `t2` from `initial`: cars 1 and 2 are waiting. -/
def scenario_added (t1 t2 : Int) : State :=
  { initial with
    carHeap := [some { id := 1, entry_time := t1, next := some 1 },
                some { id := 2, entry_time := t2, next := none }]
    actionLog := [c_row "Car #2 joined Entry Queue", c_row "Car #1 joined Entry Queue",
                  c_row "System Initialized.", c_row "", c_row ""]
    entryQueue := { front := some 0, rear := some 1, count := 2 }
    carIdCounter := 3 }

/-- After one `process_entry` in `scenario_added`: car 1 is parked, car 2 is waiting. -/
def scenario_first (t2 : Int) : State :=
  { initial with
    carHeap := [none, some { id := 2, entry_time := t2, next := none }]
    floorHeap := ring 1 0 0 0
    actionLog := [c_row "Car #1 Parked: Floor 1, Slot 1", c_row "Car #2 joined Entry Queue",
                  c_row "Car #1 joined Entry Queue", c_row "System Initialized.", c_row ""]
    entryQueue := { front := some 1, rear := some 1, count := 1 }
    evacuationStack :=
      { items := 1 :: List.replicate (MAX_FLOORS * SLOTS_PER_FLOOR - 1) 0, top := 0 }
    carIdCounter := 3 }

/-- After a second `process_entry`: cars 1 and 2 are parked on floor 1, slots 0 and 1. -/
def scenario_parked : State :=
  { initial with
    carHeap := [none, none]
    floorHeap := ring 3 0 0 0
    actionLog := [c_row "Car #2 Parked: Floor 1, Slot 2", c_row "Car #1 Parked: Floor 1, Slot 1",
                  c_row "Car #2 joined Entry Queue", c_row "Car #1 joined Entry Queue",
                  c_row "System Initialized."]
    evacuationStack :=
      { items := 1 :: 2 :: List.replicate (MAX_FLOORS * SLOTS_PER_FLOOR - 2) 0, top := 1 }
    carIdCounter := 3 }

/-- After `request_exit` at time `t3` in `scenario_parked`. -/
def scenario_requested (t3 : Int) : State :=
  { scenario_parked with
    carHeap := [none, none, some { id := 999, entry_time := t3, next := none }]
    floorHeap := ring 2 0 0 0
    exitQueue := { front := some 2, rear := some 2, count := 1 }
    actionLog := [c_row "Car leaving Floor 1, Slot 1", c_row "Car #2 Parked: Floor 1, Slot 2",
                  c_row "Car #1 Parked: Floor 1, Slot 1", c_row "Car #2 joined Entry Queue",
                  c_row "Car #1 joined Entry Queue"] }

/-- After `process_exit` in `scenario_requested`. -/
def scenario_exited : State :=
  { scenario_parked with
    carHeap := [none, none, none]
    floorHeap := ring 2 0 0 0
    actionLog := [c_row "Payment Processed. Car Exited.", c_row "Car leaving Floor 1, Slot 1",
                  c_row "Car #2 Parked: Floor 1, Slot 2", c_row "Car #1 Parked: Floor 1, Slot 1",
                  c_row "Car #2 joined Entry Queue"] }

/-- After `simulate_emergency` in `scenario_exited`. -/
def scenario_evacuated : State :=
  { scenario_exited with
    floorHeap := ring 0 0 0 0
    actionLog := [c_row "Evacuation Complete. All slots empty.", c_row "Evacuating Car #1",
                  c_row "Evacuating Car #2", c_row "!!! EMERGENCY EVACUATION STARTED !!!",
                  c_row "Payment Processed. Car Exited."]
    evacuationStack :=
      { items := 1 :: 2 :: List.replicate (MAX_FLOORS * SLOTS_PER_FLOOR - 2) 0, top := -1 } }

/-! ## The effects of one command on ids, occupancy and stack -/

/-- The command left the stack and the id counter alone, did not occupy a slot and kept
the records of the entry queue. -/
def Kept (s s1 : State) : Prop :=
  s1.evacuationStack = s.evacuationStack ∧ s1.carIdCounter = s.carIdCounter ∧
  total_occupied s1.floorHeap ≤ total_occupied s.floorHeap ∧
  ∀ as, QueueOK s.carHeap s.entryQueue as →
    QueueOK s1.carHeap s1.entryQueue as ∧ records s1.carHeap as = records s.carHeap as

/-- The command appended one record, with the old counter value as id, to the entry queue
and added one to the counter. -/
def Added (s s1 : State) : Prop :=
  s1.evacuationStack = s.evacuationStack ∧ s1.carIdCounter = s.carIdCounter + 1 ∧
  s1.floorHeap = s.floorHeap ∧
  ∀ as, QueueOK s.carHeap s.entryQueue as →
    ∃ as1 now, QueueOK s1.carHeap s1.entryQueue as1 ∧
      records s1.carHeap as1 = records s.carHeap as ++ [(s.carIdCounter, now)]

/-- The command parked the car at the head of the entry queue: one more slot is occupied,
the head record is gone and its id went through `push`. -/
def ParkedOne (s s1 : State) : Prop :=
  s1.carIdCounter = s.carIdCounter ∧
  total_occupied s1.floorHeap = total_occupied s.floorHeap + 1 ∧
  ∃ id, push s.evacuationStack id = some s1.evacuationStack ∧
    ∀ as, QueueOK s.carHeap s.entryQueue as →
      ∃ as1 now, QueueOK s1.carHeap s1.entryQueue as1 ∧
        records s.carHeap as = (id, now) :: records s1.carHeap as1

/-- The command emptied the stack and all floors and left the entry queue alone. -/
def Evacuated (s s1 : State) : Prop :=
  s1.carIdCounter = s.carIdCounter ∧ s1.carHeap = s.carHeap ∧
  s1.entryQueue = s.entryQueue ∧ s1.evacuationStack.top = -1 ∧
  total_occupied s1.floorHeap = 0

/-! ## Invariants of the reachable states -/

/-- The number of `add_entry` commands in a command sequence. -/
def issued (cmds : List Cmd) : Nat :=
  cmds.countP (fun c => match c with
    | Cmd.add_entry _ => true
    | _ => false)

/-- The ids known to the system: those on the evacuation stack (bottom first) followed by
those waiting in the entry queue (front first), given the queue's nodes `as`. -/
def known_ids (s : State) (as : List Nat) : List Int :=
  stack_ids s.evacuationStack ++ (records s.carHeap as).map Prod.fst

/-- The known ids are strictly increasing and all below the id counter. -/
def IdsOK (s : State) : Prop :=
  ∃ as, QueueOK s.carHeap s.entryQueue as ∧ (known_ids s as).Pairwise (· < ·) ∧
    ∀ id, id ∈ known_ids s as → id < s.carIdCounter

/-- No more slots are occupied than ids are stacked. -/
def Balanced (s : State) : Prop :=
  (total_occupied s.floorHeap : Int) ≤ depth s.evacuationStack

/-- The mask whose lowest `k` bits are set. -/
def low_bits (k : Nat) : Nat := 2 ^ k - 1

/-- The mask of floor `t` (counted from 0 at the head) when exactly the first `n` slots in
ring order are occupied. -/
def fill (n t : Nat) : Nat := low_bits (min (n - 64 * t) 64)

/-- The ids `a, a + 1, ..., a + len - 1`. -/
def id_range (a len : Nat) : List Int := (List.range' a len).map Int.ofNat

/-- The commands "`add_entry` at each of the times `ts`, then `k` times `process_entry`". -/
def fill_cmds (ts : List Int) (k : Nat) : List Cmd :=
  ts.map Cmd.add_entry ++ List.replicate k Cmd.process_entry

/-- The state after `n` cars were added and the first `k` of them parked: floors filled
in ring order up to `k`, ids `1..k` stacked, ids `k+1..n` waiting. -/
def Stage (k n : Nat) (s : State) : Prop :=
  WF s ∧ s.floorHeap = ring (fill k 0) (fill k 1) (fill k 2) (fill k 3) ∧
  s.evacuationStack.top = (k : Int) - 1 ∧ stack_ids s.evacuationStack = id_range 1 k ∧
  s.carIdCounter = (n : Int) + 1 ∧
  ∃ as, QueueOK s.carHeap s.entryQueue as ∧
    (records s.carHeap as).map Prod.fst = id_range (k + 1) (n - k)

/-! ## Bit-level lemmas -/

theorem bit_test (m i : Nat) : ((m >>> i) &&& 1 != 0) = m.testBit i := by
  simp [Nat.testBit, Nat.and_comm]

theorem bit_clear_iff (m i : Nat) : ((m >>> i) &&& 1 = 0) ↔ m.testBit i = false := by
  rw [← bit_test]; simp

theorem is_slot_occupied_eq (m i : Nat) : is_slot_occupied m i = m.testBit i := by
  unfold is_slot_occupied; exact bit_test m i

theorem find_free_slot_from_full (m : Nat) :
    ∀ (n i : Nat), (∀ j, i ≤ j → j < i + n → m.testBit j = true) →
      find_free_slot_from m n i = -1 := by
  intro n
  induction n with
  | zero => intro i _; rfl
  | succ n ih =>
    intro i h
    have hi : m.testBit i = true := h i (le_refl _) (by omega)
    have hne : ¬ ((m >>> i) &&& 1 = 0) := by
      rw [bit_clear_iff]; simp [hi]
    simp only [find_free_slot_from, hne, if_false]
    exact ih (i + 1) (fun j h1 h2 => h j (by omega) (by omega))

theorem find_free_slot_from_least (m k : Nat) :
    ∀ (n i : Nat), i ≤ k → k < i + n → m.testBit k = false →
      (∀ j, i ≤ j → j < k → m.testBit j = true) →
      find_free_slot_from m n i = (k : Int) := by
  intro n
  induction n with
  | zero => intro i h1 h2; omega
  | succ n ih =>
    intro i h1 h2 hk hlow
    by_cases hik : i = k
    · subst hik
      have : (m >>> i) &&& 1 = 0 := (bit_clear_iff m i).2 hk
      simp [find_free_slot_from, this]
    · have hi : m.testBit i = true := hlow i (le_refl _) (by omega)
      have hne : ¬ ((m >>> i) &&& 1 = 0) := by
        rw [bit_clear_iff]; simp [hi]
      simp only [find_free_slot_from, hne, if_false]
      exact ih (i + 1) (by omega) (by omega) hk (fun j h3 h4 => hlow j (by omega) h4)

theorem all_ones_of_bits (m : Nat) (hm : m < 2 ^ 64)
    (h : ∀ j, j < 64 → m.testBit j = true) : m = UINT64_MAX := by
  apply Nat.eq_of_testBit_eq
  intro i
  unfold UINT64_MAX
  rw [Nat.testBit_two_pow_sub_one]
  by_cases hi : i < 64
  · simp [hi, h i hi]
  · simp only [hi, decide_False]
    exact Nat.testBit_lt_two_pow (lt_of_lt_of_le hm (Nat.pow_le_pow_right (by norm_num) (by omega)))

theorem testBit_all_ones (j : Nat) (hj : j < 64) : UINT64_MAX.testBit j = true := by
  unfold UINT64_MAX
  rw [Nat.testBit_two_pow_sub_one]; simp [hj]

/-- The lowest clear bit of a mask that is not all ones. -/
theorem exists_least_clear (m : Nat) (hm : m < 2 ^ 64) (hne : m ≠ UINT64_MAX) :
    ∃ k, k < 64 ∧ m.testBit k = false ∧ ∀ j, j < k → m.testBit j = true := by
  have hex : ∃ k, k < 64 ∧ m.testBit k = false := by
    by_contra hcon
    push_neg at hcon
    exact hne (all_ones_of_bits m hm (fun j hj => by simpa using hcon j hj))
  refine ⟨Nat.find hex, (Nat.find_spec hex).1, (Nat.find_spec hex).2, ?_⟩
  intro j hj
  have := Nat.find_min hex hj
  have hj64 : j < 64 := lt_trans hj (Nat.find_spec hex).1
  simpa [hj64] using this

/-- What `find_free_slot` returns on a 64-bit mask. -/
theorem find_free_slot_cases (m : Nat) (hm : m < 2 ^ 64) :
    (find_free_slot m = -1 ↔ m = UINT64_MAX) ∧
    (m ≠ UINT64_MAX →
      ∃ i : Nat, i < 64 ∧ find_free_slot m = (i : Int) ∧ m.testBit i = false ∧
        ∀ j, j < i → m.testBit j = true) := by
  have hfull : m = UINT64_MAX → find_free_slot m = -1 := by
    intro h
    subst h
    exact find_free_slot_from_full _ 64 0 (fun j _ h2 => testBit_all_ones j (by omega))
  have hsome : m ≠ UINT64_MAX →
      ∃ i : Nat, i < 64 ∧ find_free_slot m = (i : Int) ∧ m.testBit i = false ∧
        ∀ j, j < i → m.testBit j = true := by
    intro hne
    obtain ⟨k, hk, hclear, hlow⟩ := exists_least_clear m hm hne
    exact ⟨k, hk, find_free_slot_from_least m k 64 0 (Nat.zero_le _) (by omega) hclear
        (fun j _ h2 => hlow j h2), hclear, hlow⟩
  refine ⟨⟨?_, hfull⟩, hsome⟩
  intro h
  by_contra hne
  obtain ⟨i, _, hi, _⟩ := hsome hne
  rw [h] at hi
  omega

/-! ## Setting and clearing one slot -/

theorem two_pow_lt_mod (i : Nat) (hi : i < 64) : (1 <<< i) % UINT64_MOD = 2 ^ i := by
  rw [Nat.one_shiftLeft]
  exact Nat.mod_eq_of_lt (Nat.pow_lt_pow_right (by norm_num) hi)

theorem testBit_set_slot (m i j : Nat) (hm : m < 2 ^ 64) (hi : i < 64) :
    (set_slot m i).testBit j = (m.testBit j || decide (i = j)) := by
  unfold set_slot
  rw [two_pow_lt_mod i hi]
  have h2 : 2 ^ i < 2 ^ 64 := Nat.pow_lt_pow_right (by norm_num) hi
  have hlt : m ||| 2 ^ i < 2 ^ 64 := Nat.or_lt_two_pow hm h2
  rw [show UINT64_MOD = 2 ^ 64 from rfl, Nat.mod_eq_of_lt hlt, Nat.testBit_lor,
    Nat.testBit_two_pow]

theorem set_slot_lt (m i : Nat) : set_slot m i < 2 ^ 64 := by
  unfold set_slot
  exact Nat.mod_lt _ (by norm_num [UINT64_MOD])

theorem testBit_clear_slot (m i j : Nat) (hm : m < 2 ^ 64) (hi : i < 64) :
    (clear_slot m i).testBit j = (m.testBit j && !decide (i = j)) := by
  unfold clear_slot
  rw [two_pow_lt_mod i hi, Nat.testBit_and, Nat.testBit_xor, Nat.testBit_two_pow]
  by_cases hj : j < 64
  · rw [testBit_all_ones j hj]; simp
  · have : m.testBit j = false :=
      Nat.testBit_lt_two_pow (lt_of_lt_of_le hm (Nat.pow_le_pow_right (by norm_num) (by omega)))
    simp [this]

theorem clear_slot_lt (m i : Nat) (hm : m < 2 ^ 64) : clear_slot m i < 2 ^ 64 :=
  lt_of_le_of_lt Nat.and_le_left hm

theorem occupied_eq (m : Nat) : occupied m = (List.range 64).countP (fun j => m.testBit j) := by
  unfold occupied
  congr 1
  funext j
  exact bit_test m j

/-- Turning one predicate value from false to true adds one to a count. -/
theorem countP_flip (p q : Nat → Bool) (i : Nat) :
    ∀ (l : List Nat), l.Nodup → i ∈ l → p i = false → q i = true →
      (∀ j, j ∈ l → j ≠ i → q j = p j) → l.countP q = l.countP p + 1 := by
  intro l
  induction l with
  | nil => intro _ hi; simp at hi
  | cons a l ih =>
    intro hnd hi hp hq hag
    rw [List.nodup_cons] at hnd
    by_cases hai : a = i
    · subst hai
      have hrest : l.countP q = l.countP p := by
        apply List.countP_congr
        intro j hj
        have hne : j ≠ a := fun h => hnd.1 (h ▸ hj)
        rw [hag j (List.mem_cons_of_mem _ hj) hne]
      simp [List.countP_cons, hp, hq, hrest]
    · have hil : i ∈ l := by
        rcases List.mem_cons.1 hi with h | h
        · exact absurd h.symm hai
        · exact h
      have := ih hnd.2 hil hp hq (fun j hj hne => hag j (List.mem_cons_of_mem _ hj) hne)
      have ha : q a = p a := hag a (List.mem_cons_self _ _) hai
      simp only [List.countP_cons, ha, this]
      omega

theorem occupied_set_slot (m i : Nat) (hm : m < 2 ^ 64) (hi : i < 64)
    (hfree : m.testBit i = false) : occupied (set_slot m i) = occupied m + 1 := by
  rw [occupied_eq, occupied_eq]
  apply countP_flip _ _ i _ (List.nodup_range 64) (List.mem_range.2 hi) hfree
  · rw [testBit_set_slot m i i hm hi]; simp
  · intro j _ hne
    rw [testBit_set_slot m i j hm hi]
    simp [Ne.symm hne]

theorem occupied_clear_slot (m i : Nat) (hm : m < 2 ^ 64) (hi : i < 64)
    (hocc : m.testBit i = true) : occupied m = occupied (clear_slot m i) + 1 := by
  rw [occupied_eq, occupied_eq]
  apply countP_flip _ _ i _ (List.nodup_range 64) (List.mem_range.2 hi) _ hocc
  · intro j _ hne
    rw [testBit_clear_slot m i j hm hi]
    simp [Ne.symm hne]
  · rw [testBit_clear_slot m i i hm hi]; simp

theorem total_occupied_ring (m0 m1 m2 m3 : Nat) :
    total_occupied (ring m0 m1 m2 m3) = occupied m0 + occupied m1 + occupied m2 + occupied m3 := by
  simp [total_occupied, ring, Nat.add_assoc]

/-! ## The ring and the floor search -/

theorem ring_of_RingShape {fh : List Floor} (h : RingShape fh) :
    ∃ m0 m1 m2 m3, fh = ring m0 m1 m2 m3 ∧
      m0 < 2 ^ 64 ∧ m1 < 2 ^ 64 ∧ m2 < 2 ^ 64 ∧ m3 < 2 ^ 64 := by
  obtain ⟨hm, hb⟩ := h
  rcases fh with _ | ⟨f0, _ | ⟨f1, _ | ⟨f2, _ | ⟨f3, _ | ⟨f4, r⟩⟩⟩⟩⟩ <;>
    simp only [List.map_cons, List.map_nil, List.cons.injEq, Prod.mk.injEq, and_true,
      reduceCtorEq, and_false] at hm
  obtain ⟨n0, m0, x0⟩ := f0
  obtain ⟨n1, m1, x1⟩ := f1
  obtain ⟨n2, m2, x2⟩ := f2
  obtain ⟨n3, m3, x3⟩ := f3
  obtain ⟨⟨rfl, rfl⟩, ⟨rfl, rfl⟩, ⟨rfl, rfl⟩, rfl, rfl⟩ := hm
  refine ⟨m0, m1, m2, m3, rfl, ?_, ?_, ?_, ?_⟩
  · exact hb ⟨1, m0, some 1⟩ (by simp)
  · exact hb ⟨2, m1, some 2⟩ (by simp)
  · exact hb ⟨3, m2, some 3⟩ (by simp)
  · exact hb ⟨4, m3, some 0⟩ (by simp)

theorem RingShape_ring {m0 m1 m2 m3 : Nat} (h0 : m0 < 2 ^ 64) (h1 : m1 < 2 ^ 64)
    (h2 : m2 < 2 ^ 64) (h3 : m3 < 2 ^ 64) : RingShape (ring m0 m1 m2 m3) := by
  refine ⟨rfl, ?_⟩
  intro f hfm
  simp only [ring, List.mem_cons, List.mem_singleton, List.not_mem_nil, or_false] at hfm
  rcases hfm with rfl | rfl | rfl | rfl <;> assumption

theorem ring_of_RingOK {s : State} (h : RingOK s) :
    ∃ m0 m1 m2 m3, s.floorHeap = ring m0 m1 m2 m3 ∧ s.headFloor = some 0 ∧
      m0 < 2 ^ 64 ∧ m1 < 2 ^ 64 ∧ m2 < 2 ^ 64 ∧ m3 < 2 ^ 64 := by
  obtain ⟨m0, m1, m2, m3, hfh, b⟩ := ring_of_RingShape h.2
  exact ⟨m0, m1, m2, m3, hfh, h.1, b⟩

theorem RingOK_of_ring {s : State} {m0 m1 m2 m3 : Nat} (hf : s.floorHeap = ring m0 m1 m2 m3)
    (hh : s.headFloor = some 0) (h0 : m0 < 2 ^ 64) (h1 : m1 < 2 ^ 64) (h2 : m2 < 2 ^ 64)
    (h3 : m3 < 2 ^ 64) : RingOK s := by
  refine ⟨hh, ?_⟩
  rw [hf]
  exact RingShape_ring h0 h1 h2 h3

theorem map_set_same {α β : Type} (g : α → β) :
    ∀ (l : List α) (t : Nat) (x y : α), l[t]? = some x → g y = g x →
      (l.set t y).map g = l.map g := by
  intro l
  induction l with
  | nil => intro t x y h; simp at h
  | cons a l ih =>
    intro t x y h hg
    cases t with
    | zero =>
      simp only [List.getElem?_cons_zero, Option.some.injEq] at h
      subst h
      simp [hg]
    | succ t =>
      simp only [List.getElem?_cons_succ] at h
      simp [ih t x y h hg]

/-- Rewriting the mask of one floor with a 64-bit value keeps the ring. -/
theorem RingShape_set (fh : List Floor) (t : Nat) (f : Floor) (m : Nat) (h : RingShape fh)
    (hf : fh[t]? = some f) (hm : m < 2 ^ 64) :
    RingShape (fh.set t { f with slots := m }) := by
  refine ⟨?_, ?_⟩
  · have := map_set_same (fun f : Floor => (f.floor_number, f.next)) fh t f
      { f with slots := m } hf rfl
    rw [this]
    exact h.1
  · intro x hx
    rcases List.mem_or_eq_of_mem_set hx with hmem | rfl
    · exact h.2 x hmem
    · exact hm

/-- The floor search on the ring, with enough fuel, as a cascade over the four floors. -/
theorem find_floor_ring (m0 m1 m2 m3 fuel : Nat) (hfuel : 4 ≤ fuel) :
    find_floor (ring m0 m1 m2 m3) (some 0) fuel (some 0) =
      some (if find_free_slot m0 ≠ -1 then (some 0, find_free_slot m0)
        else if find_free_slot m1 ≠ -1 then (some 1, find_free_slot m1)
        else if find_free_slot m2 ≠ -1 then (some 2, find_free_slot m2)
        else if find_free_slot m3 ≠ -1 then (some 3, find_free_slot m3)
        else (none, -1)) := by
  obtain ⟨n, rfl⟩ : ∃ n, fuel = n + 4 := ⟨fuel - 4, by omega⟩
  by_cases h0 : find_free_slot m0 = -1 <;> by_cases h1 : find_free_slot m1 = -1 <;>
    by_cases h2 : find_free_slot m2 = -1 <;> by_cases h3 : find_free_slot m3 = -1 <;>
    simp [find_floor, ring, h0, h1, h2, h3]

theorem ring_nth_ring (m0 m1 m2 m3 k : Nat) (hk : k < 4) :
    ring_nth (ring m0 m1 m2 m3) (some 0) k = some k := by
  interval_cases k <;> simp [ring_nth, ring_step, ring]

theorem ring_getElem (m0 m1 m2 m3 k : Nat) (hk : k < 4) :
    ∃ g, (ring m0 m1 m2 m3)[k]? = some g ∧
      g.slots = (if k = 0 then m0 else if k = 1 then m1 else if k = 2 then m2 else m3) := by
  interval_cases k <;> simp [ring]

/-- On a ring whose floors are all full the search finds nothing. -/
theorem find_floor_full (fuel : Nat) (hfuel : 4 ≤ fuel) :
    find_floor (ring UINT64_MAX UINT64_MAX UINT64_MAX UINT64_MAX) (some 0) fuel (some 0)
      = some (none, -1) := by
  have hfull : find_free_slot UINT64_MAX = -1 :=
    (find_free_slot_cases UINT64_MAX (by norm_num [UINT64_MAX])).1.2 rfl
  rw [find_floor_ring _ _ _ _ fuel hfuel]
  simp [hfull]

/-- First fit: the search returns the first floor, in ring order, that is not full and
the lowest clear bit of that floor. -/
theorem find_floor_first_fit (m0 m1 m2 m3 fuel : Nat) (hfuel : 4 ≤ fuel)
    (h0 : m0 < 2 ^ 64) (h1 : m1 < 2 ^ 64) (h2 : m2 < 2 ^ 64) (h3 : m3 < 2 ^ 64)
    (hfree : ¬ (m0 = UINT64_MAX ∧ m1 = UINT64_MAX ∧ m2 = UINT64_MAX ∧ m3 = UINT64_MAX)) :
    ∃ (t i : Nat) (f : Floor), t < 4 ∧ i < 64 ∧
      find_floor (ring m0 m1 m2 m3) (some 0) fuel (some 0) = some (some t, (i : Int)) ∧
      (ring m0 m1 m2 m3)[t]? = some f ∧ f.slots < 2 ^ 64 ∧
      f.slots.testBit i = false ∧ (∀ j, j < i → f.slots.testBit j = true) ∧
      (∀ k, k < t → ∃ g, (ring m0 m1 m2 m3)[k]? = some g ∧ g.slots = UINT64_MAX) := by
  rw [find_floor_ring _ _ _ _ fuel hfuel]
  by_cases e0 : m0 = UINT64_MAX
  · have f0 : find_free_slot m0 = -1 := (find_free_slot_cases m0 h0).1.2 e0
    by_cases e1 : m1 = UINT64_MAX
    · have f1 : find_free_slot m1 = -1 := (find_free_slot_cases m1 h1).1.2 e1
      by_cases e2 : m2 = UINT64_MAX
      · have f2 : find_free_slot m2 = -1 := (find_free_slot_cases m2 h2).1.2 e2
        have e3 : m3 ≠ UINT64_MAX := fun e3 => hfree ⟨e0, e1, e2, e3⟩
        obtain ⟨i, hi, hfind, hclear, hlow⟩ := (find_free_slot_cases m3 h3).2 e3
        have hn : find_free_slot m3 ≠ -1 := by rw [hfind]; omega
        refine ⟨3, i, ⟨4, m3, some 0⟩, by norm_num, hi, ?_, by simp [ring], h3, hclear, hlow, ?_⟩
        · simp [f0, f1, f2, hfind]
        · intro k hk
          interval_cases k <;> simp [ring, e0, e1, e2]
      · obtain ⟨i, hi, hfind, hclear, hlow⟩ := (find_free_slot_cases m2 h2).2 e2
        refine ⟨2, i, ⟨3, m2, some 3⟩, by norm_num, hi, ?_, by simp [ring], h2, hclear, hlow, ?_⟩
        · simp [f0, f1, hfind]
        · intro k hk
          interval_cases k <;> simp [ring, e0, e1]
    · obtain ⟨i, hi, hfind, hclear, hlow⟩ := (find_free_slot_cases m1 h1).2 e1
      refine ⟨1, i, ⟨2, m1, some 2⟩, by norm_num, hi, ?_, by simp [ring], h1, hclear, hlow, ?_⟩
      · simp [f0, hfind]
      · intro k hk
        interval_cases k
        simp [ring, e0]
  · obtain ⟨i, hi, hfind, hclear, hlow⟩ := (find_free_slot_cases m0 h0).2 e0
    refine ⟨0, i, ⟨1, m0, some 1⟩, by norm_num, hi, ?_, by simp [ring], h0, hclear, hlow, ?_⟩
    · simp [hfind]
    · intro k hk
      omega

/-! ## Linked queues on the heap -/

theorem IsChain_nil (h : CarHeap) (p : Ptr) : IsChain h p [] ↔ p = none := by
  simp [IsChain]

theorem IsChain_cons (h : CarHeap) (p : Ptr) (a : Nat) (as : List Nat) :
    IsChain h p (a :: as) ↔
      p = some a ∧ ∃ c, h[a]? = some (some c) ∧ IsChain h c.next as := by
  simp only [IsChain]
  constructor
  · rintro ⟨hp, hm⟩
    refine ⟨hp, ?_⟩
    split at hm
    · next c hc => exact ⟨c, hc, hm⟩
    · exact absurd hm id
  · rintro ⟨hp, c, hc, hch⟩
    refine ⟨hp, ?_⟩
    rw [hc]
    exact hch

/-- The list of nodes linked from a pointer is unique. -/
theorem IsChain_unique (h : CarHeap) :
    ∀ (as bs : List Nat) (p : Ptr), IsChain h p as → IsChain h p bs → as = bs := by
  intro as
  induction as with
  | nil =>
    intro bs p ha hb
    rw [IsChain_nil] at ha
    cases bs with
    | nil => rfl
    | cons b bs =>
      rw [IsChain_cons] at hb
      rw [ha] at hb
      exact absurd hb.1 (by simp)
  | cons a as ih =>
    intro bs p ha hb
    rw [IsChain_cons] at ha
    obtain ⟨hp, c, hc, hch⟩ := ha
    cases bs with
    | nil =>
      rw [IsChain_nil] at hb
      rw [hb] at hp
      exact absurd hp (by simp)
    | cons b bs =>
      rw [IsChain_cons] at hb
      obtain ⟨hp2, c2, hc2, hch2⟩ := hb
      rw [hp] at hp2
      have hab : a = b := Option.some.inj hp2
      subst hab
      rw [hc] at hc2
      have hcc : c = c2 := Option.some.inj (Option.some.inj hc2)
      subst hcc
      rw [ih bs c.next hch hch2]

/-- Every later node of a chain starts a chain of its own: the rest of the list. -/
theorem IsChain_suffix (h : CarHeap) :
    ∀ (l1 : List Nat) (a : Nat) (l2 : List Nat) (p : Ptr),
      IsChain h p (l1 ++ a :: l2) → IsChain h (some a) (a :: l2) := by
  intro l1
  induction l1 with
  | nil =>
    intro a l2 p hch
    rw [List.nil_append, IsChain_cons] at hch
    rw [IsChain_cons]
    exact ⟨rfl, hch.2⟩
  | cons b l1 ih =>
    intro a l2 p hch
    rw [List.cons_append, IsChain_cons] at hch
    obtain ⟨_, c, _, hrest⟩ := hch
    exact ih a l2 c.next hrest

/-- A chain that ends in `NULL` visits no node twice. -/
theorem IsChain_nodup (h : CarHeap) :
    ∀ (as : List Nat) (p : Ptr), IsChain h p as → as.Nodup := by
  intro as
  induction as with
  | nil => intro _ _; exact List.nodup_nil
  | cons a as ih =>
    intro p hch
    have hch0 := hch
    rw [IsChain_cons] at hch
    obtain ⟨hp, c, hc, hrest⟩ := hch
    rw [List.nodup_cons]
    refine ⟨?_, ih c.next hrest⟩
    intro hmem
    obtain ⟨l1, l2, hsplit⟩ := List.append_of_mem hmem
    have hsuf : IsChain h (some a) (a :: l2) := by
      apply IsChain_suffix h l1 a l2 c.next
      rw [← hsplit]; exact hrest
    have hfull : IsChain h (some a) (a :: as) := by
      rw [IsChain_cons]; exact ⟨rfl, c, hc, hrest⟩
    have heq := IsChain_unique h _ _ _ hfull hsuf
    have hlen := congrArg List.length heq
    rw [hsplit] at hlen
    simp at hlen
    omega

/-- Every node of a chain is a live cell of the heap. -/
theorem IsChain_live (h : CarHeap) :
    ∀ (as : List Nat) (p : Ptr), IsChain h p as →
      ∀ a, a ∈ as → ∃ c, h[a]? = some (some c) := by
  intro as
  induction as with
  | nil => intro _ _ a ha; simp at ha
  | cons b as ih =>
    intro p hch a ha
    rw [IsChain_cons] at hch
    obtain ⟨_, c, hc, hrest⟩ := hch
    rcases List.mem_cons.1 ha with rfl | hmem
    · exact ⟨c, hc⟩
    · exact ih c.next hrest a hmem

theorem IsChain_lt_length (h : CarHeap) (as : List Nat) (p : Ptr) (hch : IsChain h p as)
    (a : Nat) (ha : a ∈ as) : a < h.length := by
  obtain ⟨c, hc⟩ := IsChain_live h as p hch a ha
  by_contra hge
  rw [List.getElem?_eq_none (by omega)] at hc
  exact absurd hc (by simp)

/-- Writing a cell outside a chain leaves the chain as it is. -/
theorem IsChain_set (h : CarHeap) (x : Nat) (v : Option Car) :
    ∀ (as : List Nat) (p : Ptr), x ∉ as → IsChain h p as → IsChain (h.set x v) p as := by
  intro as
  induction as with
  | nil => intro p _ hch; rw [IsChain_nil] at hch ⊢; exact hch
  | cons a as ih =>
    intro p hx hch
    rw [IsChain_cons] at hch ⊢
    obtain ⟨hp, c, hc, hrest⟩ := hch
    have hxa : x ≠ a := fun e => hx (e ▸ List.mem_cons_self _ _)
    have hxas : x ∉ as := fun e => hx (List.mem_cons_of_mem _ e)
    refine ⟨hp, c, ?_, ih c.next hxas hrest⟩
    rw [List.getElem?_set_ne hxa]
    exact hc

/-- Allocating new cells leaves a chain as it is. -/
theorem IsChain_append (h l : CarHeap) :
    ∀ (as : List Nat) (p : Ptr), IsChain h p as → IsChain (h ++ l) p as := by
  intro as
  induction as with
  | nil => intro p hch; rw [IsChain_nil] at hch ⊢; exact hch
  | cons a as ih =>
    intro p hch
    rw [IsChain_cons] at hch ⊢
    obtain ⟨hp, c, hc, hrest⟩ := hch
    refine ⟨hp, c, ?_, ih c.next hrest⟩
    have hlt : a < h.length := by
      by_contra hge
      rw [List.getElem?_eq_none (by omega)] at hc
      exact absurd hc (by simp)
    rw [List.getElem?_append_left hlt]
    exact hc

theorem records_set (h : CarHeap) (x : Nat) (v : Option Car) (as : List Nat) (hx : x ∉ as) :
    records (h.set x v) as = records h as := by
  unfold records
  apply List.filterMap_congr
  intro a ha
  have hxa : x ≠ a := fun e => hx (e ▸ ha)
  rw [List.getElem?_set_ne hxa]

theorem records_append (h l : CarHeap) (as : List Nat) (hlt : ∀ a, a ∈ as → a < h.length) :
    records (h ++ l) as = records h as := by
  unfold records
  apply List.filterMap_congr
  intro a ha
  rw [List.getElem?_append_left (hlt a ha)]

/-! ## `enqueue` and `dequeue` on a well-formed queue -/

theorem records_nil (h : CarHeap) : records h [] = [] := rfl

theorem records_cons_live (h : CarHeap) (a : Nat) (as : List Nat) (c : Car)
    (hc : h[a]? = some (some c)) :
    records h (a :: as) = (c.id, c.entry_time) :: records h as := by
  simp [records, List.filterMap_cons, hc]

theorem records_append_list (h : CarHeap) (as bs : List Nat) :
    records h (as ++ bs) = records h as ++ records h bs := by
  simp [records, List.filterMap_append]

/-- Linking a fresh node behind the last node of a chain extends the chain by it. -/
theorem IsChain_link (h : CarHeap) (newc : Car) (hnew : newc.next = none) :
    ∀ (as : List Nat) (p : Ptr) (r : Nat) (c : Car),
      IsChain h p as → as.getLast? = some r → h[r]? = some (some c) →
      IsChain ((h ++ [some newc]).set r (some { c with next := some h.length })) p
        (as ++ [h.length]) := by
  intro as
  induction as with
  | nil => intro p r c _ hl; simp at hl
  | cons a as ih =>
    intro p r c hch hl hc
    have hnd := IsChain_nodup h _ _ hch
    have hlt : ∀ x, x ∈ a :: as → x < h.length := IsChain_lt_length h _ _ hch
    rw [IsChain_cons] at hch
    obtain ⟨hp, ca, hca, hrest⟩ := hch
    have hr : r < h.length := by
      by_contra hge
      rw [List.getElem?_eq_none (by omega)] at hc
      exact absurd hc (by simp)
    have halt : a < h.length := hlt a (List.mem_cons_self _ _)
    cases as with
    | nil =>
      simp only [List.getLast?_singleton, Option.some.injEq] at hl
      subst hl
      rw [hca] at hc
      have hcc : ca = c := Option.some.inj (Option.some.inj hc)
      subst hcc
      show IsChain _ p (a :: [h.length])
      rw [IsChain_cons]
      refine ⟨hp, { ca with next := some h.length }, ?_, ?_⟩
      · rw [List.getElem?_set_self (by simp; omega)]
      · rw [IsChain_cons]
        refine ⟨rfl, newc, ?_, ?_⟩
        · rw [List.getElem?_set_ne (by omega)]
          simp
        · rw [IsChain_nil]; exact hnew
    | cons b as =>
      have hl2 : (b :: as).getLast? = some r := by
        rw [List.getLast?_cons_cons] at hl; exact hl
      have hrmem : r ∈ b :: as := List.mem_of_getLast?_eq_some hl2
      have hra : r ≠ a := by
        intro e
        rw [List.nodup_cons] at hnd
        exact hnd.1 (e ▸ hrmem)
      rw [List.cons_append, IsChain_cons]
      refine ⟨hp, ca, ?_, ih ca.next r c hrest hl2 hc⟩
      rw [List.getElem?_set_ne hra, List.getElem?_append_left halt]
      exact hca

/-- Records only depend on the id and the time stored in the cells. -/
theorem records_congr (h1 h2 : CarHeap) (as : List Nat)
    (hag : ∀ a, a ∈ as →
      (h1[a]?).map (Option.map (fun c => (c.id, c.entry_time)))
        = (h2[a]?).map (Option.map (fun c => (c.id, c.entry_time)))) :
    records h1 as = records h2 as := by
  unfold records
  apply List.filterMap_congr
  intro a ha
  have := hag a ha
  cases e1 : h1[a]? with
  | none =>
    cases e2 : h2[a]? with
    | none => rfl
    | some o2 => rw [e1, e2] at this; simp at this
  | some o1 =>
    cases e2 : h2[a]? with
    | none => rw [e1, e2] at this; simp at this
    | some o2 =>
      rw [e1, e2] at this
      cases o1 <;> cases o2 <;> simp_all

/-- Function `enqueue` on a well-formed queue: it succeeds, appends one node holding `(id, now)`
behind all the others, adds one to `count`, and leaves every chain that shares no node
with the queue as it was. -/
theorem enqueue_spec (h : CarHeap) (q : Queue) (as : List Nat) (id now : Int)
    (hq : QueueOK h q as) :
    ∃ h1 q1, enqueue h q id now = some (h1, q1) ∧
      QueueOK h1 q1 (as ++ [h.length]) ∧
      records h1 (as ++ [h.length]) = records h as ++ [(id, now)] ∧
      q1.count = q.count + 1 ∧
      (∀ (p : Ptr) (bs : List Nat), as.Disjoint bs → IsChain h p bs →
        IsChain h1 p bs ∧ records h1 bs = records h bs) := by
  obtain ⟨hch, hrear, hcount⟩ := hq
  have hnewcell : (h ++ [some (Car.mk id now none)])[h.length]?
      = some (some (Car.mk id now none)) := by simp
  cases hl : as.getLast? with
  | none =>
    have has : as = [] := List.getLast?_eq_none_iff.1 hl
    subst has
    rw [hl] at hrear
    refine ⟨h ++ [some (Car.mk id now none)],
      { front := some h.length, rear := some h.length, count := q.count + 1 }, ?_, ?_, ?_, rfl, ?_⟩
    · simp [enqueue, hrear]
    · refine ⟨?_, by simp, by simp [hcount]⟩
      rw [List.nil_append, IsChain_cons]
      exact ⟨rfl, _, hnewcell, by rw [IsChain_nil]⟩
    · rw [List.nil_append, records_cons_live _ _ _ _ hnewcell]; rfl
    · intro p bs _ hb
      exact ⟨IsChain_append h _ bs p hb,
        records_append h _ bs (IsChain_lt_length h bs p hb)⟩
  | some r =>
    rw [hl] at hrear
    have hrmem : r ∈ as := List.mem_of_getLast?_eq_some hl
    obtain ⟨c, hc⟩ := IsChain_live h as _ hch r hrmem
    have hlt : ∀ x, x ∈ as → x < h.length := IsChain_lt_length h _ _ hch
    have hrlt : r < h.length := hlt r hrmem
    refine ⟨(h ++ [some (Car.mk id now none)]).set r
        (some { c with next := some h.length }),
      { q with rear := some h.length, count := q.count + 1 }, ?_, ?_, ?_, rfl, ?_⟩
    · simp [enqueue, hrear, hc]
    · refine ⟨IsChain_link h _ rfl as _ r c hch hl hc, by simp, ?_⟩
      simp [hcount]
    · rw [records_append_list]
      congr 1
      · rw [← records_append h [some (Car.mk id now none)] as hlt]
        apply records_congr
        intro a ha
        by_cases har : r = a
        · subst har
          rw [List.getElem?_set_self (by simp; omega), List.getElem?_append_left hrlt, hc]
          rfl
        · rw [List.getElem?_set_ne har]
      · have : ((h ++ [some (Car.mk id now none)]).set r
            (some { c with next := some h.length }))[h.length]?
            = some (some (Car.mk id now none)) := by
          rw [List.getElem?_set_ne (by omega)]; exact hnewcell
        rw [records_cons_live _ _ _ _ this]; rfl
    · intro p bs hdis hb
      have hrb : r ∉ bs := fun e => hdis hrmem e
      exact ⟨IsChain_set _ r _ bs p hrb (IsChain_append h _ bs p hb),
        by rw [records_set _ r _ bs hrb, records_append h _ bs (IsChain_lt_length h bs p hb)]⟩

/-- Function `dequeue` on a well-formed empty queue returns -1 and changes nothing. -/
theorem dequeue_empty (h : CarHeap) (q : Queue) (hq : QueueOK h q []) :
    dequeue h q = some (h, q, -1) := by
  have hf : q.front = none := (IsChain_nil h q.front).1 hq.1
  simp [dequeue, hf]

/-- Function `dequeue` on a well-formed non-empty queue: it succeeds, returns the id of the head
node, frees that node, keeps the others in order, subtracts one from `count`, and leaves
every chain not containing the head node as it was. -/
theorem dequeue_spec (h : CarHeap) (q : Queue) (a : Nat) (as : List Nat)
    (hq : QueueOK h q (a :: as)) :
    ∃ c q1, h[a]? = some (some c) ∧
      dequeue h q = some (h.set a none, q1, c.id) ∧
      QueueOK (h.set a none) q1 as ∧
      records h (a :: as) = (c.id, c.entry_time) :: records (h.set a none) as ∧
      q1.count = q.count - 1 ∧
      (∀ (p : Ptr) (bs : List Nat), a ∉ bs → IsChain h p bs →
        IsChain (h.set a none) p bs ∧ records (h.set a none) bs = records h bs) := by
  obtain ⟨hch, hrear, hcount⟩ := hq
  have hnd := IsChain_nodup h _ _ hch
  rw [List.nodup_cons] at hnd
  rw [IsChain_cons] at hch
  obtain ⟨hp, c, hc, hrest⟩ := hch
  have hrest1 : IsChain (h.set a none) c.next as := IsChain_set h a none as _ hnd.1 hrest
  refine ⟨c, Queue.mk c.next (if c.next = none then none else q.rear) (q.count - 1),
    hc, ?_, ⟨hrest1, ?_, ?_⟩, ?_, rfl, ?_⟩
  · simp only [dequeue, hp, hc]
    by_cases hn : c.next = none <;> simp [hn]
  · cases as with
    | nil =>
      have : c.next = none := (IsChain_nil _ _).1 hrest
      simp [this]
    | cons b as =>
      rw [IsChain_cons] at hrest
      have : c.next ≠ none := by rw [hrest.1]; simp
      simp only [this, if_false]
      rw [hrear, List.getLast?_cons_cons]
  · simp only [hcount, List.length_cons]
    push_cast
    ring
  · rw [records_cons_live h a as c hc, records_set h a none as hnd.1]
  · intro p bs hab hb
    exact ⟨IsChain_set h a none bs p hab hb, records_set h a none bs hab⟩

/-! ## The evacuation stack -/

theorem push_below_capacity (st : Stack) (v : Int) (hst : StackOK st) (hroom : st.top < 255) :
    push st v = some { items := st.items.set (st.top + 1).toNat v, top := st.top + 1 } ∧
      StackOK { items := st.items.set (st.top + 1).toNat v, top := st.top + 1 } := by
  obtain ⟨hlen, hlo, hhi⟩ := hst
  simp only [MAX_FLOORS, SLOTS_PER_FLOOR] at hlen hhi
  have h1 : st.top < ((MAX_FLOORS : Nat) * (SLOTS_PER_FLOOR : Nat) : Int) - 1 := by
    simp only [MAX_FLOORS, SLOTS_PER_FLOOR]; omega
  have h2 : 0 ≤ st.top + 1 ∧ (st.top + 1).toNat < st.items.length := by
    constructor <;> omega
  refine ⟨?_, ?_, ?_, ?_⟩
  · simp only [push, h1, if_true, h2, and_self]
  · simp [hlen, MAX_FLOORS, SLOTS_PER_FLOOR]
  · show -1 ≤ st.top + 1
    omega
  · show st.top + 1 < _
    simp only [MAX_FLOORS, SLOTS_PER_FLOOR]; omega

theorem push_at_capacity (st : Stack) (v : Int) (hfull : 255 ≤ st.top) : push st v = some st := by
  have h1 : ¬ st.top < ((MAX_FLOORS : Nat) * (SLOTS_PER_FLOOR : Nat) : Int) - 1 := by
    simp only [MAX_FLOORS, SLOTS_PER_FLOOR]; omega
  simp only [push, h1, if_false]

/-- On a well-formed stack `push` never faults and keeps the stack well formed. -/
theorem push_ok (st : Stack) (v : Int) (hst : StackOK st) :
    ∃ st1, push st v = some st1 ∧ StackOK st1 := by
  by_cases hroom : st.top < 255
  · exact ⟨_, (push_below_capacity st v hst hroom).1, (push_below_capacity st v hst hroom).2⟩
  · exact ⟨st, push_at_capacity st v (by omega), hst⟩

theorem pop_nonempty (st : Stack) (hst : StackOK st) (hne : 0 ≤ st.top) :
    ∃ v, st.items[st.top.toNat]? = some v ∧ pop st = some ({ st with top := st.top - 1 }, v) := by
  obtain ⟨hlen, hlo, hhi⟩ := hst
  simp only [MAX_FLOORS, SLOTS_PER_FLOOR] at hlen hhi
  have hidx : st.top.toNat < st.items.length := by omega
  refine ⟨st.items[st.top.toNat], List.getElem?_eq_getElem hidx, ?_⟩
  simp only [pop, ge_iff_le, hne, if_true, List.getElem?_eq_getElem hidx]

theorem pop_empty (st : Stack) (he : st.top < 0) : pop st = some (st, -1) := by
  have : ¬ st.top ≥ 0 := by omega
  simp only [pop, this, if_false]

/-! ## `process_entry` -/

theorem count_ne_zero_of_cons {h : CarHeap} {q : Queue} {a : Nat} {as : List Nat}
    (hq : QueueOK h q (a :: as)) : q.count ≠ 0 := by
  rw [hq.2.2, List.length_cons]
  push_cast
  omega

theorem cons_of_count_ne_zero {h : CarHeap} {q : Queue} {as : List Nat}
    (hq : QueueOK h q as) (hne : q.count ≠ 0) : ∃ a as1, as = a :: as1 := by
  cases as with
  | nil => exact absurd (by rw [hq.2.2]; rfl) hne
  | cons a as1 => exact ⟨a, as1, rfl⟩

/-- The state `process_entry` produces when the search has found floor `t`, slot `i`. -/
theorem process_entry_parks (s : State) (fuel a : Nat) (as : List Nat) (t : Nat) (i : Int)
    (f : Floor) (hst : StackOK s.evacuationStack)
    (hq : QueueOK s.carHeap s.entryQueue (a :: as))
    (hfind : find_floor s.floorHeap s.headFloor fuel s.headFloor = some (some t, i))
    (hf : s.floorHeap[t]? = some f) :
    ∃ c q1 st1, s.carHeap[a]? = some (some c) ∧
      dequeue s.carHeap s.entryQueue = some (s.carHeap.set a none, q1, c.id) ∧
      push s.evacuationStack c.id = some st1 ∧
      process_entry fuel s = some { s with
        carHeap := s.carHeap.set a none, entryQueue := q1,
        floorHeap := s.floorHeap.set t { f with slots := set_slot f.slots i.toNat },
        evacuationStack := st1,
        actionLog := log_action s.actionLog (parked_msg c.id f.floor_number i) } := by
  obtain ⟨c, q1, hc, hdq, _, _, _, _⟩ := dequeue_spec s.carHeap s.entryQueue a as hq
  obtain ⟨st1, hpush, _⟩ := push_ok s.evacuationStack c.id hst
  refine ⟨c, q1, st1, hc, hdq, hpush, ?_⟩
  have hne := count_ne_zero_of_cons hq
  simp only [process_entry, hne, if_false, hfind, hdq, hf, hpush]

/-- The state `process_entry` produces when the search has found no floor. -/
theorem process_entry_full (s : State) (fuel : Nat) (i : Int) (hne : s.entryQueue.count ≠ 0)
    (hfind : find_floor s.floorHeap s.headFloor fuel s.headFloor = some (none, i)) :
    process_entry fuel s
      = some { s with actionLog := log_action s.actionLog "PARKING FULL! Please wait." } := by
  simp only [process_entry, hne, if_false, hfind]

theorem log_shift_length (k : Nat) (log : List Row) : (log_shift k log).length = log.length := by
  induction k generalizing log with
  | zero => rfl
  | succ k ih => simp [log_shift, ih]

theorem log_action_length (log : List Row) (msg : String) :
    (log_action log msg).length = log.length := by
  simp [log_action, log_shift_length]

/-- The newest log entry is the row `strncpy` makes of the recorded message. -/
theorem log_action_head (log : List Row) (msg : String) (hlen : 0 < log.length) :
    (log_action log msg)[0]? = some (strncpy100 (utf8_bytes msg)) := by
  unfold log_action
  rw [List.getElem?_set_self (by rw [log_shift_length]; exact hlen)]

theorem takeWhile_nonzero_self (t : List Nat) (h : 0 ∉ t) :
    t.takeWhile (fun b => b != 0) = t := by
  rw [List.takeWhile_eq_self_iff]
  intro b hb
  have : b ≠ 0 := fun e => h (e ▸ hb)
  simpa using this

theorem takeWhile_append_zeros (t : List Nat) (k : Nat) (h : 0 ∉ t) :
    (t ++ List.replicate k 0).takeWhile (fun b => b != 0) = t := by
  induction t with
  | nil => cases k <;> simp [List.replicate]
  | cons a t ih =>
    have ha : a ≠ 0 := fun e => h (by simp [e])
    have ht : 0 ∉ t := fun e => h (List.mem_cons_of_mem _ e)
    simp [List.takeWhile_cons, ha, ih ht]

theorem dropWhile_append_zeros (t : List Nat) (k : Nat) (h : 0 ∉ t) :
    (t ++ List.replicate k 0).dropWhile (fun b => b != 0) = List.replicate k 0 := by
  induction t with
  | nil => cases k <;> simp [List.replicate]
  | cons a t ih =>
    have ha : a ≠ 0 := fun e => h (by simp [e])
    have ht : 0 ∉ t := fun e => h (List.mem_cons_of_mem _ e)
    simp [List.dropWhile_cons, ha, ih ht]

theorem zero_not_mem_takeWhile (src : List Nat) : 0 ∉ src.takeWhile (fun b => b != 0) := by
  intro h
  have := List.mem_takeWhile_imp h
  simp at this

/-- The row `strncpy` writes always has 100 bytes, with NULs only from its first NUL on. -/
theorem strncpy100_padded (src : List Nat) : Padded (strncpy100 src) := by
  have h0 : 0 ∉ (src.takeWhile (fun b => b != 0)).take 100 :=
    fun h => zero_not_mem_takeWhile src (List.mem_of_mem_take h)
  have hl : ((src.takeWhile (fun b => b != 0)).take 100).length ≤ 100 := by
    rw [List.length_take]; omega
  refine ⟨?_, ?_⟩
  · simp only [strncpy100, List.length_append, List.length_replicate]
    omega
  · intro b hb
    simp only [strncpy100] at hb
    rw [dropWhile_append_zeros _ _ h0] at hb
    exact List.eq_of_mem_replicate hb

/-- Copying a row in that state onto another row reproduces it. -/
theorem strncpy100_of_padded (r : Row) (h : Padded r) : strncpy100 r = r := by
  obtain ⟨hlen, hz⟩ := h
  have hsplit := List.takeWhile_append_dropWhile (fun b => b != 0) r
  have hl : (r.takeWhile (fun b => b != 0)).length + (r.dropWhile (fun b => b != 0)).length = 100 := by
    rw [← List.length_append, hsplit, hlen]
  have hd : r.dropWhile (fun b => b != 0)
      = List.replicate (r.dropWhile (fun b => b != 0)).length 0 :=
    List.eq_replicate_iff.2 ⟨rfl, hz⟩
  have ht : (r.takeWhile (fun b => b != 0)).take 100 = r.takeWhile (fun b => b != 0) :=
    List.take_of_length_le (by omega)
  simp only [strncpy100]
  rw [ht, show 100 - (r.takeWhile (fun b => b != 0)).length
      = (r.dropWhile (fun b => b != 0)).length by omega, ← hd, hsplit]

/-- A message of fewer than 100 bytes is copied whole and terminated. -/
theorem strncpy100_short (msg : String) (h : (utf8_bytes msg).length < 100)
    (h0 : 0 ∉ utf8_bytes msg) : strncpy100 (utf8_bytes msg) = c_row msg := by
  simp only [strncpy100, c_row]
  rw [takeWhile_nonzero_self _ h0, List.take_of_length_le (by omega)]

theorem c_row_padded (msg : String) (h : (utf8_bytes msg).length < 100)
    (h0 : 0 ∉ utf8_bytes msg) : Padded (c_row msg) := by
  rw [← strncpy100_short msg h h0]; exact strncpy100_padded _

theorem row_text_c_row (msg : String) (h0 : 0 ∉ utf8_bytes msg) :
    row_text (c_row msg) = utf8_bytes msg := by
  simp only [row_text, c_row]
  exact takeWhile_append_zeros _ _ h0

/-- A source of 100 or more bytes leaves the row without terminator. -/
theorem strncpy100_long (src : List Nat) (h : 100 ≤ (src.takeWhile (fun b => b != 0)).length) :
    strncpy100 src = (src.takeWhile (fun b => b != 0)).take 100 ∧ 0 ∉ strncpy100 src := by
  have hl : ((src.takeWhile (fun b => b != 0)).take 100).length = 100 := by
    rw [List.length_take]; omega
  have he : strncpy100 src = (src.takeWhile (fun b => b != 0)).take 100 := by
    simp only [strncpy100, hl]; simp
  refine ⟨he, ?_⟩
  rw [he]
  exact fun h => zero_not_mem_takeWhile src (List.mem_of_mem_take h)

theorem total_occupied_set (fh : List Floor) (t : Nat) (f g : Floor) (hf : fh[t]? = some f) :
    total_occupied (fh.set t g) + occupied f.slots = total_occupied fh + occupied g.slots := by
  induction fh generalizing t with
  | nil => simp at hf
  | cons x fh ih =>
    cases t with
    | zero =>
      simp only [List.getElem?_cons_zero, Option.some.injEq] at hf
      subst hf
      simp only [total_occupied, List.set_cons_zero, List.map_cons, List.sum_cons]
      omega
    | succ t =>
      simp only [List.getElem?_cons_succ] at hf
      have := ih t hf
      simp only [total_occupied, List.set_cons_succ, List.map_cons, List.sum_cons] at this ⊢
      omega

theorem not_all_full_of_exists {m0 m1 m2 m3 : Nat}
    (hfree : ∃ f, f ∈ ring m0 m1 m2 m3 ∧ f.slots ≠ UINT64_MAX) :
    ¬ (m0 = UINT64_MAX ∧ m1 = UINT64_MAX ∧ m2 = UINT64_MAX ∧ m3 = UINT64_MAX) := by
  rintro ⟨e0, e1, e2, e3⟩
  obtain ⟨f, hf, hne⟩ := hfree
  simp only [ring, List.mem_cons, List.mem_singleton, List.not_mem_nil, or_false] at hf
  rcases hf with rfl | rfl | rfl | rfl <;> simp_all

/-- What `process_entry` does when the entry queue is non-empty and some floor has a
free slot: the floor `t` and slot `i` it picks, the node `c` it dequeues and the state it
produces. -/
theorem process_entry_park_spec (s : State) (fuel a : Nat) (as : List Nat)
    (hring : RingOK s) (hst : StackOK s.evacuationStack)
    (hq : QueueOK s.carHeap s.entryQueue (a :: as)) (hfuel : 4 ≤ fuel)
    (hfree : ∃ f, f ∈ s.floorHeap ∧ f.slots ≠ UINT64_MAX) :
    ∃ (t i : Nat) (f : Floor) (c : Car) (q1 : Queue) (st1 : Stack),
      t < 4 ∧ i < 64 ∧ s.floorHeap[t]? = some f ∧ f.slots < 2 ^ 64 ∧
      f.slots.testBit i = false ∧ (∀ j, j < i → f.slots.testBit j = true) ∧
      s.carHeap[a]? = some (some c) ∧
      dequeue s.carHeap s.entryQueue = some (s.carHeap.set a none, q1, c.id) ∧
      q1.count = s.entryQueue.count - 1 ∧
      push s.evacuationStack c.id = some st1 ∧
      process_entry fuel s = some { s with
        carHeap := s.carHeap.set a none, entryQueue := q1,
        floorHeap := s.floorHeap.set t { f with slots := set_slot f.slots i },
        evacuationStack := st1,
        actionLog := log_action s.actionLog (parked_msg c.id f.floor_number i) } ∧
      total_occupied (s.floorHeap.set t { f with slots := set_slot f.slots i })
        = total_occupied s.floorHeap + 1 := by
  obtain ⟨m0, m1, m2, m3, hfh, hhead, b0, b1, b2, b3⟩ := ring_of_RingOK hring
  rw [hfh] at hfree
  obtain ⟨t, i, f, ht, hi, hfind, hf, hfb, hclear, hlow, _⟩ :=
    find_floor_first_fit m0 m1 m2 m3 fuel hfuel b0 b1 b2 b3 (not_all_full_of_exists hfree)
  rw [← hfh, ← hhead] at hfind
  rw [← hfh] at hf
  obtain ⟨c, q1, st1, hc, hdq, hpush, hpe⟩ := process_entry_parks s fuel a as t i f hst hq hfind hf
  obtain ⟨c2, q2, hc2, hdq2, _, _, hcount, _⟩ := dequeue_spec s.carHeap s.entryQueue a as hq
  have hq12 : q1 = q2 := by
    rw [hdq] at hdq2
    simp only [Option.some.injEq, Prod.mk.injEq] at hdq2
    exact hdq2.2.1
  refine ⟨t, i, f, c, q1, st1, ht, hi, hf, hfb, hclear, hlow, hc, hdq, by rw [hq12]; exact hcount,
    hpush, ?_, ?_⟩
  · rw [hpe]; simp
  · have h1 := total_occupied_set s.floorHeap t f { f with slots := set_slot f.slots i } hf
    have h2 := occupied_set_slot f.slots i hfb hi hclear
    simp only at h1
    omega


/-! ## `request_exit` -/

theorem first_occupied_from_least (m k : Nat) :
    ∀ (n i : Nat), i ≤ k → k < i + n → m.testBit k = true →
      (∀ j, i ≤ j → j < k → m.testBit j = false) →
      first_occupied_from m n i = some k := by
  intro n
  induction n with
  | zero => intro i h1 h2; omega
  | succ n ih =>
    intro i h1 h2 hk hlow
    by_cases hik : i = k
    · subst hik
      simp [first_occupied_from, is_slot_occupied_eq, hk]
    · have hi : m.testBit i = false := hlow i (le_refl _) (by omega)
      simp only [first_occupied_from, is_slot_occupied_eq, hi]
      exact ih (i + 1) (by omega) (by omega) hk (fun j h3 h4 => hlow j (by omega) h4)

/-- The lowest set bit of a non-zero 64-bit mask. -/
theorem exists_least_set (m : Nat) (hm : m < 2 ^ 64) (hne : m ≠ 0) :
    ∃ k, k < 64 ∧ m.testBit k = true ∧ ∀ j, j < k → m.testBit j = false := by
  have hex : ∃ k, m.testBit k = true := Nat.ne_zero_implies_bit_true hne
  refine ⟨Nat.find hex, ?_, Nat.find_spec hex, ?_⟩
  · by_contra hge
    have : m.testBit (Nat.find hex) = false :=
      Nat.testBit_lt_two_pow (lt_of_lt_of_le hm (Nat.pow_le_pow_right (by norm_num) (by omega)))
    rw [Nat.find_spec hex] at this
    exact absurd this (by simp)
  · intro j hj
    have := Nat.find_min hex hj
    simpa using this

theorem request_exit_loop_skip (now : Int) (fuel : Nat) (s : State) (t : Nat) (f : Floor)
    (hf : s.floorHeap[t]? = some f) (hz : f.slots = 0) (hn : f.next ≠ s.headFloor) :
    request_exit_loop now (fuel + 1) s (some t) = request_exit_loop now fuel s f.next := by
  simp [request_exit_loop, hf, hz, hn]

theorem request_exit_loop_end (now : Int) (fuel : Nat) (s : State) (t : Nat) (f : Floor)
    (hf : s.floorHeap[t]? = some f) (hz : f.slots = 0) (hn : f.next = s.headFloor) :
    request_exit_loop now (fuel + 1) s (some t) = some (s, false) := by
  simp [request_exit_loop, hf, hz, hn]

theorem request_exit_loop_hit (now : Int) (fuel : Nat) (s : State) (t i : Nat) (f : Floor)
    (h1 : CarHeap) (q1 : Queue) (hf : s.floorHeap[t]? = some f) (hnz : f.slots ≠ 0)
    (hscan : first_occupied_from f.slots 64 0 = some i)
    (henq : enqueue s.carHeap s.exitQueue 999 now = some (h1, q1)) :
    request_exit_loop now (fuel + 1) s (some t) =
      some ({ s with
        carHeap := h1, exitQueue := q1,
        floorHeap := s.floorHeap.set t { f with slots := clear_slot f.slots i },
        actionLog := log_action s.actionLog (leaving_msg f.floor_number i) }, true) := by
  simp [request_exit_loop, hf, hnz, hscan, henq]

/-- The first floor of the ring, in ring order, with any occupancy. -/
theorem first_nonzero_floor (m0 m1 m2 m3 : Nat)
    (hocc : ∃ f, f ∈ ring m0 m1 m2 m3 ∧ f.slots ≠ 0) :
    ∃ (t : Nat) (f : Floor), t < 4 ∧ (ring m0 m1 m2 m3)[t]? = some f ∧ f.slots ≠ 0 ∧
      ∀ k, k < t → ∃ g, (ring m0 m1 m2 m3)[k]? = some g ∧ g.slots = 0 := by
  by_cases e0 : m0 = 0
  · by_cases e1 : m1 = 0
    · by_cases e2 : m2 = 0
      · have e3 : m3 ≠ 0 := by
          intro e3
          obtain ⟨f, hf, hne⟩ := hocc
          simp only [ring, List.mem_cons, List.mem_singleton, List.not_mem_nil, or_false] at hf
          rcases hf with rfl | rfl | rfl | rfl <;> simp_all
        refine ⟨3, ⟨4, m3, some 0⟩, by norm_num, by simp [ring], e3, ?_⟩
        intro k hk
        interval_cases k <;> simp [ring, e0, e1, e2]
      · refine ⟨2, ⟨3, m2, some 3⟩, by norm_num, by simp [ring], e2, ?_⟩
        intro k hk
        interval_cases k <;> simp [ring, e0, e1]
    · refine ⟨1, ⟨2, m1, some 2⟩, by norm_num, by simp [ring], e1, ?_⟩
      intro k hk
      interval_cases k
      simp [ring, e0]
  · exact ⟨0, ⟨1, m0, some 1⟩, by norm_num, by simp [ring], e0, fun k hk => by omega⟩

/-- On the ring, the loop of `request_exit` stops at the first occupied floor. -/
theorem request_exit_loop_ring (now : Int) (fuel : Nat) (s : State) (m0 m1 m2 m3 : Nat)
    (hfh : s.floorHeap = ring m0 m1 m2 m3) (hhead : s.headFloor = some 0) (hfuel : 4 ≤ fuel)
    (t i : Nat) (f : Floor) (h1 : CarHeap) (q1 : Queue) (ht : t < 4)
    (hf : s.floorHeap[t]? = some f) (hnz : f.slots ≠ 0)
    (hzero : ∀ k, k < t → ∃ g, (ring m0 m1 m2 m3)[k]? = some g ∧ g.slots = 0)
    (hscan : first_occupied_from f.slots 64 0 = some i)
    (henq : enqueue s.carHeap s.exitQueue 999 now = some (h1, q1)) :
    request_exit_loop now fuel s (some 0) =
      some ({ s with
        carHeap := h1, exitQueue := q1,
        floorHeap := s.floorHeap.set t { f with slots := clear_slot f.slots i },
        actionLog := log_action s.actionLog (leaving_msg f.floor_number i) }, true) := by
  obtain ⟨n, rfl⟩ : ∃ n, fuel = n + 4 := ⟨fuel - 4, by omega⟩
  have z0 : 0 < t → m0 = 0 := fun h => by
    obtain ⟨g, hg, hgz⟩ := hzero 0 h
    simp only [ring, List.getElem?_cons_zero, Option.some.injEq] at hg
    rw [← hg] at hgz; exact hgz
  have z1 : 1 < t → m1 = 0 := fun h => by
    obtain ⟨g, hg, hgz⟩ := hzero 1 h
    simp only [ring, List.getElem?_cons_succ, List.getElem?_cons_zero, Option.some.injEq] at hg
    rw [← hg] at hgz; exact hgz
  have z2 : 2 < t → m2 = 0 := fun h => by
    obtain ⟨g, hg, hgz⟩ := hzero 2 h
    simp only [ring, List.getElem?_cons_succ, List.getElem?_cons_zero, Option.some.injEq] at hg
    rw [← hg] at hgz; exact hgz
  have g0 : s.floorHeap[0]? = some ⟨1, m0, some 1⟩ := by rw [hfh]; rfl
  have g1 : s.floorHeap[1]? = some ⟨2, m1, some 2⟩ := by rw [hfh]; rfl
  have g2 : s.floorHeap[2]? = some ⟨3, m2, some 3⟩ := by rw [hfh]; rfl
  have s0 : 0 < t → request_exit_loop now (n + 3 + 1) s (some 0)
      = request_exit_loop now (n + 3) s (some 1) := fun h =>
    request_exit_loop_skip now (n + 3) s 0 _ g0 (z0 h) (by rw [hhead]; simp)
  have s1 : 1 < t → request_exit_loop now (n + 2 + 1) s (some 1)
      = request_exit_loop now (n + 2) s (some 2) := fun h =>
    request_exit_loop_skip now (n + 2) s 1 _ g1 (z1 h) (by rw [hhead]; simp)
  have s2 : 2 < t → request_exit_loop now (n + 1 + 1) s (some 2)
      = request_exit_loop now (n + 1) s (some 3) := fun h =>
    request_exit_loop_skip now (n + 1) s 2 _ g2 (z2 h) (by rw [hhead]; simp)
  interval_cases t
  · exact request_exit_loop_hit now (n + 3) s 0 i f h1 q1 hf hnz hscan henq
  · rw [s0 (by norm_num)]
    exact request_exit_loop_hit now (n + 2) s 1 i f h1 q1 hf hnz hscan henq
  · rw [s0 (by norm_num), s1 (by norm_num)]
    exact request_exit_loop_hit now (n + 1) s 2 i f h1 q1 hf hnz hscan henq
  · rw [s0 (by norm_num), s1 (by norm_num), s2 (by norm_num)]
    exact request_exit_loop_hit now n s 3 i f h1 q1 hf hnz hscan henq

theorem mask_at_ring_zero (m0 m1 m2 m3 t : Nat) (ht : t < 4)
    (hzero : ∀ k, k < t → ∃ g, (ring m0 m1 m2 m3)[k]? = some g ∧ g.slots = 0) :
    ∀ k, k < t →
      mask_at (ring m0 m1 m2 m3) (ring_nth (ring m0 m1 m2 m3) (some 0) k) = some 0 := by
  intro k hk
  obtain ⟨g, hg, hgm⟩ := hzero k hk
  rw [ring_nth_ring m0 m1 m2 m3 k (by omega)]
  simp [mask_at, hg, hgm]

theorem ring_slots_lt (m0 m1 m2 m3 t : Nat) (f : Floor)
    (h0 : m0 < 2 ^ 64) (h1 : m1 < 2 ^ 64) (h2 : m2 < 2 ^ 64) (h3 : m3 < 2 ^ 64)
    (hf : (ring m0 m1 m2 m3)[t]? = some f) : f.slots < 2 ^ 64 := by
  have hmem : f ∈ ring m0 m1 m2 m3 := List.getElem?_mem hf
  simp only [ring, List.mem_cons, List.mem_singleton, List.not_mem_nil, or_false] at hmem
  rcases hmem with rfl | rfl | rfl | rfl <;> assumption

/-- What `request_exit` does in a well-formed state with an occupied slot. -/
theorem request_exit_spec (s : State) (fuel : Nat) (now : Int)
    (as bs : List Nat) (hring : RingOK s)
    (hentry : QueueOK s.carHeap s.entryQueue as) (hexit : QueueOK s.carHeap s.exitQueue bs)
    (hdis : as.Disjoint bs) (hfuel : MAX_FLOORS ≤ fuel)
    (hocc : ∃ f, f ∈ s.floorHeap ∧ f.slots ≠ 0) :
    ∃ (s1 : State) (t i k : Nat) (f : Floor) (m1 : Nat),
      request_exit fuel now s = some s1 ∧
      k < MAX_FLOORS ∧ ring_nth s.floorHeap s.headFloor k = some t ∧
      s.floorHeap[t]? = some f ∧ f.slots ≠ 0 ∧
      (∀ k1, k1 < k →
        mask_at s.floorHeap (ring_nth s.floorHeap s.headFloor k1) = some 0) ∧
      i < SLOTS_PER_FLOOR ∧ is_slot_occupied f.slots i = true ∧
      (∀ j, j < i → is_slot_occupied f.slots j = false) ∧
      s1.floorHeap = s.floorHeap.set t { f with slots := m1 } ∧
      is_slot_occupied m1 i = false ∧
      (∀ j, j ≠ i → is_slot_occupied m1 j = is_slot_occupied f.slots j) ∧
      total_occupied s1.floorHeap + 1 = total_occupied s.floorHeap ∧
      QueueOK s1.carHeap s1.exitQueue (bs ++ [s.carHeap.length]) ∧
      records s1.carHeap (bs ++ [s.carHeap.length]) = records s.carHeap bs ++ [(999, now)] ∧
      s1.exitQueue.count = s.exitQueue.count + 1 ∧
      s1.entryQueue = s.entryQueue ∧ QueueOK s1.carHeap s1.entryQueue as ∧
      records s1.carHeap as = records s.carHeap as ∧
      s1.evacuationStack = s.evacuationStack ∧ s1.carIdCounter = s.carIdCounter := by
  obtain ⟨m0, m1, m2, m3, hfh, hhead, b0, b1, b2, b3⟩ := ring_of_RingOK hring
  rw [hfh] at hocc
  obtain ⟨t, f, ht, hf, hnz, hzero⟩ := first_nonzero_floor m0 m1 m2 m3 hocc
  have hfb : f.slots < 2 ^ 64 := ring_slots_lt m0 m1 m2 m3 t f b0 b1 b2 b3 hf
  obtain ⟨i, hi, hset, hlow⟩ := exists_least_set f.slots hfb hnz
  have hscan : first_occupied_from f.slots 64 0 = some i :=
    first_occupied_from_least f.slots i 64 0 (Nat.zero_le _) (by omega) hset
      (fun j _ h2 => hlow j h2)
  obtain ⟨h1, q1, henq, hq1, hrec1, hcount1, hframe⟩ :=
    enqueue_spec s.carHeap s.exitQueue bs 999 now hexit
  have hmask : ∀ k1, k1 < t →
      mask_at s.floorHeap (ring_nth s.floorHeap s.headFloor k1) = some 0 := by
    rw [hfh, hhead]; exact mask_at_ring_zero m0 m1 m2 m3 t ht hzero
  have hnth : ring_nth s.floorHeap s.headFloor t = some t := by
    rw [hfh, hhead]; exact ring_nth_ring m0 m1 m2 m3 t ht
  rw [← hfh] at hf
  have hloop := request_exit_loop_ring now fuel s m0 m1 m2 m3 hfh hhead hfuel t i f h1 q1 ht hf
    hnz hzero hscan henq
  rw [← hhead] at hloop
  have hrun : request_exit fuel now s = some { s with
      carHeap := h1, exitQueue := q1,
      floorHeap := s.floorHeap.set t { f with slots := clear_slot f.slots i },
      actionLog := log_action s.actionLog (leaving_msg f.floor_number i) } := by
    simp only [request_exit, hloop]
    rfl
  obtain ⟨hentry1, hrecs⟩ := hframe s.entryQueue.front as hdis.symm hentry.1
  refine ⟨_, t, i, t, f, clear_slot f.slots i, hrun, ht, hnth, hf, hnz, hmask, hi, ?_, ?_, rfl,
    ?_, ?_, ?_, hq1, hrec1, hcount1, rfl, ⟨hentry1, hentry.2.1, hentry.2.2⟩, hrecs, rfl, rfl⟩
  · rw [is_slot_occupied_eq]; exact hset
  · intro j hj; rw [is_slot_occupied_eq]; exact hlow j hj
  · rw [is_slot_occupied_eq, testBit_clear_slot _ _ _ hfb hi]; simp
  · intro j hj
    rw [is_slot_occupied_eq, is_slot_occupied_eq, testBit_clear_slot _ _ _ hfb hi]
    simp [Ne.symm hj]
  · have e1 := total_occupied_set s.floorHeap t f { f with slots := clear_slot f.slots i } hf
    have e2 := occupied_clear_slot f.slots i hfb hi hset
    show total_occupied (s.floorHeap.set t { f with slots := clear_slot f.slots i }) + 1 = _
    simp only at e1
    omega


/-! ## Well-formedness is an invariant of the commands -/

theorem init_system_boot : init_system boot = some initial := by
  rfl

theorem initial_wf : WF initial := by
  refine ⟨⟨rfl, RingShape_ring (by norm_num) (by norm_num) (by norm_num) (by norm_num)⟩,
    ⟨by simp [initial], by decide, by decide⟩, rfl, ⟨0, by decide, rfl⟩, [], [], ?_, ?_, by simp⟩
  · exact ⟨(IsChain_nil _ _).2 rfl, rfl, rfl⟩
  · exact ⟨(IsChain_nil _ _).2 rfl, rfl, rfl⟩

theorem WF_log (s : State) (msg : String) (h : WF s) :
    WF { s with actionLog := log_action s.actionLog msg } := by
  obtain ⟨hring, hst, hlog, hdisp, as, bs, hentry, hexit, hdis⟩ := h
  exact ⟨hring, hst, by rw [log_action_length]; exact hlog, hdisp, as, bs, hentry, hexit, hdis⟩

/-- Function `add_car_to_entry` always succeeds on a well-formed state and keeps it well formed. -/
theorem add_car_to_entry_wf (now : Int) (s : State) (h : WF s) :
    ∃ s1, add_car_to_entry now s = some s1 ∧ WF s1 := by
  obtain ⟨hring, hst, hlog, hdisp, as, bs, hentry, hexit, hdis⟩ := h
  obtain ⟨h1, q1, henq, hq1, _, _, hframe⟩ :=
    enqueue_spec s.carHeap s.entryQueue as s.carIdCounter now hentry
  obtain ⟨hexit1, _⟩ := hframe s.exitQueue.front bs hdis hexit.1
  have hrun : add_car_to_entry now s = some { s with
      carHeap := h1, entryQueue := q1, carIdCounter := s.carIdCounter + 1,
      actionLog := log_action s.actionLog
        ("Car #" ++ toString (s.carIdCounter + 1 - 1) ++ " joined Entry Queue") } := by
    simp only [add_car_to_entry, henq]
  refine ⟨_, hrun, hring, hst, ?_, hdisp,
    as ++ [s.carHeap.length], bs, hq1, ⟨hexit1, hexit.2.1, hexit.2.2⟩, ?_⟩
  · show (log_action s.actionLog _).length = LOG_SIZE
    rw [log_action_length]; exact hlog
  · intro x hx hxb
    rcases List.mem_append.1 hx with hxa | hxn
    · exact hdis hxa hxb
    · rw [List.mem_singleton] at hxn
      have := IsChain_lt_length s.carHeap bs _ hexit.1 x hxb
      omega

/-- Function `process_entry` keeps a well-formed state well formed. -/
theorem process_entry_wf (fuel : Nat) (s s1 : State) (h : WF s)
    (hrun : process_entry fuel s = some s1) : WF s1 := by
  by_cases hc : s.entryQueue.count = 0
  · simp only [process_entry, hc, if_true, Option.some.injEq] at hrun
    rw [← hrun]
    exact WF_log s _ h
  · cases hfind : find_floor s.floorHeap s.headFloor fuel s.headFloor with
    | none => simp [process_entry, hc, hfind] at hrun
    | some r =>
      obtain ⟨tf, i⟩ := r
      cases tf with
      | none =>
        simp only [process_entry, hc, if_false, hfind, Option.some.injEq] at hrun
        rw [← hrun]
        exact WF_log s _ h
      | some t =>
        obtain ⟨hring, hst, hlog, hdisp, as, bs, hentry, hexit, hdis⟩ := h
        obtain ⟨a, as1, rfl⟩ := cons_of_count_ne_zero hentry hc
        obtain ⟨c, q1, _, hdq, hq1, _, _, hframe⟩ := dequeue_spec s.carHeap s.entryQueue a as1 hentry
        have hab : a ∉ bs := fun hb => hdis (List.mem_cons_self _ _) hb
        obtain ⟨hexit1, _⟩ := hframe s.exitQueue.front bs hab hexit.1
        obtain ⟨st1, hpush, hst1⟩ := push_ok s.evacuationStack c.id hst
        cases hf : s.floorHeap[t]? with
        | none => simp [process_entry, hc, hfind, hdq, hf] at hrun
        | some f =>
          simp only [process_entry, hc, if_false, hfind, hdq, hf, hpush, Option.some.injEq] at hrun
          rw [← hrun]
          refine ⟨⟨hring.1, RingShape_set _ t f _ hring.2 hf (set_slot_lt _ _)⟩, hst1, ?_, hdisp,
            as1, bs, hq1, ⟨hexit1, hexit.2.1, hexit.2.2⟩, ?_⟩
          · show (log_action s.actionLog _).length = LOG_SIZE
            rw [log_action_length]; exact hlog
          · intro x hx hxb
            exact hdis (List.mem_cons_of_mem _ hx) hxb

/-- Function `rotate_view` always succeeds on a well-formed state and keeps it well formed. -/
theorem rotate_view_wf (s : State) (h : WF s) : ∃ s1, rotate_view s = some s1 ∧ WF s1 := by
  obtain ⟨hring, hst, hlog, ⟨d, hd, hdisp⟩, as, bs, hentry, hexit, hdis⟩ := h
  obtain ⟨m0, m1, m2, m3, hfh, _, _, _, _, _⟩ := ring_of_RingOK hring
  have hd4 : d < 4 := hd
  have hnext : ∃ f d1, s.floorHeap[d]? = some f ∧ f.next = some d1 ∧ d1 < MAX_FLOORS := by
    rw [hfh]
    interval_cases d
    · exact ⟨_, 1, rfl, rfl, by decide⟩
    · exact ⟨_, 2, rfl, rfl, by decide⟩
    · exact ⟨_, 3, rfl, rfl, by decide⟩
    · exact ⟨_, 0, rfl, rfl, by decide⟩
  obtain ⟨f, d1, hf, hn, hd1⟩ := hnext
  have hrun : rotate_view s = some { s with currentFloorDisplay := f.next } := by
    simp only [rotate_view, hdisp, hf]
  exact ⟨_, hrun, hring, hst, hlog, ⟨d1, hd1, hn⟩, as, bs, hentry, hexit, hdis⟩

/-- The loop of `request_exit` keeps a well-formed state well formed. -/
theorem request_exit_loop_wf (now : Int) (fuel : Nat) :
    ∀ (s s1 : State) (temp : Ptr) (b : Bool), WF s →
      request_exit_loop now fuel s temp = some (s1, b) → WF s1 := by
  induction fuel with
  | zero => intro s s1 temp b _ hrun; simp [request_exit_loop] at hrun
  | succ fuel ih =>
    intro s s1 temp b h hrun
    cases temp with
    | none => simp [request_exit_loop] at hrun
    | some t =>
      cases hf : s.floorHeap[t]? with
      | none => simp [request_exit_loop, hf] at hrun
      | some f =>
        cases hscan : (if f.slots ≠ 0 then first_occupied_from f.slots 64 0 else none) with
        | none =>
          simp only [request_exit_loop, hf, hscan] at hrun
          by_cases hn : f.next ≠ s.headFloor
          · rw [if_pos hn] at hrun
            exact ih s s1 f.next b h hrun
          · rw [if_neg hn] at hrun
            simp only [Option.some.injEq, Prod.mk.injEq] at hrun
            rw [← hrun.1]; exact h
        | some i =>
          obtain ⟨hring, hst, hlog, hdisp, as, bs, hentry, hexit, hdis⟩ := h
          obtain ⟨h1, q1, henq, hq1, _, _, hframe⟩ :=
            enqueue_spec s.carHeap s.exitQueue bs 999 now hexit
          obtain ⟨hentry1, _⟩ := hframe s.entryQueue.front as hdis.symm hentry.1
          simp only [request_exit_loop, hf, hscan, henq, Option.some.injEq, Prod.mk.injEq] at hrun
          rw [← hrun.1]
          have hfb : f.slots < 2 ^ 64 := hring.2.2 f (List.getElem?_mem hf)
          refine ⟨⟨hring.1, RingShape_set _ t f _ hring.2 hf (clear_slot_lt _ _ hfb)⟩, hst, ?_, hdisp,
            as, bs ++ [s.carHeap.length], ⟨hentry1, hentry.2.1, hentry.2.2⟩, hq1, ?_⟩
          · show (log_action s.actionLog _).length = LOG_SIZE
            rw [log_action_length]; exact hlog
          · intro x hxa hx
            rcases List.mem_append.1 hx with hxb | hxn
            · exact hdis hxa hxb
            · rw [List.mem_singleton] at hxn
              have := IsChain_lt_length s.carHeap as _ hentry.1 x hxa
              omega

/-- Function `request_exit` keeps a well-formed state well formed. -/
theorem request_exit_wf (fuel : Nat) (now : Int) (s s1 : State) (h : WF s)
    (hrun : request_exit fuel now s = some s1) : WF s1 := by
  cases hloop : request_exit_loop now fuel s s.headFloor with
  | none => simp [request_exit, hloop] at hrun
  | some r =>
    obtain ⟨s2, b⟩ := r
    have hwf2 := request_exit_loop_wf now fuel s s2 _ b h hloop
    cases b with
    | true =>
      simp only [request_exit, hloop, Bool.not_true, Bool.false_eq_true, if_false,
        Option.some.injEq] at hrun
      rw [← hrun]; exact hwf2
    | false =>
      simp only [request_exit, hloop, Bool.not_false, if_true, Option.some.injEq] at hrun
      rw [← hrun]; exact WF_log s2 _ hwf2

/-- Function `process_exit` always succeeds on a well-formed state and keeps it well formed. -/
theorem process_exit_wf (s : State) (h : WF s) : ∃ s1, process_exit s = some s1 ∧ WF s1 := by
  by_cases hc : s.exitQueue.count = 0
  · have hrun : process_exit s
        = some { s with actionLog := log_action s.actionLog "Exit Queue is empty!" } := by
      simp only [process_exit, hc, if_true]
    exact ⟨_, hrun, WF_log s _ h⟩
  · obtain ⟨hring, hst, hlog, hdisp, as, bs, hentry, hexit, hdis⟩ := h
    obtain ⟨b, bs1, rfl⟩ := cons_of_count_ne_zero hexit hc
    obtain ⟨c, q1, _, hdq, hq1, _, _, hframe⟩ := dequeue_spec s.carHeap s.exitQueue b bs1 hexit
    have hba : b ∉ as := fun ha => hdis ha (List.mem_cons_self _ _)
    obtain ⟨hentry1, _⟩ := hframe s.entryQueue.front as hba hentry.1
    have hrun : process_exit s = some { s with
        carHeap := s.carHeap.set b none, exitQueue := q1,
        actionLog := log_action s.actionLog "Payment Processed. Car Exited." } := by
      simp only [process_exit, hc, if_false, hdq]
    refine ⟨_, hrun, hring, hst, ?_, hdisp, as, bs1,
      ⟨hentry1, hentry.2.1, hentry.2.2⟩, hq1, ?_⟩
    · show (log_action s.actionLog _).length = LOG_SIZE
      rw [log_action_length]; exact hlog
    · intro x hxa hxb
      exact hdis hxa (List.mem_cons_of_mem _ hxb)

theorem evacuate_loop_wf (fuel : Nat) :
    ∀ (st st1 : Stack) (log log1 : List Row), StackOK st →
      evacuate_loop fuel st log = some (st1, log1) →
      StackOK st1 ∧ log1.length = log.length := by
  induction fuel with
  | zero => intro st st1 log log1 _ hrun; simp [evacuate_loop] at hrun
  | succ fuel ih =>
    intro st st1 log log1 hst hrun
    by_cases htop : 0 ≤ st.top
    · obtain ⟨v, _, hpop⟩ := pop_nonempty st hst htop
      have hst2 : StackOK { st with top := st.top - 1 } := by
        obtain ⟨hlen, hlo, hhi⟩ := hst
        refine ⟨hlen, ?_, ?_⟩
        · show -1 ≤ st.top - 1
          omega
        · show st.top - 1 < _
          omega
      simp only [evacuate_loop, ge_iff_le, htop, if_true, hpop] at hrun
      obtain ⟨h1, h2⟩ := ih _ st1 _ log1 hst2 hrun
      exact ⟨h1, by rw [h2, log_action_length]⟩
    · simp only [evacuate_loop, ge_iff_le, htop, if_false, Option.some.injEq,
        Prod.mk.injEq] at hrun
      rw [← hrun.1, ← hrun.2]
      exact ⟨hst, rfl⟩

theorem clear_floors_shape (head : Ptr) (fuel : Nat) :
    ∀ (fh fh1 : List Floor) (temp : Ptr), RingShape fh →
      clear_floors head fuel fh temp = some fh1 → RingShape fh1 := by
  induction fuel with
  | zero => intro fh fh1 temp _ hrun; simp [clear_floors] at hrun
  | succ fuel ih =>
    intro fh fh1 temp hsh hrun
    cases temp with
    | none => simp [clear_floors] at hrun
    | some t =>
      cases hf : fh[t]? with
      | none => simp [clear_floors, hf] at hrun
      | some f =>
        have hsh1 : RingShape (fh.set t { f with slots := 0 }) :=
          RingShape_set fh t f 0 hsh hf (by norm_num)
        simp only [clear_floors, hf] at hrun
        by_cases hn : f.next ≠ head
        · rw [if_pos hn] at hrun
          exact ih _ fh1 f.next hsh1 hrun
        · rw [if_neg hn] at hrun
          simp only [Option.some.injEq] at hrun
          rw [← hrun]; exact hsh1

/-- Function `simulate_emergency` keeps a well-formed state well formed. -/
theorem simulate_emergency_wf (fuel : Nat) (s s1 : State) (h : WF s)
    (hrun : simulate_emergency fuel s = some s1) : WF s1 := by
  obtain ⟨hring, hst, hlog, hdisp, as, bs, hentry, hexit, hdis⟩ := h
  cases hev : evacuate_loop fuel s.evacuationStack
      (log_action s.actionLog "!!! EMERGENCY EVACUATION STARTED !!!") with
  | none => simp [simulate_emergency, hev] at hrun
  | some r =>
    obtain ⟨st1, log2⟩ := r
    cases hcl : clear_floors s.headFloor fuel s.floorHeap s.headFloor with
    | none => simp [simulate_emergency, hev, hcl] at hrun
    | some fh1 =>
      obtain ⟨hst1, hlen2⟩ := evacuate_loop_wf fuel _ st1 _ log2 hst hev
      have hsh := clear_floors_shape s.headFloor fuel s.floorHeap fh1 _ hring.2 hcl
      simp only [simulate_emergency, hev, hcl, Option.some.injEq] at hrun
      rw [← hrun]
      refine ⟨⟨hring.1, hsh⟩, hst1, ?_, hdisp, as, bs, hentry, hexit, hdis⟩
      show (log_action log2 _).length = LOG_SIZE
      rw [log_action_length, hlen2, log_action_length]; exact hlog

/-- Every command keeps a well-formed state well formed. -/
theorem exec_wf (fuel : Nat) (c : Cmd) (s s1 : State) (h : WF s)
    (hrun : exec fuel c s = some s1) : WF s1 := by
  cases c with
  | add_entry now =>
    obtain ⟨s2, h2, hwf⟩ := add_car_to_entry_wf now s h
    simp only [exec, h2, Option.some.injEq] at hrun
    rw [← hrun]; exact hwf
  | process_entry => exact process_entry_wf fuel s s1 h hrun
  | rotate_view =>
    obtain ⟨s2, h2, hwf⟩ := rotate_view_wf s h
    simp only [exec, h2, Option.some.injEq] at hrun
    rw [← hrun]; exact hwf
  | request_exit now => exact request_exit_wf fuel now s s1 h hrun
  | process_exit =>
    obtain ⟨s2, h2, hwf⟩ := process_exit_wf s h
    simp only [exec, h2, Option.some.injEq] at hrun
    rw [← hrun]; exact hwf
  | emergency_evacuate => exact simulate_emergency_wf fuel s s1 h hrun

theorem run_wf (fuel : Nat) :
    ∀ (cmds : List Cmd) (s s1 : State), WF s → run fuel cmds s = some s1 → WF s1 := by
  intro cmds
  induction cmds with
  | nil =>
    intro s s1 h hrun
    simp only [run, Option.some.injEq] at hrun
    rw [← hrun]; exact h
  | cons c cs ih =>
    intro s s1 h hrun
    cases hc : exec fuel c s with
    | none => simp [run, hc] at hrun
    | some s2 =>
      simp only [run, hc] at hrun
      exact ih s2 s1 (exec_wf fuel c s s2 h hc) hrun

/-- Every reachable state is well formed. -/
theorem reachable_wf (s : State) (h : Reachable s) : WF s := by
  obtain ⟨fuel, cmds, s0, hinit, hrun⟩ := h
  rw [init_system_boot] at hinit
  simp only [Option.some.injEq] at hinit
  rw [← hinit] at hrun
  exact run_wf fuel cmds initial s initial_wf hrun

theorem run_append (fuel : Nat) :
    ∀ (cs1 cs2 : List Cmd) (s s1 : State), run fuel cs1 s = some s1 →
      run fuel (cs1 ++ cs2) s = run fuel cs2 s1 := by
  intro cs1
  induction cs1 with
  | nil =>
    intro cs2 s s1 h
    simp only [run, Option.some.injEq] at h
    rw [h]; rfl
  | cons c cs ih =>
    intro cs2 s s1 h
    cases hc : exec fuel c s with
    | none => simp [run, hc] at h
    | some s2 =>
      simp only [run, hc] at h
      simp only [List.cons_append, run, hc]
      exact ih cs2 s2 s1 h

/-! ## Filling the car park -/

theorem occupied_all_ones : occupied UINT64_MAX = 64 := by
  decide

theorem occupied_zero : occupied 0 = 0 := by
  decide

/-- Fewer than 256 occupied slots: some floor is not full. -/
theorem exists_not_full_of_total (s : State) (hring : RingOK s)
    (htot : total_occupied s.floorHeap < 256) :
    ∃ f, f ∈ s.floorHeap ∧ f.slots ≠ UINT64_MAX := by
  by_contra hcon
  push_neg at hcon
  obtain ⟨m0, m1, m2, m3, hfh, _, _, _, _, _⟩ := ring_of_RingOK hring
  rw [hfh] at hcon htot
  have e0 : m0 = UINT64_MAX := hcon ⟨1, m0, some 1⟩ (by simp [ring])
  have e1 : m1 = UINT64_MAX := hcon ⟨2, m1, some 2⟩ (by simp [ring])
  have e2 : m2 = UINT64_MAX := hcon ⟨3, m2, some 3⟩ (by simp [ring])
  have e3 : m3 = UINT64_MAX := hcon ⟨4, m3, some 0⟩ (by simp [ring])
  rw [total_occupied_ring, e0, e1, e2, e3, occupied_all_ones] at htot
  omega

/-- At least one occupied slot: some floor has a non-zero mask. -/
theorem exists_occupied_of_total (s : State) (hring : RingOK s)
    (htot : 0 < total_occupied s.floorHeap) :
    ∃ f, f ∈ s.floorHeap ∧ f.slots ≠ 0 := by
  by_contra hcon
  push_neg at hcon
  obtain ⟨m0, m1, m2, m3, hfh, _, _, _, _, _⟩ := ring_of_RingOK hring
  rw [hfh] at hcon htot
  have e0 : m0 = 0 := hcon ⟨1, m0, some 1⟩ (by simp [ring])
  have e1 : m1 = 0 := hcon ⟨2, m1, some 2⟩ (by simp [ring])
  have e2 : m2 = 0 := hcon ⟨3, m2, some 3⟩ (by simp [ring])
  have e3 : m3 = 0 := hcon ⟨4, m3, some 0⟩ (by simp [ring])
  rw [total_occupied_ring, e0, e1, e2, e3, occupied_zero] at htot
  omega

/-- Function `add_car_to_entry` adds one to the entry count and touches neither floors nor stack. -/
theorem add_car_to_entry_spec (now : Int) (s : State) (h : WF s) :
    ∃ s1, add_car_to_entry now s = some s1 ∧ WF s1 ∧
      s1.entryQueue.count = s.entryQueue.count + 1 ∧ s1.floorHeap = s.floorHeap ∧
      s1.evacuationStack = s.evacuationStack := by
  obtain ⟨s1, hrun, hwf⟩ := add_car_to_entry_wf now s h
  obtain ⟨_, _, _, _, as, bs, hentry, _, _⟩ := h
  obtain ⟨h1, q1, henq, _, _, hcount, _⟩ :=
    enqueue_spec s.carHeap s.entryQueue as s.carIdCounter now hentry
  simp only [add_car_to_entry, henq, Option.some.injEq] at hrun
  refine ⟨s1, by simp only [add_car_to_entry, henq, hrun], hwf, ?_, ?_, ?_⟩ <;> rw [← hrun]
  exact hcount

/-- Parking in a well-formed state with a waiting car and a free slot: one more slot is
occupied, one car fewer waits, and the stack is what `push` makes of it. -/
theorem process_entry_park_wf (fuel : Nat) (s : State) (h : WF s) (hfuel : 4 ≤ fuel)
    (hne : s.entryQueue.count ≠ 0) (hfree : ∃ f, f ∈ s.floorHeap ∧ f.slots ≠ UINT64_MAX) :
    ∃ (s1 : State) (a : Nat) (c : Car),
      process_entry fuel s = some s1 ∧ WF s1 ∧
      s.entryQueue.front = some a ∧ s.carHeap[a]? = some (some c) ∧
      dequeue s.carHeap s.entryQueue = some (s1.carHeap, s1.entryQueue, c.id) ∧
      push s.evacuationStack c.id = some s1.evacuationStack ∧
      s1.entryQueue.count = s.entryQueue.count - 1 ∧
      total_occupied s1.floorHeap = total_occupied s.floorHeap + 1 := by
  have hwf := h
  obtain ⟨hring, hst, _, _, as, bs, hentry, _, _⟩ := h
  obtain ⟨a, as1, rfl⟩ := cons_of_count_ne_zero hentry hne
  obtain ⟨t, i, f, c, q1, st1, _, _, _, _, _, _, hc, hdq, hcount, hpush, hpe, htot⟩ :=
    process_entry_park_spec s fuel a as1 hring hst hentry hfuel hfree
  have hfront : s.entryQueue.front = some a := ((IsChain_cons _ _ _ _).1 hentry.1).1
  exact ⟨_, a, c, hpe, process_entry_wf fuel s _ hwf hpe, hfront, hc, hdq, hpush, hcount, htot⟩

theorem parked_initial : Parked 0 initial := by
  refine ⟨initial_wf, rfl, rfl, ?_⟩
  rw [show initial.floorHeap = ring 0 0 0 0 from rfl, total_occupied_ring, occupied_zero]

/-- One round of "add one car, park it" while there is room. -/
theorem park_round (fuel : Nat) (hfuel : 4 ≤ fuel) (n : Nat) (hn : n < 256) (s : State)
    (h : Parked n s) :
    ∃ s2, run fuel [Cmd.add_entry 0, Cmd.process_entry] s = some s2 ∧ Parked (n + 1) s2 := by
  obtain ⟨hwf, hcount, htop, htot⟩ := h
  obtain ⟨s1, hadd, hwf1, hcount1, hfl1, hst1⟩ := add_car_to_entry_spec 0 s hwf
  have hne : s1.entryQueue.count ≠ 0 := by rw [hcount1, hcount]; decide
  have hfree := exists_not_full_of_total s1 hwf1.1 (by rw [hfl1, htot]; exact hn)
  obtain ⟨s2, a, c, hpe, hwf2, _, _, _, hpush, hcount2, htot2⟩ :=
    process_entry_park_wf fuel s1 hwf1 hfuel hne hfree
  have hroom : s1.evacuationStack.top < 255 := by rw [hst1, htop]; omega
  have hpush2 := (push_below_capacity s1.evacuationStack c.id hwf1.2.1 hroom).1
  rw [hpush] at hpush2
  simp only [Option.some.injEq] at hpush2
  refine ⟨s2, by simp only [run, exec, hadd, hpe], hwf2, ?_, ?_, ?_⟩
  · rw [hcount2, hcount1, hcount]; rfl
  · rw [hpush2]
    show s1.evacuationStack.top + 1 = _
    rw [hst1, htop]
    push_cast
    ring
  · rw [htot2, hfl1, htot]

/-- The car park can be filled one car at a time. -/
theorem park_rounds_run (fuel : Nat) (hfuel : 4 ≤ fuel) :
    ∀ n, n ≤ 256 → ∃ s, run fuel (park_rounds n) initial = some s ∧ Parked n s := by
  intro n
  induction n with
  | zero => intro _; exact ⟨initial, rfl, parked_initial⟩
  | succ n ih =>
    intro hn
    obtain ⟨s, hrun, hp⟩ := ih (by omega)
    obtain ⟨s2, hrun2, hp2⟩ := park_round fuel hfuel n (by omega) s hp
    refine ⟨s2, ?_, hp2⟩
    show run fuel (park_rounds n ++ [Cmd.add_entry 0, Cmd.process_entry]) initial = some s2
    rw [run_append fuel _ _ initial s hrun]
    exact hrun2

/-- Function `request_exit` in a well-formed state with an occupied slot: one slot fewer is
occupied; the entry queue and the stack are untouched. -/
theorem request_exit_frees_one (fuel : Nat) (now : Int) (s : State) (h : WF s)
    (hfuel : 4 ≤ fuel) (hocc : ∃ f, f ∈ s.floorHeap ∧ f.slots ≠ 0) :
    ∃ s1, request_exit fuel now s = some s1 ∧ WF s1 ∧
      total_occupied s1.floorHeap + 1 = total_occupied s.floorHeap ∧
      s1.entryQueue = s.entryQueue ∧ s1.evacuationStack = s.evacuationStack := by
  have hwf := h
  obtain ⟨hring, _, _, _, as, bs, hentry, hexit, hdis⟩ := h
  obtain ⟨s1, t, i, k, f, m1, hrun, _, _, _, _, _, _, _, _, _, _, _, htot, _, _, _, hq, _, _,
    hst, _⟩ := request_exit_spec s fuel now as bs hring hentry hexit hdis hfuel hocc
  exact ⟨s1, hrun, request_exit_wf fuel now s s1 hwf hrun, htot, hq, hst⟩

/-! ## The queue count -/

/-- The traversal from `front` sees exactly the nodes of the chain. -/
theorem linked_ids_of_chain (h : CarHeap) :
    ∀ (as : List Nat) (p : Ptr), IsChain h p as →
      ∃ ids, linked_ids h (as.length + 1) p = some ids ∧ ids.length = as.length := by
  intro as
  induction as with
  | nil =>
    intro p hch
    rw [IsChain_nil] at hch
    subst hch
    exact ⟨[], rfl, rfl⟩
  | cons a as ih =>
    intro p hch
    rw [IsChain_cons] at hch
    obtain ⟨hp, c, hc, hrest⟩ := hch
    obtain ⟨ids, hids, hlen⟩ := ih c.next hrest
    subst hp
    refine ⟨c.id :: ids, ?_, by simp [hlen]⟩
    simp only [List.length_cons]
    rw [linked_ids]
    simp only [hc, hids, Option.map_some']

theorem CountOK_of_QueueOK (h : CarHeap) (q : Queue) (as : List Nat) (hq : QueueOK h q as) :
    CountOK h q := by
  obtain ⟨hch, _, hcount⟩ := hq
  obtain ⟨ids, hids, hlen⟩ := linked_ids_of_chain h as q.front hch
  refine ⟨ids, by rw [hlen]; exact hids, by rw [hcount, hlen], ?_⟩
  rw [hcount]
  cases as with
  | nil =>
    rw [IsChain_nil] at hch
    simp [hch]
  | cons a as =>
    rw [IsChain_cons] at hch
    simp only [List.length_cons, hch.1]
    constructor
    · intro h0; push_cast at h0; omega
    · intro h0; exact absurd h0 (by simp)

/-- Calls of `enqueue` and `dequeue` never fault on a well-formed queue and keep it
well formed. -/
theorem queue_calls_ok :
    ∀ (cs : List QueueCall) (h : CarHeap) (q : Queue) (as : List Nat), QueueOK h q as →
      ∃ h1 q1 as1, queue_calls cs (h, q) = some (h1, q1) ∧ QueueOK h1 q1 as1 := by
  intro cs
  induction cs with
  | nil => intro h q as hq; exact ⟨h, q, as, rfl, hq⟩
  | cons c cs ih =>
    intro h q as hq
    cases c with
    | enq id now =>
      obtain ⟨h1, q1, henq, hq1, _⟩ := enqueue_spec h q as id now hq
      obtain ⟨h2, q2, as2, hrun, hq2⟩ := ih h1 q1 _ hq1
      exact ⟨h2, q2, as2, by simp only [queue_calls, queue_call, henq]; exact hrun, hq2⟩
    | deq =>
      cases as with
      | nil =>
        have hdq := dequeue_empty h q hq
        obtain ⟨h2, q2, as2, hrun, hq2⟩ := ih h q [] hq
        exact ⟨h2, q2, as2, by simp only [queue_calls, queue_call, hdq]; exact hrun, hq2⟩
      | cons a as =>
        obtain ⟨c, q1, _, hdq, hq1, _⟩ := dequeue_spec h q a as hq
        obtain ⟨h2, q2, as2, hrun, hq2⟩ := ih _ q1 as hq1
        exact ⟨h2, q2, as2, by simp only [queue_calls, queue_call, hdq]; exact hrun, hq2⟩

/-! ## The sample states are well formed -/

theorem empty_stack_ok : StackOK empty_stack := by
  refine ⟨by simp [empty_stack], by decide, by decide⟩

theorem full_stack_ok : StackOK full_stack := by
  refine ⟨by simp [full_stack, List.length_map, List.length_range], by decide, by decide⟩

theorem sample_ring_ok (m0 m1 m2 m3 : Nat) (st : Stack) (d : Nat)
    (h0 : m0 < 2 ^ 64) (h1 : m1 < 2 ^ 64) (h2 : m2 < 2 ^ 64) (h3 : m3 < 2 ^ 64) :
    RingOK (sample m0 m1 m2 m3 st d) :=
  RingOK_of_ring rfl rfl h0 h1 h2 h3

theorem sample_entry_ok (m0 m1 m2 m3 : Nat) (st : Stack) (d : Nat) :
    QueueOK (sample m0 m1 m2 m3 st d).carHeap (sample m0 m1 m2 m3 st d).entryQueue [0, 1] := by
  simp [QueueOK, sample, IsChain]

theorem sample_exit_ok (m0 m1 m2 m3 : Nat) (st : Stack) (d : Nat) :
    QueueOK (sample m0 m1 m2 m3 st d).carHeap (sample m0 m1 m2 m3 st d).exitQueue [2] := by
  simp [QueueOK, sample, IsChain]

theorem sample_wf (m0 m1 m2 m3 : Nat) (st : Stack) (d : Nat)
    (h0 : m0 < 2 ^ 64) (h1 : m1 < 2 ^ 64) (h2 : m2 < 2 ^ 64) (h3 : m3 < 2 ^ 64)
    (hst : StackOK st) (hd : d < MAX_FLOORS) : WF (sample m0 m1 m2 m3 st d) :=
  ⟨sample_ring_ok m0 m1 m2 m3 st d h0 h1 h2 h3, hst, rfl, ⟨d, hd, rfl⟩,
    [0, 1], [2], sample_entry_ok m0 m1 m2 m3 st d, sample_exit_ok m0 m1 m2 m3 st d, by simp⟩

/-! ## First in, first out -/

theorem QueueOK_nil_fields {h : CarHeap} {q : Queue} (hq : QueueOK h q []) :
    q.front = none ∧ q.rear = none ∧ q.count = 0 :=
  ⟨(IsChain_nil _ _).1 hq.1, hq.2.1, hq.2.2⟩

theorem records_length (h : CarHeap) :
    ∀ (as : List Nat) (p : Ptr), IsChain h p as → (records h as).length = as.length := by
  intro as
  induction as with
  | nil => intro _ _; rfl
  | cons a as ih =>
    intro p hch
    rw [IsChain_cons] at hch
    obtain ⟨_, c, hc, hrest⟩ := hch
    rw [records_cons_live h a as c hc, List.length_cons, List.length_cons, ih c.next hrest]

/-- Enqueuing a list of records appends them, in order, behind the records present. -/
theorem enqueue_all_spec :
    ∀ (l : List (Int × Int)) (h : CarHeap) (q : Queue) (as : List Nat), QueueOK h q as →
      ∃ h1 q1 as1, enqueue_all l (h, q) = some (h1, q1) ∧ QueueOK h1 q1 as1 ∧
        records h1 as1 = records h as ++ l := by
  intro l
  induction l with
  | nil => intro h q as hq; exact ⟨h, q, as, rfl, hq, by simp⟩
  | cons x l ih =>
    intro h q as hq
    obtain ⟨id, now⟩ := x
    obtain ⟨h1, q1, henq, hq1, hrec1, _, _⟩ := enqueue_spec h q as id now hq
    obtain ⟨h2, q2, as2, hall, hq2, hrec2⟩ := ih h1 q1 _ hq1
    refine ⟨h2, q2, as2, ?_, hq2, ?_⟩
    · simp only [enqueue_all, henq]; exact hall
    · rw [hrec2, hrec1, List.append_assoc]; rfl

/-- Dequeuing as many times as there are records returns their ids in order and leaves
the queue empty. -/
theorem dequeue_many_spec :
    ∀ (as : List Nat) (h : CarHeap) (q : Queue), QueueOK h q as →
      ∃ h1 q1, dequeue_many as.length (h, q)
          = some (h1, q1, (records h as).map Prod.fst) ∧ QueueOK h1 q1 [] := by
  intro as
  induction as with
  | nil => intro h q hq; exact ⟨h, q, rfl, hq⟩
  | cons a as ih =>
    intro h q hq
    obtain ⟨c, q1, _, hdq, hq1, hrec, _, _⟩ := dequeue_spec h q a as hq
    obtain ⟨h2, q2, hmany, hq2⟩ := ih (h.set a none) q1 hq1
    refine ⟨h2, q2, ?_, hq2⟩
    simp only [List.length_cons, dequeue_many, hdq, hmany, hrec, List.map_cons]

/-! ## Nothing to do: the degenerate commands -/

theorem process_entry_empty (fuel : Nat) (s : State) (hc : s.entryQueue.count = 0) :
    process_entry fuel s
      = some { s with actionLog := log_action s.actionLog "Entry Queue is empty!" } := by
  simp only [process_entry, hc, if_true]

theorem process_exit_empty (s : State) (hc : s.exitQueue.count = 0) :
    process_exit s
      = some { s with actionLog := log_action s.actionLog "Exit Queue is empty!" } := by
  simp only [process_exit, hc, if_true]

theorem request_exit_loop_none (now : Int) (fuel : Nat) (s : State) (hfuel : 4 ≤ fuel)
    (hfh : s.floorHeap = ring 0 0 0 0) (hhead : s.headFloor = some 0) :
    request_exit_loop now fuel s (some 0) = some (s, false) := by
  obtain ⟨n, rfl⟩ : ∃ n, fuel = n + 4 := ⟨fuel - 4, by omega⟩
  have g0 : s.floorHeap[0]? = some ⟨1, 0, some 1⟩ := by rw [hfh]; rfl
  have g1 : s.floorHeap[1]? = some ⟨2, 0, some 2⟩ := by rw [hfh]; rfl
  have g2 : s.floorHeap[2]? = some ⟨3, 0, some 3⟩ := by rw [hfh]; rfl
  have g3 : s.floorHeap[3]? = some ⟨4, 0, some 0⟩ := by rw [hfh]; rfl
  rw [show n + 4 = n + 3 + 1 from rfl,
    request_exit_loop_skip now (n + 3) s 0 _ g0 rfl (by rw [hhead]; simp)]
  rw [show n + 3 = n + 2 + 1 from rfl,
    request_exit_loop_skip now (n + 2) s 1 _ g1 rfl (by rw [hhead]; simp)]
  rw [show n + 2 = n + 1 + 1 from rfl,
    request_exit_loop_skip now (n + 1) s 2 _ g2 rfl (by rw [hhead]; simp)]
  exact request_exit_loop_end now n s 3 _ g3 rfl (by rw [hhead])

/-- With no occupied slot anywhere `request_exit` only records a message. -/
theorem request_exit_none (fuel : Nat) (now : Int) (s : State) (hring : RingOK s)
    (hfuel : 4 ≤ fuel) (hzero : ∀ f, f ∈ s.floorHeap → f.slots = 0) :
    request_exit fuel now s
      = some { s with actionLog := log_action s.actionLog "No cars to exit!" } := by
  obtain ⟨m0, m1, m2, m3, hfh, hhead, _, _, _, _⟩ := ring_of_RingOK hring
  rw [hfh] at hzero
  have e0 : m0 = 0 := hzero ⟨1, m0, some 1⟩ (by simp [ring])
  have e1 : m1 = 0 := hzero ⟨2, m1, some 2⟩ (by simp [ring])
  have e2 : m2 = 0 := hzero ⟨3, m2, some 3⟩ (by simp [ring])
  have e3 : m3 = 0 := hzero ⟨4, m3, some 0⟩ (by simp [ring])
  subst e0 e1 e2 e3
  have hloop := request_exit_loop_none now fuel s hfuel hfh hhead
  rw [← hhead] at hloop
  simp only [request_exit, hloop]
  rfl

/-! ## C1 -/

/-- C1: for every 64-bit mask, `find_free_slot` returns -1 exactly when the mask is all
ones, and otherwise returns the smallest index in 0..63 whose bit is clear (every bit
below it is set, the bit itself is clear). -/
theorem find_free_slot_lowest_clear (m : Nat) (hm : m < 2 ^ 64) :
    (find_free_slot m = -1 ↔ m = UINT64_MAX) ∧
    (m ≠ UINT64_MAX →
      ∃ i : Nat, i < 64 ∧ find_free_slot m = (i : Int) ∧ is_slot_occupied m i = false ∧
        ∀ j, j < i → is_slot_occupied m j = true) := by
  refine ⟨(find_free_slot_cases m hm).1, fun hne => ?_⟩
  obtain ⟨i, hi, hfind, hclear, hlow⟩ := (find_free_slot_cases m hm).2 hne
  refine ⟨i, hi, hfind, ?_, ?_⟩
  · rw [is_slot_occupied_eq]; exact hclear
  · intro j hj; rw [is_slot_occupied_eq]; exact hlow j hj

theorem find_free_slot_lowest_clear_witness :
    (find_free_slot 11 = -1 ↔ 11 = UINT64_MAX) ∧
    (11 ≠ UINT64_MAX →
      ∃ i : Nat, i < 64 ∧ find_free_slot 11 = (i : Int) ∧ is_slot_occupied 11 i = false ∧
        ∀ j, j < i → is_slot_occupied 11 j = true) :=
  find_free_slot_lowest_clear 11 (by norm_num)

/-! ## C2, C3, C4: parking a car -/

/-- C2: in every well-formed state whose entry queue is non-empty and where some floor
has a clear bit, `process_entry` succeeds and changes the occupancy by exactly one bit:
the bit at the reported (floor, slot) goes from clear to set, every other bit of every
floor keeps its value, and the total number of set bits grows by exactly one. -/
theorem process_entry_sets_exactly_one_bit (s : State) (fuel : Nat) (as : List Nat)
    (hring : RingOK s) (hst : StackOK s.evacuationStack)
    (hq : QueueOK s.carHeap s.entryQueue as) (hfuel : MAX_FLOORS ≤ fuel)
    (hne : s.entryQueue.count ≠ 0)
    (hfree : ∃ f, f ∈ s.floorHeap ∧ f.slots ≠ UINT64_MAX) :
    ∃ (s1 : State) (t i : Nat) (f : Floor) (carId : Int) (m1 : Nat),
      process_entry fuel s = some s1 ∧
      s1.actionLog = log_action s.actionLog (parked_msg carId f.floor_number i) ∧
      t < MAX_FLOORS ∧ i < SLOTS_PER_FLOOR ∧ s.floorHeap[t]? = some f ∧
      is_slot_occupied f.slots i = false ∧
      s1.floorHeap = s.floorHeap.set t { f with slots := m1 } ∧
      is_slot_occupied m1 i = true ∧
      (∀ j, j ≠ i → is_slot_occupied m1 j = is_slot_occupied f.slots j) ∧
      total_occupied s1.floorHeap = total_occupied s.floorHeap + 1 := by
  obtain ⟨a, as1, rfl⟩ := cons_of_count_ne_zero hq hne
  obtain ⟨t, i, f, c, q1, st1, ht, hi, hf, hfb, hclear, _, _, _, _, _, hpe, htot⟩ :=
    process_entry_park_spec s fuel a as1 hring hst hq hfuel hfree
  refine ⟨_, t, i, f, c.id, set_slot f.slots i, hpe, rfl, ht, hi, hf, ?_, rfl, ?_, ?_, htot⟩
  · rw [is_slot_occupied_eq]; exact hclear
  · rw [is_slot_occupied_eq, testBit_set_slot _ _ _ hfb hi]; simp
  · intro j hj
    rw [is_slot_occupied_eq, is_slot_occupied_eq, testBit_set_slot _ _ _ hfb hi]
    simp [Ne.symm hj]

theorem process_entry_sets_exactly_one_bit_witness :
    ∃ (s1 : State) (t i : Nat) (f : Floor) (carId : Int) (m1 : Nat),
      process_entry 4 (sample UINT64_MAX 5 0 0 empty_stack 2) = some s1 ∧
      s1.actionLog = log_action (sample UINT64_MAX 5 0 0 empty_stack 2).actionLog
        (parked_msg carId f.floor_number i) ∧
      t < MAX_FLOORS ∧ i < SLOTS_PER_FLOOR ∧
      (sample UINT64_MAX 5 0 0 empty_stack 2).floorHeap[t]? = some f ∧
      is_slot_occupied f.slots i = false ∧
      s1.floorHeap = (sample UINT64_MAX 5 0 0 empty_stack 2).floorHeap.set t { f with slots := m1 } ∧
      is_slot_occupied m1 i = true ∧
      (∀ j, j ≠ i → is_slot_occupied m1 j = is_slot_occupied f.slots j) ∧
      total_occupied s1.floorHeap
        = total_occupied (sample UINT64_MAX 5 0 0 empty_stack 2).floorHeap + 1 :=
  process_entry_sets_exactly_one_bit (sample UINT64_MAX 5 0 0 empty_stack 2) 4 [0, 1]
    (sample_ring_ok _ _ _ _ _ _ (by norm_num [UINT64_MAX]) (by norm_num) (by norm_num)
      (by norm_num))
    empty_stack_ok (sample_entry_ok _ _ _ _ _ _) (by decide) (by decide)
    ⟨⟨2, 5, some 2⟩, by simp [sample, ring], by decide⟩

theorem mask_at_ring_full (m0 m1 m2 m3 t : Nat) (ht : t < 4)
    (hfull : ∀ k, k < t → ∃ g, (ring m0 m1 m2 m3)[k]? = some g ∧ g.slots = UINT64_MAX) :
    ∀ k, k < t →
      mask_at (ring m0 m1 m2 m3) (ring_nth (ring m0 m1 m2 m3) (some 0) k) = some UINT64_MAX := by
  intro k hk
  obtain ⟨g, hg, hgm⟩ := hfull k hk
  rw [ring_nth_ring m0 m1 m2 m3 k (by omega)]
  simp [mask_at, hg, hgm]

/-- C3: allocation is first-fit over the ring from the head. When `process_entry` parks a
car it does so at a floor `t` (the `k`-th from the head along `next`) and a slot `i` such
that every floor before `t` in ring order is completely full, every slot below `i` on
floor `t` was occupied and slot `i` was free; the display cursor `d` plays no part. -/
theorem process_entry_first_fit (s : State) (fuel : Nat) (as : List Nat)
    (hring : RingOK s) (hst : StackOK s.evacuationStack)
    (hq : QueueOK s.carHeap s.entryQueue as) (hfuel : MAX_FLOORS ≤ fuel)
    (hne : s.entryQueue.count ≠ 0)
    (hfree : ∃ f, f ∈ s.floorHeap ∧ f.slots ≠ UINT64_MAX) :
    ∃ (t i k : Nat) (f : Floor),
      s.floorHeap[t]? = some f ∧ i < SLOTS_PER_FLOOR ∧ k < MAX_FLOORS ∧
      ring_nth s.floorHeap s.headFloor k = some t ∧
      (∀ k1, k1 < k →
        mask_at s.floorHeap (ring_nth s.floorHeap s.headFloor k1) = some UINT64_MAX) ∧
      (∀ j, j < i → is_slot_occupied f.slots j = true) ∧
      is_slot_occupied f.slots i = false ∧
      ∀ d : Ptr, ∃ s1, process_entry fuel { s with currentFloorDisplay := d } = some s1 ∧
        s1.floorHeap = s.floorHeap.set t { f with slots := set_slot f.slots i } ∧
        s1.currentFloorDisplay = d := by
  obtain ⟨m0, m1, m2, m3, hfh, hhead, b0, b1, b2, b3⟩ := ring_of_RingOK hring
  obtain ⟨a, as1, rfl⟩ := cons_of_count_ne_zero hq hne
  rw [hfh] at hfree
  obtain ⟨t, i, f, ht, hi, hfind, hf, hfb, hclear, hlow, hfull⟩ :=
    find_floor_first_fit m0 m1 m2 m3 fuel hfuel b0 b1 b2 b3 (not_all_full_of_exists hfree)
  have hmask : ∀ k1, k1 < t →
      mask_at s.floorHeap (ring_nth s.floorHeap s.headFloor k1) = some UINT64_MAX := by
    rw [hfh, hhead]; exact mask_at_ring_full m0 m1 m2 m3 t ht hfull
  have hnth : ring_nth s.floorHeap s.headFloor t = some t := by
    rw [hfh, hhead]; exact ring_nth_ring m0 m1 m2 m3 t ht
  rw [← hfh, ← hhead] at hfind
  rw [← hfh] at hf
  refine ⟨t, i, t, f, hf, hi, ht, hnth, hmask, ?_, ?_, ?_⟩
  · intro j hj; rw [is_slot_occupied_eq]; exact hlow j hj
  · rw [is_slot_occupied_eq]; exact hclear
  · intro d
    obtain ⟨c, q1, st1, _, _, _, hpe⟩ :=
      process_entry_parks { s with currentFloorDisplay := d } fuel a as1 t i f hst hq hfind hf
    exact ⟨_, hpe, by simp, rfl⟩

theorem process_entry_first_fit_witness :
    ∃ (t i k : Nat) (f : Floor),
      (sample UINT64_MAX 5 0 0 empty_stack 2).floorHeap[t]? = some f ∧
      i < SLOTS_PER_FLOOR ∧ k < MAX_FLOORS ∧
      ring_nth (sample UINT64_MAX 5 0 0 empty_stack 2).floorHeap
        (sample UINT64_MAX 5 0 0 empty_stack 2).headFloor k = some t ∧
      (∀ k1, k1 < k →
        mask_at (sample UINT64_MAX 5 0 0 empty_stack 2).floorHeap
          (ring_nth (sample UINT64_MAX 5 0 0 empty_stack 2).floorHeap
            (sample UINT64_MAX 5 0 0 empty_stack 2).headFloor k1) = some UINT64_MAX) ∧
      (∀ j, j < i → is_slot_occupied f.slots j = true) ∧
      is_slot_occupied f.slots i = false ∧
      ∀ d : Ptr, ∃ s1,
        process_entry 4 { sample UINT64_MAX 5 0 0 empty_stack 2 with currentFloorDisplay := d }
          = some s1 ∧
        s1.floorHeap = (sample UINT64_MAX 5 0 0 empty_stack 2).floorHeap.set t
          { f with slots := set_slot f.slots i } ∧
        s1.currentFloorDisplay = d :=
  process_entry_first_fit (sample UINT64_MAX 5 0 0 empty_stack 2) 4 [0, 1]
    (sample_ring_ok _ _ _ _ _ _ (by norm_num [UINT64_MAX]) (by norm_num) (by norm_num)
      (by norm_num))
    empty_stack_ok (sample_entry_ok _ _ _ _ _ _) (by decide) (by decide)
    ⟨⟨2, 5, some 2⟩, by simp [sample, ring], by decide⟩

theorem find_floor_all_full (s : State) (fuel : Nat) (hring : RingOK s)
    (hfuel : MAX_FLOORS ≤ fuel) (hfull : ∀ f, f ∈ s.floorHeap → f.slots = UINT64_MAX) :
    find_floor s.floorHeap s.headFloor fuel s.headFloor = some (none, -1) := by
  obtain ⟨m0, m1, m2, m3, hfh, hhead, _, _, _, _⟩ := ring_of_RingOK hring
  rw [hfh] at hfull
  have e0 : m0 = UINT64_MAX := hfull ⟨1, m0, some 1⟩ (by simp [ring])
  have e1 : m1 = UINT64_MAX := hfull ⟨2, m1, some 2⟩ (by simp [ring])
  have e2 : m2 = UINT64_MAX := hfull ⟨3, m2, some 3⟩ (by simp [ring])
  have e3 : m3 = UINT64_MAX := hfull ⟨4, m3, some 0⟩ (by simp [ring])
  subst e0 e1 e2 e3
  rw [hfh, hhead]
  exact find_floor_full fuel hfuel

/-- C4: in every state with a non-empty entry queue and all four floors full,
`process_entry` only records "PARKING FULL! Please wait." as the newest log entry: the
entry queue (front, rear, count and the nodes on the heap, hence head record and order),
the floors, the evacuation stack, the exit queue and the id counter are unchanged. -/
theorem process_entry_full_keeps_queue (s : State) (fuel : Nat) (hring : RingOK s)
    (hlog : s.actionLog.length = LOG_SIZE) (hfuel : MAX_FLOORS ≤ fuel)
    (hne : s.entryQueue.count ≠ 0)
    (hfull : ∀ f, f ∈ s.floorHeap → f.slots = UINT64_MAX) :
    ∃ s1, process_entry fuel s = some s1 ∧
      s1 = { s with actionLog := log_action s.actionLog "PARKING FULL! Please wait." } ∧
      s1.actionLog[0]? = some (c_row "PARKING FULL! Please wait.") ∧
      s1.entryQueue = s.entryQueue ∧ s1.carHeap = s.carHeap ∧
      (∀ n, linked_ids s1.carHeap n s1.entryQueue.front = linked_ids s.carHeap n s.entryQueue.front) ∧
      s1.floorHeap = s.floorHeap ∧ s1.evacuationStack = s.evacuationStack ∧
      s1.exitQueue = s.exitQueue ∧ s1.carIdCounter = s.carIdCounter := by
  have hfind := find_floor_all_full s fuel hring hfuel hfull
  refine ⟨_, process_entry_full s fuel (-1) hne hfind, rfl, ?_, rfl, rfl, fun _ => rfl, rfl, rfl,
    rfl, rfl⟩
  show (log_action s.actionLog "PARKING FULL! Please wait.")[0]? = _
  rw [log_action_head _ _ (by rw [hlog]; decide), strncpy100_short _ (by decide) (by decide)]

theorem process_entry_full_keeps_queue_witness :
    ∃ s1, process_entry 4 (sample UINT64_MAX UINT64_MAX UINT64_MAX UINT64_MAX full_stack 1)
        = some s1 ∧
      s1 = { sample UINT64_MAX UINT64_MAX UINT64_MAX UINT64_MAX full_stack 1 with
        actionLog := log_action
          (sample UINT64_MAX UINT64_MAX UINT64_MAX UINT64_MAX full_stack 1).actionLog
          "PARKING FULL! Please wait." } ∧
      s1.actionLog[0]? = some (c_row "PARKING FULL! Please wait.") ∧
      s1.entryQueue = (sample UINT64_MAX UINT64_MAX UINT64_MAX UINT64_MAX full_stack 1).entryQueue ∧
      s1.carHeap = (sample UINT64_MAX UINT64_MAX UINT64_MAX UINT64_MAX full_stack 1).carHeap ∧
      (∀ n, linked_ids s1.carHeap n s1.entryQueue.front
        = linked_ids (sample UINT64_MAX UINT64_MAX UINT64_MAX UINT64_MAX full_stack 1).carHeap n
            (sample UINT64_MAX UINT64_MAX UINT64_MAX UINT64_MAX full_stack 1).entryQueue.front) ∧
      s1.floorHeap = (sample UINT64_MAX UINT64_MAX UINT64_MAX UINT64_MAX full_stack 1).floorHeap ∧
      s1.evacuationStack
        = (sample UINT64_MAX UINT64_MAX UINT64_MAX UINT64_MAX full_stack 1).evacuationStack ∧
      s1.exitQueue = (sample UINT64_MAX UINT64_MAX UINT64_MAX UINT64_MAX full_stack 1).exitQueue ∧
      s1.carIdCounter
        = (sample UINT64_MAX UINT64_MAX UINT64_MAX UINT64_MAX full_stack 1).carIdCounter :=
  process_entry_full_keeps_queue (sample UINT64_MAX UINT64_MAX UINT64_MAX UINT64_MAX full_stack 1) 4
    (sample_ring_ok _ _ _ _ _ _ (by norm_num [UINT64_MAX]) (by norm_num [UINT64_MAX])
      (by norm_num [UINT64_MAX]) (by norm_num [UINT64_MAX]))
    rfl (by decide) (by decide)
    (by intro f hf
        simp only [sample, ring, List.mem_cons, List.mem_singleton, List.not_mem_nil,
          or_false] at hf
        rcases hf with rfl | rfl | rfl | rfl <;> rfl)

/-! ## C5: every park pushes one id, unless the stack is full -/

theorem one_waiting_reachable : Reachable one_waiting :=
  ⟨4, [Cmd.add_entry 0], initial, init_system_boot, rfl⟩

/-- C5 fails in a reachable state: after 256 cars are parked, one leaves through
`request_exit` (which does not pop the stack) and one more car queues, `process_entry`
parks that car although the stack is full, so the push is dropped and the depth stays 256. -/
theorem park_on_full_stack_counterexample :
    ∃ s s1, init_system boot = some initial ∧ run 4 overflow_cmds initial = some s ∧
      s.entryQueue.count ≠ 0 ∧ process_entry 4 s = some s1 ∧
      total_occupied s1.floorHeap = total_occupied s.floorHeap + 1 ∧
      s1.entryQueue.count = s.entryQueue.count - 1 ∧
      depth s.evacuationStack = 256 ∧ depth s1.evacuationStack = 256 := by
  obtain ⟨s0, hrun0, hwf0, hcount0, htop0, htot0⟩ := park_rounds_run 4 (le_refl _) 256 (le_refl _)
  have hocc := exists_occupied_of_total s0 hwf0.1 (by rw [htot0]; norm_num)
  obtain ⟨sa, hexitrun, hwfa, htota, hentrya, hsta⟩ :=
    request_exit_frees_one 4 0 s0 hwf0 (le_refl _) hocc
  obtain ⟨sb, hadd, hwfb, hcountb, hflb, hstb⟩ := add_car_to_entry_spec 0 sa hwfa
  have hcb : sb.entryQueue.count = 1 := by rw [hcountb, hentrya, hcount0]; rfl
  have hne : sb.entryQueue.count ≠ 0 := by rw [hcb]; decide
  have htotb : total_occupied sb.floorHeap = 255 := by rw [hflb]; omega
  have hfree := exists_not_full_of_total sb hwfb.1 (by rw [htotb]; norm_num)
  obtain ⟨sc, a, c, hpe, _, _, _, _, hpush, hcountc, htotc⟩ :=
    process_entry_park_wf 4 sb hwfb (le_refl _) hne hfree
  have htopb : sb.evacuationStack.top = 255 := by rw [hstb, hsta, htop0]; norm_num
  rw [push_at_capacity sb.evacuationStack c.id (by rw [htopb])] at hpush
  simp only [Option.some.injEq] at hpush
  refine ⟨sb, sc, init_system_boot, ?_, hne, hpe, htotc, hcountc, ?_, ?_⟩
  · show run 4 (park_rounds (4 * 64) ++ [Cmd.request_exit 0, Cmd.add_entry 0]) initial = some sb
    rw [run_append 4 _ _ initial s0 hrun0]
    simp only [run, exec, hexitrun, hadd]
  · simp only [depth, htopb]; norm_num
  · rw [← hpush]; simp only [depth, htopb]; norm_num

/-- C5 (amended): in every reachable state with a waiting car and a free slot,
`process_entry` parks the car at the head of the entry queue; if the evacuation stack
holds fewer than 256 ids its depth grows by exactly one, the new top is the id of the
dequeued car and the items below are unchanged; if it already holds 256 ids the push is
dropped and the stack is unchanged. -/
theorem process_entry_pushes_when_room (s : State) (fuel : Nat) (hreach : Reachable s)
    (hfuel : MAX_FLOORS ≤ fuel) (hne : s.entryQueue.count ≠ 0)
    (hfree : ∃ f, f ∈ s.floorHeap ∧ f.slots ≠ UINT64_MAX) :
    ∃ (s1 : State) (a : Nat) (c : Car),
      process_entry fuel s = some s1 ∧
      total_occupied s1.floorHeap = total_occupied s.floorHeap + 1 ∧
      s.entryQueue.front = some a ∧ s.carHeap[a]? = some (some c) ∧
      dequeue s.carHeap s.entryQueue = some (s1.carHeap, s1.entryQueue, c.id) ∧
      (depth s.evacuationStack < 256 →
        depth s1.evacuationStack = depth s.evacuationStack + 1 ∧
        s1.evacuationStack.items[s1.evacuationStack.top.toNat]? = some c.id ∧
        ∀ k : Nat, (k : Int) < depth s.evacuationStack →
          s1.evacuationStack.items[k]? = s.evacuationStack.items[k]?) ∧
      (depth s.evacuationStack = 256 → s1.evacuationStack = s.evacuationStack) := by
  have hwf := reachable_wf s hreach
  obtain ⟨s1, a, c, hpe, _, hfront, hc, hdq, hpush, _, htot⟩ :=
    process_entry_park_wf fuel s hwf hfuel hne hfree
  have hst := hwf.2.1
  refine ⟨s1, a, c, hpe, htot, hfront, hc, hdq, ?_, ?_⟩
  · intro hroom
    have hroom1 : s.evacuationStack.top < 255 := by
      simp only [depth] at hroom; omega
    have hp := (push_below_capacity s.evacuationStack c.id hst hroom1).1
    rw [hpush] at hp
    simp only [Option.some.injEq] at hp
    obtain ⟨hlen, hlo, hhi⟩ := hst
    simp only [MAX_FLOORS, SLOTS_PER_FLOOR] at hlen
    have hidx : (s.evacuationStack.top + 1).toNat < s.evacuationStack.items.length := by omega
    rw [hp]
    refine ⟨rfl, ?_, ?_⟩
    · show (s.evacuationStack.items.set (s.evacuationStack.top + 1).toNat c.id)[
        (s.evacuationStack.top + 1).toNat]? = some c.id
      exact List.getElem?_set_self hidx
    · intro k hk
      show (s.evacuationStack.items.set (s.evacuationStack.top + 1).toNat c.id)[k]? = _
      simp only [depth] at hk
      rw [List.getElem?_set_ne (by omega)]
  · intro hfull
    have htop : 255 ≤ s.evacuationStack.top := by
      simp only [depth] at hfull; omega
    rw [push_at_capacity s.evacuationStack c.id htop] at hpush
    simp only [Option.some.injEq] at hpush
    exact hpush.symm

theorem process_entry_pushes_when_room_witness :
    ∃ (s1 : State) (a : Nat) (c : Car),
      process_entry 4 one_waiting = some s1 ∧
      total_occupied s1.floorHeap = total_occupied one_waiting.floorHeap + 1 ∧
      one_waiting.entryQueue.front = some a ∧ one_waiting.carHeap[a]? = some (some c) ∧
      dequeue one_waiting.carHeap one_waiting.entryQueue
        = some (s1.carHeap, s1.entryQueue, c.id) ∧
      (depth one_waiting.evacuationStack < 256 →
        depth s1.evacuationStack = depth one_waiting.evacuationStack + 1 ∧
        s1.evacuationStack.items[s1.evacuationStack.top.toNat]? = some c.id ∧
        ∀ k : Nat, (k : Int) < depth one_waiting.evacuationStack →
          s1.evacuationStack.items[k]? = one_waiting.evacuationStack.items[k]?) ∧
      (depth one_waiting.evacuationStack = 256 →
        s1.evacuationStack = one_waiting.evacuationStack) :=
  process_entry_pushes_when_room one_waiting 4 one_waiting_reachable (by decide) (by decide)
    ⟨⟨1, 0, some 1⟩, by simp [one_waiting, ring], by decide⟩

/-! ## C6: emergency evacuation -/

/-- The draining loop empties a well-formed stack when it may run more iterations than
the stack is deep. -/
theorem evacuate_loop_drains (fuel : Nat) :
    ∀ (st : Stack) (log : List Row), StackOK st → st.top + 1 < (fuel : Int) →
      ∃ log1, evacuate_loop fuel st log = some ({ st with top := -1 }, log1) ∧
        log1.length = log.length := by
  induction fuel with
  | zero =>
    intro st log hst hf
    obtain ⟨_, hlo, _⟩ := hst
    simp at hf
    omega
  | succ fuel ih =>
    intro st log hst hf
    by_cases htop : 0 ≤ st.top
    · obtain ⟨v, _, hpop⟩ := pop_nonempty st hst htop
      have hst1 : StackOK { st with top := st.top - 1 } := by
        obtain ⟨hlen, hlo, hhi⟩ := hst
        refine ⟨hlen, ?_, ?_⟩
        · show -1 ≤ st.top - 1
          omega
        · show st.top - 1 < _
          omega
      have hf1 : ({ st with top := st.top - 1 } : Stack).top + 1 < (fuel : Int) := by
        show st.top - 1 + 1 < (fuel : Int)
        push_cast at hf
        omega
      obtain ⟨log1, hrun, hlen1⟩ := ih { st with top := st.top - 1 }
        (log_action log ("Evacuating Car #" ++ toString v)) hst1 hf1
      refine ⟨log1, ?_, by rw [hlen1, log_action_length]⟩
      simp only [evacuate_loop, ge_iff_le, htop, if_true, hpop]
      exact hrun
    · have he : st.top = -1 := by
        obtain ⟨_, hlo, _⟩ := hst
        omega
      refine ⟨log, ?_, rfl⟩
      simp only [evacuate_loop, ge_iff_le, htop, if_false]
      cases st
      simp_all

/-- The clearing loop zeroes every floor of the ring. -/
theorem clear_floors_ring (m0 m1 m2 m3 fuel : Nat) (hfuel : 4 ≤ fuel) :
    clear_floors (some 0) fuel (ring m0 m1 m2 m3) (some 0) = some (ring 0 0 0 0) := by
  obtain ⟨n, rfl⟩ : ∃ n, fuel = n + 4 := ⟨fuel - 4, by omega⟩
  simp [clear_floors, ring]

/-- C6: from every well-formed pre-call state, whatever the occupancy masks and the
stack contents are (they need not agree), `simulate_emergency` terminates (given fuel
for four ring steps and for one pop per stacked id) with all four floors' masks equal
to 0 and the evacuation stack empty (`top = -1`). -/
theorem simulate_emergency_clears_all (s : State) (fuel : Nat) (hring : RingOK s)
    (hst : StackOK s.evacuationStack) (hfuel : MAX_FLOORS ≤ fuel)
    (hdepth : depth s.evacuationStack < (fuel : Int)) :
    ∃ s1, simulate_emergency fuel s = some s1 ∧
      s1.floorHeap.map (fun f => f.slots) = [0, 0, 0, 0] ∧
      (∀ f, f ∈ s1.floorHeap → f.slots = 0) ∧
      total_occupied s1.floorHeap = 0 ∧
      s1.evacuationStack.top = -1 := by
  obtain ⟨m0, m1, m2, m3, hfh, hhead, _, _, _, _⟩ := ring_of_RingOK hring
  obtain ⟨log1, hev, _⟩ := evacuate_loop_drains fuel s.evacuationStack
    (log_action s.actionLog "!!! EMERGENCY EVACUATION STARTED !!!") hst hdepth
  have hcl := clear_floors_ring m0 m1 m2 m3 fuel hfuel
  rw [← hfh, ← hhead] at hcl
  have hrun : simulate_emergency fuel s = some { s with
      evacuationStack := { s.evacuationStack with top := -1 }, floorHeap := ring 0 0 0 0,
      actionLog := log_action log1 "Evacuation Complete. All slots empty." } := by
    simp only [simulate_emergency, hev, hcl]
  refine ⟨_, hrun, ?_, ?_, ?_, rfl⟩
  · simp [ring]
  · intro f hf
    simp only [ring, List.mem_cons, List.mem_singleton, List.not_mem_nil, or_false] at hf
    rcases hf with rfl | rfl | rfl | rfl <;> rfl
  · simp [total_occupied, ring, occupied]

theorem simulate_emergency_clears_all_witness :
    ∃ s1, simulate_emergency 257 (sample UINT64_MAX 5 0 7 empty_stack 3) = some s1 ∧
      s1.floorHeap.map (fun f => f.slots) = [0, 0, 0, 0] ∧
      (∀ f, f ∈ s1.floorHeap → f.slots = 0) ∧
      total_occupied s1.floorHeap = 0 ∧
      s1.evacuationStack.top = -1 :=
  simulate_emergency_clears_all (sample UINT64_MAX 5 0 7 empty_stack 3) 257
    (sample_ring_ok _ _ _ _ _ _ (by norm_num [UINT64_MAX]) (by norm_num) (by norm_num)
      (by norm_num))
    empty_stack_ok (by decide) (by decide)

/-! ## C7: requesting an exit -/

/-- C7: in every well-formed state in which some floor has an occupied slot,
`request_exit` clears exactly one bit, the lowest set bit of the first floor in ring order
from the head whose mask is non-zero; it appends exactly one record with the placeholder
id 999 at the tail of the exit queue (count + 1) and leaves every other bit of every
floor, the entry queue, the evacuation stack and the id counter unchanged. -/
theorem request_exit_clears_first_occupied (s : State) (fuel : Nat) (now : Int)
    (as bs : List Nat) (hring : RingOK s)
    (hentry : QueueOK s.carHeap s.entryQueue as) (hexit : QueueOK s.carHeap s.exitQueue bs)
    (hdis : as.Disjoint bs) (hfuel : MAX_FLOORS ≤ fuel)
    (hocc : ∃ f, f ∈ s.floorHeap ∧ f.slots ≠ 0) :
    ∃ (s1 : State) (t i k : Nat) (f : Floor) (m1 : Nat),
      request_exit fuel now s = some s1 ∧
      k < MAX_FLOORS ∧ ring_nth s.floorHeap s.headFloor k = some t ∧
      s.floorHeap[t]? = some f ∧ f.slots ≠ 0 ∧
      (∀ k1, k1 < k →
        mask_at s.floorHeap (ring_nth s.floorHeap s.headFloor k1) = some 0) ∧
      i < SLOTS_PER_FLOOR ∧ is_slot_occupied f.slots i = true ∧
      (∀ j, j < i → is_slot_occupied f.slots j = false) ∧
      s1.floorHeap = s.floorHeap.set t { f with slots := m1 } ∧
      is_slot_occupied m1 i = false ∧
      (∀ j, j ≠ i → is_slot_occupied m1 j = is_slot_occupied f.slots j) ∧
      total_occupied s1.floorHeap + 1 = total_occupied s.floorHeap ∧
      QueueOK s1.carHeap s1.exitQueue (bs ++ [s.carHeap.length]) ∧
      records s1.carHeap (bs ++ [s.carHeap.length]) = records s.carHeap bs ++ [(999, now)] ∧
      s1.exitQueue.count = s.exitQueue.count + 1 ∧
      s1.entryQueue = s.entryQueue ∧ QueueOK s1.carHeap s1.entryQueue as ∧
      records s1.carHeap as = records s.carHeap as ∧
      s1.evacuationStack = s.evacuationStack ∧ s1.carIdCounter = s.carIdCounter :=
  request_exit_spec s fuel now as bs hring hentry hexit hdis hfuel hocc

theorem request_exit_clears_first_occupied_witness :
    ∃ (s1 : State) (t i k : Nat) (f : Floor) (m1 : Nat),
      request_exit 4 103 (sample 0 6 1 0 empty_stack 0) = some s1 ∧
      k < MAX_FLOORS ∧
      ring_nth (sample 0 6 1 0 empty_stack 0).floorHeap (sample 0 6 1 0 empty_stack 0).headFloor k
        = some t ∧
      (sample 0 6 1 0 empty_stack 0).floorHeap[t]? = some f ∧ f.slots ≠ 0 ∧
      (∀ k1, k1 < k →
        mask_at (sample 0 6 1 0 empty_stack 0).floorHeap
          (ring_nth (sample 0 6 1 0 empty_stack 0).floorHeap
            (sample 0 6 1 0 empty_stack 0).headFloor k1) = some 0) ∧
      i < SLOTS_PER_FLOOR ∧ is_slot_occupied f.slots i = true ∧
      (∀ j, j < i → is_slot_occupied f.slots j = false) ∧
      s1.floorHeap = (sample 0 6 1 0 empty_stack 0).floorHeap.set t { f with slots := m1 } ∧
      is_slot_occupied m1 i = false ∧
      (∀ j, j ≠ i → is_slot_occupied m1 j = is_slot_occupied f.slots j) ∧
      total_occupied s1.floorHeap + 1 = total_occupied (sample 0 6 1 0 empty_stack 0).floorHeap ∧
      QueueOK s1.carHeap s1.exitQueue ([2] ++ [(sample 0 6 1 0 empty_stack 0).carHeap.length]) ∧
      records s1.carHeap ([2] ++ [(sample 0 6 1 0 empty_stack 0).carHeap.length])
        = records (sample 0 6 1 0 empty_stack 0).carHeap [2] ++ [(999, 103)] ∧
      s1.exitQueue.count = (sample 0 6 1 0 empty_stack 0).exitQueue.count + 1 ∧
      s1.entryQueue = (sample 0 6 1 0 empty_stack 0).entryQueue ∧
      QueueOK s1.carHeap s1.entryQueue [0, 1] ∧
      records s1.carHeap [0, 1] = records (sample 0 6 1 0 empty_stack 0).carHeap [0, 1] ∧
      s1.evacuationStack = (sample 0 6 1 0 empty_stack 0).evacuationStack ∧
      s1.carIdCounter = (sample 0 6 1 0 empty_stack 0).carIdCounter :=
  request_exit_clears_first_occupied (sample 0 6 1 0 empty_stack 0) 4 103 [0, 1] [2]
    (sample_ring_ok _ _ _ _ _ _ (by norm_num) (by norm_num) (by norm_num) (by norm_num))
    (sample_entry_ok _ _ _ _ _ _) (sample_exit_ok _ _ _ _ _ _) (by simp) (by decide)
    ⟨⟨2, 6, some 2⟩, by simp [sample, ring], by decide⟩

/-! ## C8, C9: stack and queue primitives -/

/-- C8 fails on a full stack: there `push` is ignored, so the following `pop` returns the
old top (256, not the pushed 7) and leaves the depth one below what it was. -/
theorem push_pop_full_stack_counterexample :
    StackOK full_stack ∧
    ∃ st1 st2 v, push full_stack 7 = some st1 ∧ pop st1 = some (st2, v) ∧
      v = 256 ∧ v ≠ 7 ∧ depth full_stack = 256 ∧ depth st1 = 256 ∧ depth st2 = 255 := by
  refine ⟨full_stack_ok, full_stack, { full_stack with top := 254 }, 256, ?_, ?_, rfl, by decide,
    by decide, by decide, by decide⟩
  · exact push_at_capacity full_stack 7 (by decide)
  · have h : full_stack.items[full_stack.top.toNat]? = some 256 := by
      show (List.map (fun k : Nat => Int.ofNat (k + 1)) (List.range (4 * 64)))[255]? = some 256
      simp
    have htop : full_stack.top ≥ 0 := by decide
    simp only [pop, htop, if_true, h]
    rfl

/-- C8 (amended): on every well-formed stack that is not full (depth below 256), `push id`
followed immediately by `pop` returns that same id; the depth is one greater between the
two calls and back to its old value after the `pop`, and the items below the top are
unchanged. -/
theorem push_pop_roundtrip (st : Stack) (id : Int) (hst : StackOK st)
    (hroom : depth st < (MAX_FLOORS * SLOTS_PER_FLOOR : Nat)) :
    ∃ st1 st2, push st id = some st1 ∧ pop st1 = some (st2, id) ∧
      depth st1 = depth st + 1 ∧ depth st2 = depth st ∧
      (∀ k : Nat, (k : Int) < depth st → st2.items[k]? = st.items[k]?) := by
  have hroom1 : st.top < 255 := by
    simp only [depth, MAX_FLOORS, SLOTS_PER_FLOOR] at hroom
    push_cast at hroom
    omega
  obtain ⟨hpush, hst1⟩ := push_below_capacity st id hst hroom1
  obtain ⟨hlen, hlo, hhi⟩ := hst
  simp only [MAX_FLOORS, SLOTS_PER_FLOOR] at hlen hhi
  have hidx : (st.top + 1).toNat < st.items.length := by omega
  obtain ⟨v, hv, hpop⟩ := pop_nonempty _ hst1 (show 0 ≤ st.top + 1 by omega)
  have hvid : v = id := by
    have : (st.items.set (st.top + 1).toNat id)[(st.top + 1).toNat]? = some id :=
      List.getElem?_set_self hidx
    have hv1 : (st.items.set (st.top + 1).toNat id)[(st.top + 1).toNat]? = some v := hv
    rw [this] at hv1
    exact (Option.some.inj hv1).symm
  subst hvid
  refine ⟨_, _, hpush, hpop, rfl, ?_, ?_⟩
  · show st.top + 1 - 1 + 1 = st.top + 1
    omega
  · intro k hk
    show (st.items.set (st.top + 1).toNat v)[k]? = st.items[k]?
    simp only [depth] at hk
    rw [List.getElem?_set_ne (by omega)]

theorem push_pop_roundtrip_witness :
    ∃ st1 st2, push empty_stack 42 = some st1 ∧ pop st1 = some (st2, 42) ∧
      depth st1 = depth empty_stack + 1 ∧ depth st2 = depth empty_stack ∧
      (∀ k : Nat, (k : Int) < depth empty_stack → st2.items[k]? = empty_stack.items[k]?) :=
  push_pop_roundtrip empty_stack 42 empty_stack_ok (by decide)

/-- C9: `dequeue` on an empty queue (`front = NULL`) returns -1 and leaves `front`, `rear`
and `count` (and the heap) unchanged. -/
theorem dequeue_empty_unchanged (h : CarHeap) (q : Queue) (hempty : q.front = none) :
    dequeue h q = some (h, q, -1) := by
  simp [dequeue, hempty]

theorem dequeue_empty_unchanged_witness :
    dequeue [none, some { id := 999, entry_time := 5, next := none }]
        { front := none, rear := none, count := 0 }
      = some ([none, some { id := 999, entry_time := 5, next := none }],
          { front := none, rear := none, count := 0 }, -1) :=
  dequeue_empty_unchanged _ _ rfl

/-! ## The display cursor is only looked at by `rotate_view` -/

theorem process_entry_display (fuel : Nat) (s : State) (d : Ptr) :
    process_entry fuel { s with currentFloorDisplay := d }
      = (process_entry fuel s).map (fun s1 => { s1 with currentFloorDisplay := d }) := by
  by_cases hc : s.entryQueue.count = 0
  · simp only [process_entry, hc, if_true, Option.map_some']
  · simp only [process_entry, hc, if_false]
    cases find_floor s.floorHeap s.headFloor fuel s.headFloor with
    | none => rfl
    | some r =>
      obtain ⟨tf, i⟩ := r
      cases tf with
      | none => rfl
      | some t =>
        simp only
        cases dequeue s.carHeap s.entryQueue with
        | none => rfl
        | some r2 =>
          obtain ⟨h1, q1, carId⟩ := r2
          simp only
          cases s.floorHeap[t]? with
          | none => rfl
          | some f =>
            simp only
            cases push s.evacuationStack carId with
            | none => rfl
            | some st1 => rfl

theorem request_exit_loop_display (now : Int) (d : Ptr) (fuel : Nat) :
    ∀ (s : State) (temp : Ptr),
      request_exit_loop now fuel { s with currentFloorDisplay := d } temp
        = (request_exit_loop now fuel s temp).map
            (fun r => ({ r.1 with currentFloorDisplay := d }, r.2)) := by
  induction fuel with
  | zero => intro s temp; rfl
  | succ fuel ih =>
    intro s temp
    cases temp with
    | none => rfl
    | some t =>
      simp only [request_exit_loop]
      cases s.floorHeap[t]? with
      | none => rfl
      | some f =>
        simp only
        cases (if f.slots ≠ 0 then first_occupied_from f.slots 64 0 else none) with
        | none =>
          simp only
          by_cases hn : f.next ≠ s.headFloor
          · rw [if_pos hn, if_pos hn]; exact ih s f.next
          · rw [if_neg hn, if_neg hn]; rfl
        | some i =>
          simp only
          cases enqueue s.carHeap s.exitQueue 999 now with
          | none => rfl
          | some r => rfl

theorem request_exit_display (fuel : Nat) (now : Int) (s : State) (d : Ptr) :
    request_exit fuel now { s with currentFloorDisplay := d }
      = (request_exit fuel now s).map (fun s1 => { s1 with currentFloorDisplay := d }) := by
  have hloop := request_exit_loop_display now d fuel s s.headFloor
  simp only [request_exit]
  rw [hloop]
  cases request_exit_loop now fuel s s.headFloor with
  | none => rfl
  | some r =>
    obtain ⟨s1, b⟩ := r
    cases b <;> rfl

/-- Whatever `rotate_view` returns is the old state with the cursor on its successor. -/
theorem rotate_view_result (s s1 : State) (h : rotate_view s = some s1) :
    s1 = { s with currentFloorDisplay := ring_step s.floorHeap s.currentFloorDisplay } := by
  cases hd : s.currentFloorDisplay with
  | none => simp [rotate_view, hd] at h
  | some d =>
    cases hf : s.floorHeap[d]? with
    | none => simp [rotate_view, hd, hf] at h
    | some f =>
      simp only [rotate_view, hd, hf, Option.some.injEq] at h
      rw [← h]
      simp [ring_step, hf]

/-- With fuel for the ring `process_entry` returns on every well-formed state. -/
theorem process_entry_total (fuel : Nat) (s : State) (h : WF s) (hfuel : 4 ≤ fuel) :
    ∃ s1, process_entry fuel s = some s1 := by
  by_cases hc : s.entryQueue.count = 0
  · exact ⟨_, process_entry_empty fuel s hc⟩
  · by_cases hfree : ∃ f, f ∈ s.floorHeap ∧ f.slots ≠ UINT64_MAX
    · obtain ⟨s1, _, _, hpe, _⟩ := process_entry_park_wf fuel s h hfuel hc hfree
      exact ⟨s1, hpe⟩
    · push_neg at hfree
      exact ⟨_, process_entry_full s fuel (-1) hc (find_floor_all_full s fuel h.1 hfuel hfree)⟩

/-- With fuel for the ring `request_exit` returns on every well-formed state. -/
theorem request_exit_total (fuel : Nat) (now : Int) (s : State) (h : WF s) (hfuel : 4 ≤ fuel) :
    ∃ s1, request_exit fuel now s = some s1 := by
  by_cases hocc : ∃ f, f ∈ s.floorHeap ∧ f.slots ≠ 0
  · obtain ⟨s1, hrun, _⟩ := request_exit_frees_one fuel now s h hfuel hocc
    exact ⟨s1, hrun⟩
  · push_neg at hocc
    exact ⟨_, request_exit_none fuel now s h.1 hfuel hocc⟩

/-! ## C10: the queue count invariant -/

/-- C10: after `init_queue` and any sequence of `enqueue` and `dequeue` calls (dequeues on
an empty queue included) the calls have all returned and `count` equals the number of
records linked from `front`, with `count = 0` exactly when `front = NULL`; the same holds
for the entry queue and the exit queue of every reachable state of the system, so the
`count == 0` guards of `process_entry` and `process_exit` agree with the emptiness test
of `dequeue`. -/
theorem queue_count_invariant (h0 : CarHeap) (q0 : Queue) (calls : List QueueCall) (s : State)
    (hreach : Reachable s) :
    (∃ h q, queue_calls calls (h0, init_queue q0) = some (h, q) ∧ CountOK h q) ∧
      CountOK s.carHeap s.entryQueue ∧ CountOK s.carHeap s.exitQueue := by
  refine ⟨?_, ?_, ?_⟩
  · have hinit : QueueOK h0 (init_queue q0) [] := ⟨(IsChain_nil _ _).2 rfl, rfl, rfl⟩
    obtain ⟨h, q, as, hrun, hq⟩ := queue_calls_ok calls h0 (init_queue q0) [] hinit
    exact ⟨h, q, hrun, CountOK_of_QueueOK h q as hq⟩
  · obtain ⟨_, _, _, _, as, bs, hentry, _, _⟩ := reachable_wf s hreach
    exact CountOK_of_QueueOK _ _ as hentry
  · obtain ⟨_, _, _, _, as, bs, _, hexit, _⟩ := reachable_wf s hreach
    exact CountOK_of_QueueOK _ _ bs hexit

theorem queue_count_invariant_witness :
    (∃ h q, queue_calls
        [QueueCall.deq, QueueCall.enq 5 0, QueueCall.enq 6 1, QueueCall.deq, QueueCall.deq,
          QueueCall.deq]
        ([], init_queue { front := some 3, rear := none, count := 7 }) = some (h, q) ∧
        CountOK h q) ∧
      CountOK one_waiting.carHeap one_waiting.entryQueue ∧
      CountOK one_waiting.carHeap one_waiting.exitQueue :=
  queue_count_invariant [] { front := some 3, rear := none, count := 7 }
    [QueueCall.deq, QueueCall.enq 5 0, QueueCall.enq 6 1, QueueCall.deq, QueueCall.deq,
      QueueCall.deq]
    one_waiting ⟨4, [Cmd.add_entry 0], initial, init_system_boot, rfl⟩

/-! ## C11: the queue is first in, first out -/

/-- C11: on a well-formed queue `enqueue(id)` appends one record with that id behind all
existing records and adds one to `count`; `dequeue` on a non-empty queue returns the id of
the head record, removes exactly that record, keeps the others in order and subtracts one
from `count`. Consequently every list of ids enqueued onto an empty queue comes back, in
the order of enqueuing, from the same number of dequeues, which leave the queue empty. -/
theorem queue_is_fifo (h : CarHeap) (q : Queue) (as : List Nat) (id now : Int)
    (l : List (Int × Int)) (h0 : CarHeap) (q0 : Queue) (hq : QueueOK h q as) :
    (∃ h1 q1, enqueue h q id now = some (h1, q1) ∧ QueueOK h1 q1 (as ++ [h.length]) ∧
      records h1 (as ++ [h.length]) = records h as ++ [(id, now)] ∧
      q1.count = q.count + 1) ∧
    (∀ a rest, as = a :: rest →
      ∃ c h1 q1, h[a]? = some (some c) ∧ dequeue h q = some (h1, q1, c.id) ∧
        QueueOK h1 q1 rest ∧ records h as = (c.id, c.entry_time) :: records h1 rest ∧
        q1.count = q.count - 1) ∧
    (∃ h1 q1 h2 q2, enqueue_all l (h0, init_queue q0) = some (h1, q1) ∧
      q1.count = (l.length : Int) ∧
      dequeue_many l.length (h1, q1) = some (h2, q2, l.map Prod.fst) ∧
      q2.front = none ∧ q2.rear = none ∧ q2.count = 0) := by
  refine ⟨?_, ?_, ?_⟩
  · obtain ⟨h1, q1, henq, hq1, hrec, hcount, _⟩ := enqueue_spec h q as id now hq
    exact ⟨h1, q1, henq, hq1, hrec, hcount⟩
  · intro a rest has
    subst has
    obtain ⟨c, q1, hc, hdq, hq1, hrec, hcount, _⟩ := dequeue_spec h q a rest hq
    exact ⟨c, _, q1, hc, hdq, hq1, hrec, hcount⟩
  · have hinit : QueueOK h0 (init_queue q0) [] := ⟨(IsChain_nil _ _).2 rfl, rfl, rfl⟩
    obtain ⟨h1, q1, as1, hall, hq1, hrec⟩ := enqueue_all_spec l h0 (init_queue q0) [] hinit
    have hlen : as1.length = l.length := by
      rw [← records_length h1 as1 _ hq1.1, hrec]; simp [records]
    obtain ⟨h2, q2, hmany, hq2⟩ := dequeue_many_spec as1 h1 q1 hq1
    obtain ⟨hf, hr, hc⟩ := QueueOK_nil_fields hq2
    refine ⟨h1, q1, h2, q2, hall, by rw [hq1.2.2, hlen], ?_, hf, hr, hc⟩
    rw [← hlen, hmany, hrec]; simp [records]

theorem queue_is_fifo_witness :
    (∃ h1 q1, enqueue (sample 0 0 0 0 empty_stack 0).carHeap
        (sample 0 0 0 0 empty_stack 0).entryQueue 9 103 = some (h1, q1) ∧
      QueueOK h1 q1 ([0, 1] ++ [(sample 0 0 0 0 empty_stack 0).carHeap.length]) ∧
      records h1 ([0, 1] ++ [(sample 0 0 0 0 empty_stack 0).carHeap.length])
        = records (sample 0 0 0 0 empty_stack 0).carHeap [0, 1] ++ [(9, 103)] ∧
      q1.count = (sample 0 0 0 0 empty_stack 0).entryQueue.count + 1) ∧
    (∀ a rest, [0, 1] = a :: rest →
      ∃ c h1 q1, (sample 0 0 0 0 empty_stack 0).carHeap[a]? = some (some c) ∧
        dequeue (sample 0 0 0 0 empty_stack 0).carHeap (sample 0 0 0 0 empty_stack 0).entryQueue
          = some (h1, q1, c.id) ∧
        QueueOK h1 q1 rest ∧
        records (sample 0 0 0 0 empty_stack 0).carHeap [0, 1]
          = (c.id, c.entry_time) :: records h1 rest ∧
        q1.count = (sample 0 0 0 0 empty_stack 0).entryQueue.count - 1) ∧
    (∃ h1 q1 h2 q2, enqueue_all [(4, 10), (2, 11), (4, 12)]
        ([], init_queue { front := none, rear := none, count := 0 }) = some (h1, q1) ∧
      q1.count = (([(4, 10), (2, 11), (4, 12)] : List (Int × Int)).length : Int) ∧
      dequeue_many ([(4, 10), (2, 11), (4, 12)] : List (Int × Int)).length (h1, q1)
        = some (h2, q2, ([(4, 10), (2, 11), (4, 12)] : List (Int × Int)).map Prod.fst) ∧
      q2.front = none ∧ q2.rear = none ∧ q2.count = 0) :=
  queue_is_fifo _ _ [0, 1] 9 103 [(4, 10), (2, 11), (4, 12)] []
    { front := none, rear := none, count := 0 } (sample_entry_ok 0 0 0 0 empty_stack 0)

/-! ## C12: the end-to-end scenario -/

set_option maxRecDepth 100000 in
theorem scenario_step_add (t1 t2 : Int) :
    run 4 [Cmd.add_entry t1, Cmd.add_entry t2] initial = some (scenario_added t1 t2) := by
  with_unfolding_all rfl

set_option maxRecDepth 100000 in
theorem scenario_step_park1 (t1 t2 : Int) :
    process_entry 4 (scenario_added t1 t2) = some (scenario_first t2) := by
  with_unfolding_all rfl

set_option maxRecDepth 100000 in
theorem scenario_step_park2 (t2 : Int) :
    process_entry 4 (scenario_first t2) = some scenario_parked := by
  with_unfolding_all rfl

set_option maxRecDepth 100000 in
theorem scenario_step_request (t3 : Int) :
    request_exit 4 t3 scenario_parked = some (scenario_requested t3) := by
  have henq : enqueue scenario_parked.carHeap scenario_parked.exitQueue 999 t3
      = some ([none, none, some ⟨999, t3, none⟩], ⟨some 2, some 2, 1⟩) := rfl
  have hloop := request_exit_loop_hit t3 3 scenario_parked 0 0 ⟨1, 3, some 1⟩ _ _ rfl
    (by decide) (by decide) henq
  have hc : clear_slot 3 0 = 2 := by decide
  have hl : log_action scenario_parked.actionLog (leaving_msg 1 0)
      = [c_row "Car leaving Floor 1, Slot 1", c_row "Car #2 Parked: Floor 1, Slot 2",
         c_row "Car #1 Parked: Floor 1, Slot 1", c_row "Car #2 joined Entry Queue",
         c_row "Car #1 joined Entry Queue"] := by decide
  have hh : scenario_parked.headFloor = some 0 := rfl
  simp only [request_exit, hh, hloop, hc, hl]
  rfl

set_option maxRecDepth 100000 in
theorem scenario_step_exit (t3 : Int) :
    process_exit (scenario_requested t3) = some scenario_exited := by
  with_unfolding_all rfl

set_option maxRecDepth 100000 in
theorem scenario_step_evacuate :
    simulate_emergency 4 scenario_exited = some scenario_evacuated := by
  decide

theorem scenario_run_parked (t1 t2 : Int) :
    run 4 [Cmd.add_entry t1, Cmd.add_entry t2, Cmd.process_entry, Cmd.process_entry] initial
      = some scenario_parked := by
  have h := run_append 4 [Cmd.add_entry t1, Cmd.add_entry t2]
    [Cmd.process_entry, Cmd.process_entry] initial _ (scenario_step_add t1 t2)
  simp only [List.cons_append, List.nil_append] at h
  rw [h]
  simp only [run, exec, scenario_step_park1, scenario_step_park2]

theorem scenario_run_from_parked (t1 t2 : Int) (cs : List Cmd) :
    run 4 (Cmd.add_entry t1 :: Cmd.add_entry t2 :: Cmd.process_entry :: Cmd.process_entry :: cs)
      initial = run 4 cs scenario_parked := by
  have h := run_append 4 [Cmd.add_entry t1, Cmd.add_entry t2, Cmd.process_entry,
    Cmd.process_entry] cs initial _ (scenario_run_parked t1 t2)
  simpa using h

set_option maxRecDepth 100000 in
/-- C12: from the state `init_system` builds (four floors, all empty), whatever the clock
shows: `add_entry` twice and `process_entry` twice park cars 1 and 2 on floor 1 at slot
indices 0 and 1 (mask `0b11`, other floors 0, entry queue empty, ids 1 and 2 stacked);
`request_exit` then clears index 0 (mask `0b10`) and the exit queue holds exactly one
record, with id 999; `process_exit` then leaves the exit queue empty; `simulate_emergency`
then leaves the stack empty and all four masks 0. -/
theorem end_to_end_scenario (t1 t2 t3 : Int) :
    init_system boot = some initial ∧
    observe initial
      = { floors := [(1, 0), (2, 0), (3, 0), (4, 0)], entry_ids := some [],
          entry_count := 0, exit_ids := some [], exit_count := 0, stacked := [],
          top := -1, display := some 0 } ∧
    run 4 [Cmd.add_entry t1, Cmd.add_entry t2, Cmd.process_entry, Cmd.process_entry] initial
      = some scenario_parked ∧
    observe scenario_parked
      = { floors := [(1, 3), (2, 0), (3, 0), (4, 0)], entry_ids := some [],
          entry_count := 0, exit_ids := some [], exit_count := 0, stacked := [1, 2],
          top := 1, display := some 0 } ∧
    scenario_parked.actionLog.take 2
      = [c_row "Car #2 Parked: Floor 1, Slot 2", c_row "Car #1 Parked: Floor 1, Slot 1"] ∧
    run 4 [Cmd.add_entry t1, Cmd.add_entry t2, Cmd.process_entry, Cmd.process_entry,
        Cmd.request_exit t3] initial = some (scenario_requested t3) ∧
    observe (scenario_requested t3)
      = { floors := [(1, 2), (2, 0), (3, 0), (4, 0)], entry_ids := some [],
          entry_count := 0, exit_ids := some [999], exit_count := 1, stacked := [1, 2],
          top := 1, display := some 0 } ∧
    run 4 [Cmd.add_entry t1, Cmd.add_entry t2, Cmd.process_entry, Cmd.process_entry,
        Cmd.request_exit t3, Cmd.process_exit] initial = some scenario_exited ∧
    observe scenario_exited
      = { floors := [(1, 2), (2, 0), (3, 0), (4, 0)], entry_ids := some [],
          entry_count := 0, exit_ids := some [], exit_count := 0, stacked := [1, 2],
          top := 1, display := some 0 } ∧
    run 4 [Cmd.add_entry t1, Cmd.add_entry t2, Cmd.process_entry, Cmd.process_entry,
        Cmd.request_exit t3, Cmd.process_exit, Cmd.emergency_evacuate] initial
      = some scenario_evacuated ∧
    observe scenario_evacuated
      = { floors := [(1, 0), (2, 0), (3, 0), (4, 0)], entry_ids := some [],
          entry_count := 0, exit_ids := some [], exit_count := 0, stacked := [],
          top := -1, display := some 0 } := by
  refine ⟨init_system_boot, by decide, scenario_run_parked t1 t2, by decide, by decide, ?_,
    by with_unfolding_all rfl, ?_, by decide, ?_, by decide⟩
  · rw [scenario_run_from_parked]
    simp only [run, exec, scenario_step_request]
  · rw [scenario_run_from_parked]
    simp only [run, exec, scenario_step_request, scenario_step_exit]
  · rw [scenario_run_from_parked]
    simp only [run, exec, scenario_step_request, scenario_step_exit, scenario_step_evacuate]

/-! ## C13: degenerate commands only touch the log -/

/-- C13: `process_entry` with an empty entry queue, `process_exit` with an empty exit
queue and `request_exit` when every floor's mask is 0 each return a state that differs from
the old one in the action log only (floors, both queues, heap, stack, id counter and
display cursor are equal), and the log has received exactly the one message "Entry Queue
is empty!", "Exit Queue is empty!", "No cars to exit!" respectively, as newest entry. -/
theorem degenerate_commands_only_log (s : State) (fuel : Nat) (now : Int)
    (hlog : s.actionLog.length = LOG_SIZE) :
    (s.entryQueue.count = 0 →
      process_entry fuel s
        = some { s with actionLog := log_action s.actionLog "Entry Queue is empty!" } ∧
      (log_action s.actionLog "Entry Queue is empty!")[0]? = some (c_row "Entry Queue is empty!")) ∧
    (s.exitQueue.count = 0 →
      process_exit s
        = some { s with actionLog := log_action s.actionLog "Exit Queue is empty!" } ∧
      (log_action s.actionLog "Exit Queue is empty!")[0]? = some (c_row "Exit Queue is empty!")) ∧
    (RingOK s → MAX_FLOORS ≤ fuel → (∀ f, f ∈ s.floorHeap → f.slots = 0) →
      request_exit fuel now s
        = some { s with actionLog := log_action s.actionLog "No cars to exit!" } ∧
      (log_action s.actionLog "No cars to exit!")[0]? = some (c_row "No cars to exit!")) := by
  have hpos : 0 < s.actionLog.length := by rw [hlog]; decide
  refine ⟨fun hc => ⟨process_entry_empty fuel s hc, ?_⟩,
    fun hc => ⟨process_exit_empty s hc, ?_⟩,
    fun hring hfuel hzero => ⟨request_exit_none fuel now s hring hfuel hzero, ?_⟩⟩
  · rw [log_action_head _ _ hpos, strncpy100_short _ (by decide) (by decide)]
  · rw [log_action_head _ _ hpos, strncpy100_short _ (by decide) (by decide)]
  · rw [log_action_head _ _ hpos, strncpy100_short _ (by decide) (by decide)]

theorem degenerate_commands_only_log_witness :
    (initial.entryQueue.count = 0 →
      process_entry 4 initial
        = some { initial with
            actionLog := log_action initial.actionLog "Entry Queue is empty!" } ∧
      (log_action initial.actionLog "Entry Queue is empty!")[0]?
        = some (c_row "Entry Queue is empty!")) ∧
    (initial.exitQueue.count = 0 →
      process_exit initial
        = some { initial with
            actionLog := log_action initial.actionLog "Exit Queue is empty!" } ∧
      (log_action initial.actionLog "Exit Queue is empty!")[0]?
        = some (c_row "Exit Queue is empty!")) ∧
    (RingOK initial → MAX_FLOORS ≤ 4 → (∀ f, f ∈ initial.floorHeap → f.slots = 0) →
      request_exit 4 7 initial
        = some { initial with actionLog := log_action initial.actionLog "No cars to exit!" } ∧
      (log_action initial.actionLog "No cars to exit!")[0]? = some (c_row "No cars to exit!")) :=
  degenerate_commands_only_log initial 4 7 rfl

/-! ## C14: the display cursor has no effect on allocation or exit selection -/

/-- C14: let `s` be a well-formed state and `d` any other value of the display cursor.
`process_entry` and `request_exit` return on `s`, leave its cursor as it is, and on the
state that differs from `s` only in the cursor they return the same result (same floor
and slot searched for, same floors, queues, stack and log) with the cursor still `d`;
`rotate_view` changes nothing but the cursor, which moves to its ring successor. -/
theorem display_cursor_no_effect (s : State) (d : Ptr) (fuel : Nat) (now : Int) (hwf : WF s)
    (hfuel : MAX_FLOORS ≤ fuel) :
    (∃ s1, process_entry fuel s = some s1 ∧
      s1.currentFloorDisplay = s.currentFloorDisplay ∧
      process_entry fuel { s with currentFloorDisplay := d }
        = some { s1 with currentFloorDisplay := d }) ∧
    find_floor ({ s with currentFloorDisplay := d } : State).floorHeap
        ({ s with currentFloorDisplay := d } : State).headFloor fuel
        ({ s with currentFloorDisplay := d } : State).headFloor
      = find_floor s.floorHeap s.headFloor fuel s.headFloor ∧
    (∃ s1, request_exit fuel now s = some s1 ∧
      s1.currentFloorDisplay = s.currentFloorDisplay ∧
      request_exit fuel now { s with currentFloorDisplay := d }
        = some { s1 with currentFloorDisplay := d }) ∧
    (∃ d1, d1 < MAX_FLOORS ∧ ring_step s.floorHeap s.currentFloorDisplay = some d1 ∧
      rotate_view s = some { s with currentFloorDisplay := some d1 }) := by
  refine ⟨?_, rfl, ?_, ?_⟩
  · obtain ⟨s1, hpe⟩ := process_entry_total fuel s hwf hfuel
    refine ⟨s1, hpe, ?_, by rw [process_entry_display, hpe]; rfl⟩
    have h := process_entry_display fuel s s.currentFloorDisplay
    rw [hpe] at h
    simp only [Option.map_some', Option.some.injEq] at h
    have := congrArg State.currentFloorDisplay h
    exact this
  · obtain ⟨s1, hre⟩ := request_exit_total fuel now s hwf hfuel
    refine ⟨s1, hre, ?_, by rw [request_exit_display, hre]; rfl⟩
    have h := request_exit_display fuel now s s.currentFloorDisplay
    rw [hre] at h
    simp only [Option.map_some', Option.some.injEq] at h
    have := congrArg State.currentFloorDisplay h
    exact this
  · obtain ⟨s1, hrot, hwf1⟩ := rotate_view_wf s hwf
    obtain ⟨_, _, _, ⟨d1, hd1, hdisp1⟩, _⟩ := hwf1
    have hres := rotate_view_result s s1 hrot
    have hstep : ring_step s.floorHeap s.currentFloorDisplay = some d1 := by
      have := congrArg State.currentFloorDisplay hres
      rw [hdisp1] at this
      exact this.symm
    refine ⟨d1, hd1, hstep, ?_⟩
    rw [hrot, hres, hstep]

theorem display_cursor_no_effect_witness :
    (∃ s1, process_entry 4 (sample 1 0 0 0 empty_stack 0) = some s1 ∧
      s1.currentFloorDisplay = (sample 1 0 0 0 empty_stack 0).currentFloorDisplay ∧
      process_entry 4 { sample 1 0 0 0 empty_stack 0 with currentFloorDisplay := some 2 }
        = some { s1 with currentFloorDisplay := some 2 }) ∧
    find_floor
        ({ sample 1 0 0 0 empty_stack 0 with currentFloorDisplay := some 2 } : State).floorHeap
        ({ sample 1 0 0 0 empty_stack 0 with currentFloorDisplay := some 2 } : State).headFloor 4
        ({ sample 1 0 0 0 empty_stack 0 with currentFloorDisplay := some 2 } : State).headFloor
      = find_floor (sample 1 0 0 0 empty_stack 0).floorHeap
          (sample 1 0 0 0 empty_stack 0).headFloor 4 (sample 1 0 0 0 empty_stack 0).headFloor ∧
    (∃ s1, request_exit 4 9 (sample 1 0 0 0 empty_stack 0) = some s1 ∧
      s1.currentFloorDisplay = (sample 1 0 0 0 empty_stack 0).currentFloorDisplay ∧
      request_exit 4 9 { sample 1 0 0 0 empty_stack 0 with currentFloorDisplay := some 2 }
        = some { s1 with currentFloorDisplay := some 2 }) ∧
    (∃ d1, d1 < MAX_FLOORS ∧
      ring_step (sample 1 0 0 0 empty_stack 0).floorHeap
        (sample 1 0 0 0 empty_stack 0).currentFloorDisplay = some d1 ∧
      rotate_view (sample 1 0 0 0 empty_stack 0)
        = some { sample 1 0 0 0 empty_stack 0 with currentFloorDisplay := some d1 }) :=
  display_cursor_no_effect (sample 1 0 0 0 empty_stack 0) (some 2) 4 9
    (sample_wf 1 0 0 0 empty_stack 0 (by norm_num) (by norm_num) (by norm_num) (by norm_num)
      empty_stack_ok (by decide))
    (by decide)

/-! ## The rows of the log in the reachable states -/

theorem log_shift_padded (k : Nat) :
    ∀ (log : List Row), (∀ r, r ∈ log → Padded r) → ∀ r, r ∈ log_shift k log → Padded r := by
  induction k with
  | zero => intro log h r hr; exact h r hr
  | succ k ih =>
    intro log h r hr
    refine ih _ ?_ r hr
    intro r1 hr1
    rcases List.mem_or_eq_of_mem_set hr1 with hm | he
    · exact h r1 hm
    · rw [he]; exact strncpy100_padded _

/-- Whatever the message, `log_action` leaves every row in the state `strncpy` leaves it. -/
theorem log_action_padded (log : List Row) (msg : String) (h : ∀ r, r ∈ log → Padded r) :
    ∀ r, r ∈ log_action log msg → Padded r := by
  intro r hr
  rcases List.mem_or_eq_of_mem_set hr with hm | he
  · exact log_shift_padded _ log h r hm
  · rw [he]; exact strncpy100_padded _

theorem process_entry_log (fuel : Nat) (s s1 : State) (h : ∀ r, r ∈ s.actionLog → Padded r)
    (hrun : process_entry fuel s = some s1) : ∀ r, r ∈ s1.actionLog → Padded r := by
  unfold process_entry at hrun
  repeat' split at hrun
  all_goals first
    | (simp only [Option.some.injEq] at hrun; rw [← hrun]; exact log_action_padded _ _ h)
    | (simp at hrun)

theorem request_exit_loop_log (now : Int) (fuel : Nat) :
    ∀ (s s1 : State) (temp : Ptr) (b : Bool), (∀ r, r ∈ s.actionLog → Padded r) →
      request_exit_loop now fuel s temp = some (s1, b) → ∀ r, r ∈ s1.actionLog → Padded r := by
  induction fuel with
  | zero => intro s s1 temp b _ hrun; simp [request_exit_loop] at hrun
  | succ fuel ih =>
    intro s s1 temp b h hrun
    cases temp with
    | none => simp [request_exit_loop] at hrun
    | some t =>
      cases hf : s.floorHeap[t]? with
      | none => simp [request_exit_loop, hf] at hrun
      | some f =>
        cases hscan : (if f.slots ≠ 0 then first_occupied_from f.slots 64 0 else none) with
        | none =>
          simp only [request_exit_loop, hf, hscan] at hrun
          by_cases hn : f.next ≠ s.headFloor
          · rw [if_pos hn] at hrun
            exact ih s s1 f.next b h hrun
          · rw [if_neg hn] at hrun
            simp only [Option.some.injEq, Prod.mk.injEq] at hrun
            rw [← hrun.1]; exact h
        | some i =>
          cases henq : enqueue s.carHeap s.exitQueue 999 now with
          | none => simp [request_exit_loop, hf, hscan, henq] at hrun
          | some p =>
            simp only [request_exit_loop, hf, hscan, henq, Option.some.injEq,
              Prod.mk.injEq] at hrun
            rw [← hrun.1]; exact log_action_padded _ _ h

theorem request_exit_log (fuel : Nat) (now : Int) (s s1 : State)
    (h : ∀ r, r ∈ s.actionLog → Padded r) (hrun : request_exit fuel now s = some s1) :
    ∀ r, r ∈ s1.actionLog → Padded r := by
  cases hloop : request_exit_loop now fuel s s.headFloor with
  | none => simp [request_exit, hloop] at hrun
  | some p =>
    obtain ⟨s2, b⟩ := p
    have h2 := request_exit_loop_log now fuel s s2 _ b h hloop
    cases b with
    | true =>
      simp only [request_exit, hloop, Bool.not_true, Bool.false_eq_true, if_false,
        Option.some.injEq] at hrun
      rw [← hrun]; exact h2
    | false =>
      simp only [request_exit, hloop, Bool.not_false, if_true, Option.some.injEq] at hrun
      rw [← hrun]; exact log_action_padded _ _ h2

theorem process_exit_log (s s1 : State) (h : ∀ r, r ∈ s.actionLog → Padded r)
    (hrun : process_exit s = some s1) : ∀ r, r ∈ s1.actionLog → Padded r := by
  unfold process_exit at hrun
  repeat' split at hrun
  all_goals first
    | (simp only [Option.some.injEq] at hrun; rw [← hrun]; exact log_action_padded _ _ h)
    | (simp at hrun)

theorem evacuate_loop_log (fuel : Nat) :
    ∀ (st st1 : Stack) (log log1 : List Row), (∀ r, r ∈ log → Padded r) →
      evacuate_loop fuel st log = some (st1, log1) → ∀ r, r ∈ log1 → Padded r := by
  induction fuel with
  | zero => intro st st1 log log1 _ hrun; simp [evacuate_loop] at hrun
  | succ fuel ih =>
    intro st st1 log log1 h hrun
    unfold evacuate_loop at hrun
    repeat' split at hrun
    all_goals first
      | exact ih _ _ _ _ (log_action_padded _ _ h) hrun
      | (simp only [Option.some.injEq, Prod.mk.injEq] at hrun; rw [← hrun.2]; exact h)
      | (simp at hrun)

theorem simulate_emergency_log (fuel : Nat) (s s1 : State)
    (h : ∀ r, r ∈ s.actionLog → Padded r) (hrun : simulate_emergency fuel s = some s1) :
    ∀ r, r ∈ s1.actionLog → Padded r := by
  cases hloop : evacuate_loop fuel s.evacuationStack
      (log_action s.actionLog "!!! EMERGENCY EVACUATION STARTED !!!") with
  | none => simp [simulate_emergency, hloop] at hrun
  | some p =>
    obtain ⟨st1, log2⟩ := p
    have h2 := evacuate_loop_log fuel _ _ _ _ (log_action_padded _ _ h) hloop
    cases hclear : clear_floors s.headFloor fuel s.floorHeap s.headFloor with
    | none => simp [simulate_emergency, hloop, hclear] at hrun
    | some fh1 =>
      simp only [simulate_emergency, hloop, hclear, Option.some.injEq] at hrun
      rw [← hrun]; exact log_action_padded _ _ h2

/-- Every command leaves every row of the log in the state `strncpy` leaves it. -/
theorem exec_log (fuel : Nat) (c : Cmd) (s s1 : State) (h : ∀ r, r ∈ s.actionLog → Padded r)
    (hrun : exec fuel c s = some s1) : ∀ r, r ∈ s1.actionLog → Padded r := by
  cases c with
  | add_entry now =>
    simp only [exec, add_car_to_entry] at hrun
    split at hrun
    · simp at hrun
    · simp only [Option.some.injEq] at hrun
      rw [← hrun]; exact log_action_padded _ _ h
  | process_entry => exact process_entry_log fuel s s1 h hrun
  | rotate_view =>
    simp only [exec, rotate_view] at hrun
    repeat' split at hrun
    all_goals first
      | (simp only [Option.some.injEq] at hrun; rw [← hrun]; exact h)
      | (simp at hrun)
  | request_exit now => exact request_exit_log fuel now s s1 h hrun
  | process_exit => exact process_exit_log s s1 h hrun
  | emergency_evacuate => exact simulate_emergency_log fuel s s1 h hrun

theorem run_log (fuel : Nat) :
    ∀ (cmds : List Cmd) (s s1 : State), (∀ r, r ∈ s.actionLog → Padded r) →
      run fuel cmds s = some s1 → ∀ r, r ∈ s1.actionLog → Padded r := by
  intro cmds
  induction cmds with
  | nil =>
    intro s s1 h hrun
    simp only [run, Option.some.injEq] at hrun
    rw [← hrun]; exact h
  | cons c cs ih =>
    intro s s1 h hrun
    cases hc : exec fuel c s with
    | none => simp [run, hc] at hrun
    | some s2 =>
      simp only [run, hc] at hrun
      exact ih s2 s1 (exec_log fuel c s s2 h hc) hrun

/-- In every reachable state the log has five rows of 100 bytes, each with only NULs from
its first NUL on: the log states that `log_action` meets are of this kind. -/
theorem reachable_log_rows (s : State) (h : Reachable s) :
    s.actionLog.length = LOG_SIZE ∧ ∀ r, r ∈ s.actionLog → Padded r := by
  refine ⟨(reachable_wf s h).2.2.1, ?_⟩
  obtain ⟨fuel, cmds, s0, hinit, hrun⟩ := h
  rw [init_system_boot] at hinit
  simp only [Option.some.injEq] at hinit
  rw [← hinit] at hrun
  refine run_log fuel cmds initial s ?_ hrun
  intro r hr
  simp only [initial, List.mem_cons, List.mem_singleton, List.not_mem_nil, or_false] at hr
  rcases hr with rfl | rfl | rfl | rfl | rfl <;> exact ⟨by decide, by decide⟩

set_option maxRecDepth 100000 in
/-- A message of 60 two-byte characters (120 bytes) is cut: row 0 receives its first 100
bytes and no terminator, so it is not the row that holds the message. -/
theorem log_action_long_message :
    (utf8_bytes (String.mk (List.replicate 60 (Char.ofNat 233)))).length = 120 ∧
    (log_action initial.actionLog (String.mk (List.replicate 60 (Char.ofNat 233))))[0]?
      = some ((utf8_bytes (String.mk (List.replicate 60 (Char.ofNat 233)))).take 100) ∧
    0 ∉ (utf8_bytes (String.mk (List.replicate 60 (Char.ofNat 233)))).take 100 ∧
    (log_action initial.actionLog (String.mk (List.replicate 60 (Char.ofNat 233))))[0]?
      ≠ some (c_row (String.mk (List.replicate 60 (Char.ofNat 233)))) := by
  decide

/-! ## C15: the action log is a newest-first window of five messages -/

/-- On a log of five rows `log_action` puts the row of the message in front, copies the
first four rows one place back and drops the last row. -/
theorem log_action_rows (log : List Row) (m : String) (hlen : log.length = LOG_SIZE) :
    log_action log m = strncpy100 (utf8_bytes m) :: (log.take 4).map strncpy100 := by
  rcases log with _ | ⟨a, _ | ⟨b, _ | ⟨c, _ | ⟨d, _ | ⟨e, _ | ⟨x, r⟩⟩⟩⟩⟩⟩ <;>
    simp [LOG_SIZE] at hlen
  simp [log_action, log_shift, LOG_SIZE]

theorem log_action_short (log : List Row) (m : String) (hlen : log.length = LOG_SIZE)
    (hrows : ∀ r, r ∈ log → Padded r)
    (hm : (utf8_bytes m).length < 100 ∧ 0 ∉ utf8_bytes m) :
    log_action log m = c_row m :: log.take 4 := by
  rw [log_action_rows log m hlen, strncpy100_short m hm.1 hm.2]
  congr 1
  have : ∀ r, r ∈ log.take 4 → strncpy100 r = r := fun r hr =>
    strncpy100_of_padded r (hrows r (List.mem_of_mem_take hr))
  rw [List.map_congr_left this, List.map_id']

theorem take_append_take {α : Type} (n : Nat) (xs ys : List α) :
    (xs ++ ys.take n).take n = (xs ++ ys).take n := by
  rw [List.take_append_eq_append_take, List.take_append_eq_append_take, List.take_take]
  congr 2
  omega

/-- Recording a list of short messages one after the other. -/
theorem log_action_foldl :
    ∀ (msgs : List String) (log : List Row), log.length = LOG_SIZE →
      (∀ r, r ∈ log → Padded r) →
      (∀ x, x ∈ msgs → (utf8_bytes x).length < 100 ∧ 0 ∉ utf8_bytes x) →
      msgs.foldl log_action log = (msgs.reverse.map c_row ++ log).take LOG_SIZE := by
  intro msgs
  induction msgs with
  | nil =>
    intro log hlen _ _
    simp only [List.foldl_nil, List.reverse_nil, List.map_nil, List.nil_append]
    rw [← hlen, List.take_length]
  | cons m msgs ih =>
    intro log hlen hrows hmsgs
    have hm := hmsgs m (List.mem_cons_self _ _)
    have hstep := log_action_short log m hlen hrows hm
    have hlen1 : (log_action log m).length = LOG_SIZE := by rw [log_action_length]; exact hlen
    have hrows1 : ∀ r, r ∈ log_action log m → Padded r := by
      intro r hr
      rw [hstep] at hr
      rcases List.mem_cons.1 hr with rfl | hr1
      · exact c_row_padded m hm.1 hm.2
      · exact hrows r (List.mem_of_mem_take hr1)
    rw [List.foldl_cons, ih (log_action log m) hlen1 hrows1
      (fun x hx => hmsgs x (List.mem_cons_of_mem _ hx)), hstep]
    have h5 : c_row m :: log.take 4 = (c_row m :: log).take LOG_SIZE := rfl
    rw [h5, take_append_take, List.reverse_cons, List.map_append, List.append_assoc]
    rfl

/-- Copying a row of at most 100 bytes keeps the string in it. -/
theorem row_text_strncpy100 (r : Row) (h : r.length ≤ 100) :
    row_text (strncpy100 r) = row_text r := by
  have h0 : 0 ∉ (r.takeWhile (fun b => b != 0)).take 100 :=
    fun hm => zero_not_mem_takeWhile r (List.mem_of_mem_take hm)
  have hl : (r.takeWhile (fun b => b != 0)).length ≤ 100 :=
    Nat.le_trans (List.Sublist.length_le (List.takeWhile_sublist _)) h
  simp only [row_text, strncpy100]
  rw [takeWhile_append_zeros _ _ h0, List.take_of_length_le hl]

/-- Whatever the rows of 100 bytes hold, the strings in them move one place back. -/
theorem log_action_texts (log : List Row) (m : String) (hlen : log.length = LOG_SIZE)
    (hrows : ∀ r, r ∈ log → r.length = 100)
    (hm : (utf8_bytes m).length < 100 ∧ 0 ∉ utf8_bytes m) :
    (log_action log m).map row_text
      = utf8_bytes m :: (log.take (LOG_SIZE - 1)).map row_text := by
  rw [log_action_rows log m hlen, strncpy100_short m hm.1 hm.2, List.map_cons,
    row_text_c_row m hm.2, List.map_map]
  congr 1
  apply List.map_congr_left
  intro r hr
  exact row_text_strncpy100 r (Nat.le_of_eq (hrows r (List.mem_of_mem_take hr)))

/-- C15: characters are the bytes (`char`) of the message. For every log of five rows of
100 bytes in the state `strncpy` leaves them (only NULs from the first NUL on; a row may
be full and without terminator), which is the case in every reachable state, and every
message `m` of fewer than 100 bytes, after `log_action(m)` entry 0 is the row holding `m`
followed by NULs, so the string read in it is `m`; entry `i` is the previous entry
`i - 1` for `i = 1..4` and the previous entry 4 is dropped; hence after recording `msgs`
one after the other the log is the first five entries of the messages in reverse order
of insertion followed by the old log. For rows of 100 arbitrary bytes the same holds of
the strings in the rows. -/
theorem log_is_newest_first_window (log : List Row) (m : String) (msgs : List String)
    (hlen : log.length = LOG_SIZE) (hrows : ∀ r, r ∈ log → Padded r)
    (hm : (utf8_bytes m).length < 100 ∧ 0 ∉ utf8_bytes m)
    (hmsgs : ∀ x, x ∈ msgs → (utf8_bytes x).length < 100 ∧ 0 ∉ utf8_bytes x) :
    (log_action log m).length = LOG_SIZE ∧
    (log_action log m)[0]? = some (c_row m) ∧
    ((log_action log m)[0]?).map row_text = some (utf8_bytes m) ∧
    (∀ i, 1 ≤ i → i < LOG_SIZE → (log_action log m)[i]? = log[i - 1]?) ∧
    log_action log m = c_row m :: log.take (LOG_SIZE - 1) ∧
    (∀ r, r ∈ log_action log m → Padded r) ∧
    msgs.foldl log_action log = (msgs.reverse.map c_row ++ log).take LOG_SIZE ∧
    (msgs.foldl log_action log).take (min LOG_SIZE msgs.length)
      = (msgs.reverse.map c_row).take (min LOG_SIZE msgs.length) ∧
    (∀ log2 : List Row, log2.length = LOG_SIZE → (∀ r, r ∈ log2 → r.length = 100) →
      (log_action log2 m).map row_text
        = utf8_bytes m :: (log2.take (LOG_SIZE - 1)).map row_text) := by
  have hstep := log_action_short log m hlen hrows hm
  have hfold := log_action_foldl msgs log hlen hrows hmsgs
  refine ⟨by rw [log_action_length]; exact hlen, by rw [hstep]; simp, ?_, ?_, hstep, ?_,
    hfold, ?_, fun log2 hlen2 hrows2 => log_action_texts log2 m hlen2 hrows2 hm⟩
  · rw [hstep]
    simp [row_text_c_row m hm.2]
  · intro i h1 h5
    obtain ⟨j, rfl⟩ : ∃ j, i = j + 1 := ⟨i - 1, by omega⟩
    rw [hstep, List.getElem?_cons_succ, Nat.add_sub_cancel, List.getElem?_take]
    simp only [LOG_SIZE] at h5
    have : j < 4 := by omega
    simp [this]
  · intro r hr
    rw [hstep] at hr
    rcases List.mem_cons.1 hr with rfl | hr1
    · exact c_row_padded m hm.1 hm.2
    · exact hrows r (List.mem_of_mem_take hr1)
  · rw [hfold, List.take_take, List.take_append_eq_append_take]
    have h1 : min (min LOG_SIZE msgs.length) LOG_SIZE = min LOG_SIZE msgs.length := by omega
    have h2 : min LOG_SIZE msgs.length - (msgs.reverse.map c_row).length = 0 := by
      rw [List.length_map, List.length_reverse]; omega
    rw [h1, h2, List.take_zero, List.append_nil]

set_option maxRecDepth 100000 in
theorem log_is_newest_first_window_witness :
    (log_action [c_row "d", List.replicate 100 65, c_row "b", c_row "a", c_row ""] "é").length
      = LOG_SIZE ∧
    (log_action [c_row "d", List.replicate 100 65, c_row "b", c_row "a", c_row ""] "é")[0]?
      = some (c_row "é") ∧
    ((log_action [c_row "d", List.replicate 100 65, c_row "b", c_row "a", c_row ""] "é")[0]?).map
        row_text = some (utf8_bytes "é") ∧
    (∀ i, 1 ≤ i → i < LOG_SIZE →
      (log_action [c_row "d", List.replicate 100 65, c_row "b", c_row "a", c_row ""] "é")[i]?
        = [c_row "d", List.replicate 100 65, c_row "b", c_row "a", c_row ""][i - 1]?) ∧
    log_action [c_row "d", List.replicate 100 65, c_row "b", c_row "a", c_row ""] "é"
      = c_row "é"
        :: [c_row "d", List.replicate 100 65, c_row "b", c_row "a", c_row ""].take (LOG_SIZE - 1) ∧
    (∀ r, r ∈ log_action [c_row "d", List.replicate 100 65, c_row "b", c_row "a", c_row ""] "é" →
      Padded r) ∧
    ["é", "f", "g"].foldl log_action
        [c_row "d", List.replicate 100 65, c_row "b", c_row "a", c_row ""]
      = (["é", "f", "g"].reverse.map c_row
          ++ [c_row "d", List.replicate 100 65, c_row "b", c_row "a", c_row ""]).take LOG_SIZE ∧
    (["é", "f", "g"].foldl log_action
        [c_row "d", List.replicate 100 65, c_row "b", c_row "a", c_row ""]).take
        (min LOG_SIZE ["é", "f", "g"].length)
      = (["é", "f", "g"].reverse.map c_row).take (min LOG_SIZE ["é", "f", "g"].length) ∧
    (∀ log2 : List Row, log2.length = LOG_SIZE → (∀ r, r ∈ log2 → r.length = 100) →
      (log_action log2 "é").map row_text
        = utf8_bytes "é" :: (log2.take (LOG_SIZE - 1)).map row_text) :=
  log_is_newest_first_window [c_row "d", List.replicate 100 65, c_row "b", c_row "a", c_row ""]
    "é" ["é", "f", "g"] rfl
    (by
      intro r hr
      simp only [List.mem_cons, List.mem_singleton, List.not_mem_nil, or_false] at hr
      rcases hr with rfl | rfl | rfl | rfl | rfl <;> exact ⟨by decide, by decide⟩)
    (by decide) (by decide)

/-! ## More fuel never changes a result -/

theorem find_floor_mono (fh : List Floor) (head : Ptr) (k : Nat) :
    ∀ (fuel : Nat) (temp : Ptr) (r : Ptr × Int),
      find_floor fh head fuel temp = some r → find_floor fh head (fuel + k) temp = some r := by
  intro fuel
  induction fuel with
  | zero => intro temp r h; simp [find_floor] at h
  | succ fuel ih =>
    intro temp r h
    rw [show fuel + 1 + k = (fuel + k) + 1 by omega]
    cases temp with
    | none => simp [find_floor] at h
    | some t =>
      cases hf : fh[t]? with
      | none => simp [find_floor, hf] at h
      | some f =>
        simp only [find_floor, hf] at h ⊢
        by_cases hs : find_free_slot f.slots ≠ -1
        · rw [if_pos hs] at h ⊢; exact h
        · rw [if_neg hs] at h ⊢
          by_cases hn : f.next ≠ head
          · rw [if_pos hn] at h ⊢; exact ih f.next r h
          · rw [if_neg hn] at h ⊢; exact h

theorem process_entry_mono (fuel k : Nat) (s s1 : State)
    (h : process_entry fuel s = some s1) : process_entry (fuel + k) s = some s1 := by
  by_cases hc : s.entryQueue.count = 0
  · rw [process_entry_empty fuel s hc] at h
    rw [process_entry_empty (fuel + k) s hc]; exact h
  · cases hfind : find_floor s.floorHeap s.headFloor fuel s.headFloor with
    | none => simp [process_entry, hc, hfind] at h
    | some r =>
      have hfind2 := find_floor_mono s.floorHeap s.headFloor k fuel _ r hfind
      simp only [process_entry, hc, if_false, hfind] at h
      simp only [process_entry, hc, if_false, hfind2]
      exact h

theorem request_exit_loop_mono (now : Int) (k : Nat) :
    ∀ (fuel : Nat) (s : State) (temp : Ptr) (r : State × Bool),
      request_exit_loop now fuel s temp = some r →
      request_exit_loop now (fuel + k) s temp = some r := by
  intro fuel
  induction fuel with
  | zero => intro s temp r h; simp [request_exit_loop] at h
  | succ fuel ih =>
    intro s temp r h
    rw [show fuel + 1 + k = (fuel + k) + 1 by omega]
    cases temp with
    | none => simp [request_exit_loop] at h
    | some t =>
      cases hf : s.floorHeap[t]? with
      | none => simp [request_exit_loop, hf] at h
      | some f =>
        cases hscan : (if f.slots ≠ 0 then first_occupied_from f.slots 64 0 else none) with
        | none =>
          simp only [request_exit_loop, hf, hscan] at h ⊢
          by_cases hn : f.next ≠ s.headFloor
          · rw [if_pos hn] at h ⊢; exact ih s f.next r h
          · rw [if_neg hn] at h ⊢; exact h
        | some i =>
          simp only [request_exit_loop, hf, hscan] at h ⊢
          exact h

theorem request_exit_mono (fuel k : Nat) (now : Int) (s s1 : State)
    (h : request_exit fuel now s = some s1) : request_exit (fuel + k) now s = some s1 := by
  cases hloop : request_exit_loop now fuel s s.headFloor with
  | none => simp [request_exit, hloop] at h
  | some r =>
    have hloop2 := request_exit_loop_mono now k fuel s _ r hloop
    simp only [request_exit, hloop] at h
    simp only [request_exit, hloop2]
    exact h

theorem evacuate_loop_mono (k : Nat) :
    ∀ (fuel : Nat) (st : Stack) (log : List Row) (r : Stack × List Row),
      evacuate_loop fuel st log = some r → evacuate_loop (fuel + k) st log = some r := by
  intro fuel
  induction fuel with
  | zero => intro st log r h; simp [evacuate_loop] at h
  | succ fuel ih =>
    intro st log r h
    rw [show fuel + 1 + k = (fuel + k) + 1 by omega]
    by_cases htop : st.top ≥ 0
    · cases hpop : pop st with
      | none => simp [evacuate_loop, htop, hpop] at h
      | some p =>
        obtain ⟨st1, v⟩ := p
        simp only [evacuate_loop, htop, if_true, hpop] at h ⊢
        exact ih _ _ r h
    · simp only [evacuate_loop, htop, if_false] at h ⊢
      exact h

theorem clear_floors_mono (head : Ptr) (k : Nat) :
    ∀ (fuel : Nat) (fh : List Floor) (temp : Ptr) (r : List Floor),
      clear_floors head fuel fh temp = some r → clear_floors head (fuel + k) fh temp = some r := by
  intro fuel
  induction fuel with
  | zero => intro fh temp r h; simp [clear_floors] at h
  | succ fuel ih =>
    intro fh temp r h
    rw [show fuel + 1 + k = (fuel + k) + 1 by omega]
    cases temp with
    | none => simp [clear_floors] at h
    | some t =>
      cases hf : fh[t]? with
      | none => simp [clear_floors, hf] at h
      | some f =>
        simp only [clear_floors, hf] at h ⊢
        by_cases hn : f.next ≠ head
        · rw [if_pos hn] at h ⊢; exact ih _ f.next r h
        · rw [if_neg hn] at h ⊢; exact h

theorem simulate_emergency_mono (fuel k : Nat) (s s1 : State)
    (h : simulate_emergency fuel s = some s1) : simulate_emergency (fuel + k) s = some s1 := by
  cases hev : evacuate_loop fuel s.evacuationStack
      (log_action s.actionLog "!!! EMERGENCY EVACUATION STARTED !!!") with
  | none => simp [simulate_emergency, hev] at h
  | some r =>
    cases hcl : clear_floors s.headFloor fuel s.floorHeap s.headFloor with
    | none => simp [simulate_emergency, hev, hcl] at h
    | some fh1 =>
      have hev2 := evacuate_loop_mono k fuel _ _ r hev
      have hcl2 := clear_floors_mono s.headFloor k fuel _ _ fh1 hcl
      simp only [simulate_emergency, hev, hcl] at h
      simp only [simulate_emergency, hev2, hcl2]
      exact h

/-- A command that returns with some fuel returns the same state with more fuel. -/
theorem exec_mono (fuel k : Nat) (c : Cmd) (s s1 : State) (h : exec fuel c s = some s1) :
    exec (fuel + k) c s = some s1 := by
  cases c with
  | add_entry now => exact h
  | process_entry => exact process_entry_mono fuel k s s1 h
  | rotate_view => exact h
  | request_exit now => exact request_exit_mono fuel k now s s1 h
  | process_exit => exact h
  | emergency_evacuate => exact simulate_emergency_mono fuel k s s1 h

/-! ## What each command does to ids, occupancy and stack -/

theorem Kept_of_same (s s1 : State) (h1 : s1.carHeap = s.carHeap)
    (h2 : s1.floorHeap = s.floorHeap) (h3 : s1.entryQueue = s.entryQueue)
    (h4 : s1.evacuationStack = s.evacuationStack) (h5 : s1.carIdCounter = s.carIdCounter) :
    Kept s s1 := by
  refine ⟨h4, h5, by rw [h2], ?_⟩
  intro as hq
  rw [h1, h3]
  exact ⟨hq, rfl⟩

/-- The state `simulate_emergency` returns. -/
theorem simulate_emergency_result (fuel : Nat) (s : State) (hring : RingOK s)
    (hst : StackOK s.evacuationStack) (hfuel : 4 ≤ fuel)
    (hdepth : depth s.evacuationStack < (fuel : Int)) :
    ∃ log1, simulate_emergency fuel s = some { s with
      evacuationStack := { s.evacuationStack with top := -1 }, floorHeap := ring 0 0 0 0,
      actionLog := log_action log1 "Evacuation Complete. All slots empty." } := by
  obtain ⟨m0, m1, m2, m3, hfh, hhead, _, _, _, _⟩ := ring_of_RingOK hring
  obtain ⟨log1, hev, _⟩ := evacuate_loop_drains fuel s.evacuationStack
    (log_action s.actionLog "!!! EMERGENCY EVACUATION STARTED !!!") hst hdepth
  have hcl := clear_floors_ring m0 m1 m2 m3 fuel hfuel
  rw [← hfh, ← hhead] at hcl
  exact ⟨log1, by simp only [simulate_emergency, hev, hcl]⟩

theorem add_car_to_entry_added (now : Int) (s s1 : State) (h : WF s)
    (hrun : add_car_to_entry now s = some s1) : Added s s1 := by
  obtain ⟨_, _, _, _, as0, _, hentry0, _, _⟩ := h
  obtain ⟨h1, q1, henq, _⟩ := enqueue_spec s.carHeap s.entryQueue as0 s.carIdCounter now hentry0
  simp only [add_car_to_entry, henq, Option.some.injEq] at hrun
  rw [← hrun]
  refine ⟨rfl, rfl, rfl, ?_⟩
  intro as hq
  obtain ⟨h2, q2, henq2, hq2, hrec2, _⟩ :=
    enqueue_spec s.carHeap s.entryQueue as s.carIdCounter now hq
  rw [henq] at henq2
  simp only [Option.some.injEq, Prod.mk.injEq] at henq2
  obtain ⟨rfl, rfl⟩ := henq2
  exact ⟨_, now, hq2, hrec2⟩

theorem process_entry_effect (fuel : Nat) (s s1 : State) (h : WF s) (hfuel : 4 ≤ fuel)
    (hrun : process_entry fuel s = some s1) : Kept s s1 ∨ ParkedOne s s1 := by
  by_cases hc : s.entryQueue.count = 0
  · rw [process_entry_empty fuel s hc] at hrun
    simp only [Option.some.injEq] at hrun
    rw [← hrun]
    exact Or.inl (Kept_of_same _ _ rfl rfl rfl rfl rfl)
  · by_cases hfree : ∃ f, f ∈ s.floorHeap ∧ f.slots ≠ UINT64_MAX
    · obtain ⟨s2, a, c, hpe, _, _, _, hdq, hpush, _, htot⟩ :=
        process_entry_park_wf fuel s h hfuel hc hfree
      rw [hpe] at hrun
      simp only [Option.some.injEq] at hrun
      subst hrun
      refine Or.inr ⟨?_, htot, c.id, hpush, ?_⟩
      · obtain ⟨as0, _, hentry0, _, _⟩ := h.2.2.2.2
        obtain ⟨a0, as1, rfl⟩ := cons_of_count_ne_zero hentry0 hc
        obtain ⟨_, _, _, _, _, _, _, _, _, _, _, _, _, _, _, _, hpe2, _⟩ :=
          process_entry_park_spec s fuel a0 as1 h.1 h.2.1 hentry0 hfuel hfree
        rw [hpe] at hpe2
        simp only [Option.some.injEq] at hpe2
        rw [hpe2]
      · intro as hq
        obtain ⟨a1, as1, rfl⟩ := cons_of_count_ne_zero hq hc
        obtain ⟨c1, q1, _, hdq1, hq1, hrec1, _, _⟩ := dequeue_spec s.carHeap s.entryQueue a1 as1 hq
        rw [hdq] at hdq1
        simp only [Option.some.injEq, Prod.mk.injEq] at hdq1
        obtain ⟨e1, e2, e3⟩ := hdq1
        refine ⟨as1, c1.entry_time, ?_, ?_⟩
        · rw [e1, e2]; exact hq1
        · rw [e1, e3]; exact hrec1
    · push_neg at hfree
      rw [process_entry_full s fuel (-1) hc (find_floor_all_full s fuel h.1 hfuel hfree)] at hrun
      simp only [Option.some.injEq] at hrun
      rw [← hrun]
      exact Or.inl (Kept_of_same _ _ rfl rfl rfl rfl rfl)

theorem request_exit_kept (fuel : Nat) (now : Int) (s s1 : State) (h : WF s) (hfuel : 4 ≤ fuel)
    (hrun : request_exit fuel now s = some s1) : Kept s s1 := by
  by_cases hocc : ∃ f, f ∈ s.floorHeap ∧ f.slots ≠ 0
  · have hwf := h
    obtain ⟨hring, _, _, _, as0, bs0, hentry0, hexit0, hdis0⟩ := h
    obtain ⟨s2, t, i, k, f, m1, hrun2, _, _, _, _, _, _, _, _, _, _, _, htot, _, _, _, hq, hqok,
      hrec, hst, hctr⟩ :=
      request_exit_spec s fuel now as0 bs0 hring hentry0 hexit0 hdis0 hfuel hocc
    rw [hrun] at hrun2
    simp only [Option.some.injEq] at hrun2
    subst hrun2
    refine ⟨hst, hctr, by omega, ?_⟩
    intro as hqa
    have : as = as0 := IsChain_unique _ _ _ _ hqa.1 hentry0.1
    subst this
    exact ⟨hqok, hrec⟩
  · push_neg at hocc
    rw [request_exit_none fuel now s h.1 hfuel hocc] at hrun
    simp only [Option.some.injEq] at hrun
    rw [← hrun]
    exact Kept_of_same _ _ rfl rfl rfl rfl rfl

theorem process_exit_kept (s s1 : State) (h : WF s) (hrun : process_exit s = some s1) :
    Kept s s1 := by
  by_cases hc : s.exitQueue.count = 0
  · rw [process_exit_empty s hc] at hrun
    simp only [Option.some.injEq] at hrun
    rw [← hrun]
    exact Kept_of_same _ _ rfl rfl rfl rfl rfl
  · obtain ⟨_, _, _, _, as0, bs0, hentry0, hexit0, hdis0⟩ := h
    obtain ⟨b, bs1, rfl⟩ := cons_of_count_ne_zero hexit0 hc
    obtain ⟨c, q1, _, hdq, _, _, _, hframe⟩ := dequeue_spec s.carHeap s.exitQueue b bs1 hexit0
    simp only [process_exit, hc, if_false, hdq, Option.some.injEq] at hrun
    rw [← hrun]
    refine ⟨rfl, rfl, le_refl _, ?_⟩
    intro as hqa
    have : as = as0 := IsChain_unique _ _ _ _ hqa.1 hentry0.1
    subst this
    have hba : b ∉ as := fun ha => hdis0 ha (List.mem_cons_self _ _)
    obtain ⟨hch, hrec⟩ := hframe s.entryQueue.front as hba hqa.1
    exact ⟨⟨hch, hqa.2.1, hqa.2.2⟩, hrec⟩

theorem simulate_emergency_evacuated (fuel : Nat) (s s1 : State) (h : WF s) (hfuel : 4 ≤ fuel)
    (hdepth : depth s.evacuationStack < (fuel : Int))
    (hrun : simulate_emergency fuel s = some s1) : Evacuated s s1 := by
  obtain ⟨log1, hres⟩ := simulate_emergency_result fuel s h.1 h.2.1 hfuel hdepth
  rw [hres] at hrun
  simp only [Option.some.injEq] at hrun
  rw [← hrun]
  refine ⟨rfl, rfl, rfl, rfl, ?_⟩
  show total_occupied (ring 0 0 0 0) = 0
  rw [total_occupied_ring, occupied_zero]

/-- Every command that returns on a well-formed state has one of four effects. -/
theorem exec_effect (fuel : Nat) (c : Cmd) (s s1 : State) (h : WF s)
    (hrun : exec fuel c s = some s1) :
    Kept s s1 ∨ Added s s1 ∨ ParkedOne s s1 ∨ Evacuated s s1 := by
  have hbig := exec_mono fuel 257 c s s1 hrun
  have hf4 : 4 ≤ fuel + 257 := by omega
  cases c with
  | add_entry now => exact Or.inr (Or.inl (add_car_to_entry_added now s s1 h hrun))
  | process_entry =>
    rcases process_entry_effect (fuel + 257) s s1 h hf4 hbig with hk | hp
    · exact Or.inl hk
    · exact Or.inr (Or.inr (Or.inl hp))
  | rotate_view =>
    have hres := rotate_view_result s s1 hrun
    rw [hres]
    exact Or.inl (Kept_of_same _ _ rfl rfl rfl rfl rfl)
  | request_exit now => exact Or.inl (request_exit_kept (fuel + 257) now s s1 h hf4 hbig)
  | process_exit => exact Or.inl (process_exit_kept s s1 h hrun)
  | emergency_evacuate =>
    have hd : depth s.evacuationStack < ((fuel + 257 : Nat) : Int) := by
      obtain ⟨_, _, hhi⟩ := h.2.1
      simp only [MAX_FLOORS, SLOTS_PER_FLOOR] at hhi
      simp only [depth]
      push_cast
      omega
    exact Or.inr (Or.inr (Or.inr (simulate_emergency_evacuated (fuel + 257) s s1 h hf4 hd hbig)))

/-! ## Occupancy never exceeds the stack depth -/

theorem occupied_le (m : Nat) : occupied m ≤ 64 := by
  unfold occupied
  have := List.countP_le_length (fun i => (m >>> i) &&& 1 != 0) (l := List.range 64)
  simpa using this

theorem total_occupied_le (s : State) (hring : RingOK s) : total_occupied s.floorHeap ≤ 256 := by
  obtain ⟨m0, m1, m2, m3, hfh, _⟩ := ring_of_RingOK hring
  rw [hfh, total_occupied_ring]
  have := occupied_le m0
  have := occupied_le m1
  have := occupied_le m2
  have := occupied_le m3
  omega

theorem balanced_step (s s1 : State) (hwf : WF s) (hwf1 : WF s1) (hb : Balanced s)
    (he : Kept s s1 ∨ Added s s1 ∨ ParkedOne s s1 ∨ Evacuated s s1) : Balanced s1 := by
  unfold Balanced at hb ⊢
  rcases he with ⟨hst, _, htot, _⟩ | ⟨hst, _, hfl, _⟩ | ⟨_, htot, id, hpush, _⟩ | ⟨_, _, _, htop, htot⟩
  · rw [hst]
    have : (total_occupied s1.floorHeap : Int) ≤ total_occupied s.floorHeap := by exact_mod_cast htot
    omega
  · rw [hst, hfl]; exact hb
  · by_cases hroom : s.evacuationStack.top < 255
    · have hp := (push_below_capacity s.evacuationStack id hwf.2.1 hroom).1
      rw [hpush] at hp
      simp only [Option.some.injEq] at hp
      rw [hp, htot]
      simp only [depth] at hb ⊢
      push_cast
      omega
    · have hp := push_at_capacity s.evacuationStack id (by omega)
      rw [hpush] at hp
      simp only [Option.some.injEq] at hp
      have hcap := total_occupied_le s1 hwf1.1
      rw [hp]
      simp only [depth]
      have : (total_occupied s1.floorHeap : Int) ≤ 256 := by exact_mod_cast hcap
      omega
  · rw [htot]
    simp only [depth, htop]
    decide

theorem balanced_run (fuel : Nat) :
    ∀ (cmds : List Cmd) (s s1 : State), WF s → Balanced s → run fuel cmds s = some s1 →
      Balanced s1 := by
  intro cmds
  induction cmds with
  | nil =>
    intro s s1 _ hb hrun
    simp only [run, Option.some.injEq] at hrun
    rw [← hrun]; exact hb
  | cons c cs ih =>
    intro s s1 hwf hb hrun
    cases hc : exec fuel c s with
    | none => simp [run, hc] at hrun
    | some s2 =>
      simp only [run, hc] at hrun
      have hwf2 := exec_wf fuel c s s2 hwf hc
      exact ih s2 s1 hwf2 (balanced_step s s2 hwf hwf2 hb (exec_effect fuel c s s2 hwf hc)) hrun

theorem balanced_initial : Balanced initial := by
  unfold Balanced
  rw [show initial.floorHeap = ring 0 0 0 0 from rfl, total_occupied_ring, occupied_zero]
  decide

theorem reachable_balanced (s : State) (h : Reachable s) : Balanced s := by
  obtain ⟨fuel, cmds, s0, hinit, hrun⟩ := h
  rw [init_system_boot] at hinit
  simp only [Option.some.injEq] at hinit
  rw [← hinit] at hrun
  exact balanced_run fuel cmds initial s initial_wf balanced_initial hrun

/-! ## Ids are issued once and in increasing order -/

theorem take_set_same {α : Type} (v : α) :
    ∀ (l : List α) (n : Nat), (l.set n v).take n = l.take n := by
  intro l
  induction l with
  | nil => intro n; simp
  | cons a l ih =>
    intro n
    cases n with
    | zero => simp
    | succ n => simp [ih n]

theorem take_succ_set {α : Type} (l : List α) (n : Nat) (v : α) (h : n < l.length) :
    (l.set n v).take (n + 1) = l.take n ++ [v] := by
  rw [List.take_succ, List.getElem?_set_self h, take_set_same]
  rfl

/-- A push that is not dropped puts the id on top of the stacked ids. -/
theorem stack_ids_push (st : Stack) (v : Int) (hst : StackOK st) (hroom : st.top < 255) :
    stack_ids { items := st.items.set (st.top + 1).toNat v, top := st.top + 1 }
      = stack_ids st ++ [v] := by
  obtain ⟨hlen, hlo, hhi⟩ := hst
  simp only [MAX_FLOORS, SLOTS_PER_FLOOR] at hlen hhi
  unfold stack_ids
  have e : (st.top + 1 + 1).toNat = (st.top + 1).toNat + 1 := by omega
  show List.take (st.top + 1 + 1).toNat (st.items.set (st.top + 1).toNat v) = _
  rw [e, take_succ_set _ _ _ (by omega)]

theorem ids_step (s s1 : State) (hwf : WF s) (hi : IdsOK s)
    (he : Kept s s1 ∨ Added s s1 ∨ ParkedOne s s1 ∨ Evacuated s s1) : IdsOK s1 := by
  obtain ⟨as, hq, hpw, hlt⟩ := hi
  rcases he with ⟨hst, hctr, _, hk⟩ | ⟨hst, hctr, _, ha⟩ | ⟨hctr, _, id, hpush, hp⟩ |
    ⟨hctr, hheap, hent, htop, _⟩
  · obtain ⟨hq1, hrec⟩ := hk as hq
    refine ⟨as, hq1, ?_, ?_⟩
    · unfold known_ids at hpw ⊢; rw [hst, hrec]; exact hpw
    · intro x hx
      unfold known_ids at hx; rw [hst, hrec] at hx
      rw [hctr]; exact hlt x hx
  · obtain ⟨as1, now, hq1, hrec⟩ := ha as hq
    have hk : known_ids s1 as1 = known_ids s as ++ [s.carIdCounter] := by
      unfold known_ids; rw [hst, hrec]; simp
    refine ⟨as1, hq1, ?_, ?_⟩
    · rw [hk, List.pairwise_append]
      refine ⟨hpw, List.pairwise_singleton _ _, ?_⟩
      intro a ha b hb
      rw [List.mem_singleton] at hb
      rw [hb]; exact hlt a ha
    · intro x hx
      rw [hk] at hx
      rw [hctr]
      rcases List.mem_append.1 hx with h1 | h1
      · have := hlt x h1; omega
      · rw [List.mem_singleton] at h1; omega
  · obtain ⟨as1, now, hq1, hrec⟩ := hp as hq
    have hsub : (known_ids s1 as1).Sublist (known_ids s as) := by
      unfold known_ids
      rw [hrec, List.map_cons]
      by_cases hroom : s.evacuationStack.top < 255
      · have hpb := (push_below_capacity s.evacuationStack id hwf.2.1 hroom).1
        rw [hpush] at hpb
        simp only [Option.some.injEq] at hpb
        rw [hpb, stack_ids_push _ _ hwf.2.1 hroom, List.append_assoc]
        exact List.Sublist.refl _
      · have hpc := push_at_capacity s.evacuationStack id (by omega)
        rw [hpush] at hpc
        simp only [Option.some.injEq] at hpc
        rw [hpc]
        exact List.Sublist.append (List.Sublist.refl _) (List.sublist_cons_self _ _)
    refine ⟨as1, hq1, List.Pairwise.sublist hsub hpw, ?_⟩
    intro x hx
    rw [hctr]; exact hlt x (hsub.subset hx)
  · have hq1 : QueueOK s1.carHeap s1.entryQueue as := by rw [hheap, hent]; exact hq
    have hsub : (known_ids s1 as).Sublist (known_ids s as) := by
      unfold known_ids stack_ids
      rw [hheap, htop]
      exact List.sublist_append_right _ _
    refine ⟨as, hq1, List.Pairwise.sublist hsub hpw, ?_⟩
    intro x hx
    rw [hctr]; exact hlt x (hsub.subset hx)

theorem ids_initial : IdsOK initial := by
  refine ⟨[], ⟨(IsChain_nil _ _).2 rfl, rfl, rfl⟩, ?_, ?_⟩
  · show List.Pairwise _ []
    exact List.Pairwise.nil
  · intro id hid
    have : known_ids initial [] = [] := rfl
    rw [this] at hid
    exact absurd hid (List.not_mem_nil _)

/-- What a command does to the id counter: `add_entry` adds one, the others nothing. -/
theorem exec_counter (fuel : Nat) (c : Cmd) (s s1 : State) (h : WF s)
    (hrun : exec fuel c s = some s1) :
    s1.carIdCounter = s.carIdCounter + (issued [c] : Int) := by
  have hbig := exec_mono fuel 257 c s s1 hrun
  have hf4 : 4 ≤ fuel + 257 := by omega
  cases c with
  | add_entry now =>
    have := (add_car_to_entry_added now s s1 h hrun).2.1
    rw [this]; rfl
  | process_entry =>
    rcases process_entry_effect (fuel + 257) s s1 h hf4 hbig with hk | hp
    · rw [hk.2.1]; simp [issued]
    · rw [hp.1]; simp [issued]
  | rotate_view =>
    rw [rotate_view_result s s1 hrun]; simp [issued]
  | request_exit now =>
    rw [(request_exit_kept (fuel + 257) now s s1 h hf4 hbig).2.1]; simp [issued]
  | process_exit =>
    rw [(process_exit_kept s s1 h hrun).2.1]; simp [issued]
  | emergency_evacuate =>
    have hd : depth s.evacuationStack < ((fuel + 257 : Nat) : Int) := by
      obtain ⟨_, _, hhi⟩ := h.2.1
      simp only [MAX_FLOORS, SLOTS_PER_FLOOR] at hhi
      simp only [depth]
      push_cast
      omega
    rw [(simulate_emergency_evacuated (fuel + 257) s s1 h hf4 hd hbig).1]; simp [issued]

theorem ids_run (fuel : Nat) :
    ∀ (cmds : List Cmd) (s s1 : State), WF s → IdsOK s → run fuel cmds s = some s1 →
      IdsOK s1 ∧ s1.carIdCounter = s.carIdCounter + (issued cmds : Int) := by
  intro cmds
  induction cmds with
  | nil =>
    intro s s1 _ hi hrun
    simp only [run, Option.some.injEq] at hrun
    rw [← hrun]; exact ⟨hi, by simp [issued]⟩
  | cons c cs ih =>
    intro s s1 hwf hi hrun
    cases hc : exec fuel c s with
    | none => simp [run, hc] at hrun
    | some s2 =>
      simp only [run, hc] at hrun
      have hwf2 := exec_wf fuel c s s2 hwf hc
      obtain ⟨h1, h2⟩ := ih s2 s1 hwf2 (ids_step s s2 hwf hi (exec_effect fuel c s s2 hwf hc)) hrun
      refine ⟨h1, ?_⟩
      rw [h2, exec_counter fuel c s s2 hwf hc]
      have : issued (c :: cs) = issued [c] + issued cs := by
        unfold issued
        rw [show c :: cs = [c] ++ cs from rfl, List.countP_append]
      rw [this]
      push_cast
      ring

/-- On a well-formed state `add_car_to_entry` succeeds, enqueues the current counter value
behind the waiting records and adds one to the counter. -/
theorem add_car_to_entry_issues (now : Int) (s : State) (h : WF s) :
    ∃ s1, add_car_to_entry now s = some s1 ∧ s1.carIdCounter = s.carIdCounter + 1 ∧
      ∀ as, QueueOK s.carHeap s.entryQueue as →
        ∃ as1, QueueOK s1.carHeap s1.entryQueue as1 ∧
          records s1.carHeap as1 = records s.carHeap as ++ [(s.carIdCounter, now)] := by
  obtain ⟨s1, hrun, _⟩ := add_car_to_entry_wf now s h
  refine ⟨s1, hrun, ?_, ?_⟩
  · exact (add_car_to_entry_added now s s1 h hrun).2.1
  · intro as hq
    obtain ⟨h2, q2, henq2, hq2, hrec2, _⟩ :=
      enqueue_spec s.carHeap s.entryQueue as s.carIdCounter now hq
    simp only [add_car_to_entry, henq2, Option.some.injEq] at hrun
    rw [← hrun]
    exact ⟨_, hq2, hrec2⟩

/-! ## The ring is a cycle of four floors -/

theorem low_bits_testBit (k i : Nat) : (low_bits k).testBit i = decide (i < k) := by
  unfold low_bits
  exact Nat.testBit_two_pow_sub_one k i

theorem low_bits_lt (k : Nat) (hk : k ≤ 64) : low_bits k < 2 ^ 64 := by
  unfold low_bits
  have : 2 ^ k ≤ 2 ^ 64 := Nat.pow_le_pow_right (by norm_num) hk
  have : 0 < 2 ^ k := Nat.two_pow_pos k
  omega

theorem low_bits_full : low_bits 64 = UINT64_MAX := rfl

theorem find_free_slot_low_bits (k : Nat) (hk : k < 64) :
    find_free_slot (low_bits k) = (k : Int) :=
  find_free_slot_from_least (low_bits k) k 64 0 (Nat.zero_le _) (by omega)
    (by rw [low_bits_testBit]; simp)
    (fun j _ hj => by rw [low_bits_testBit]; simp [hj])

theorem find_free_slot_full : find_free_slot (low_bits 64) = -1 :=
  (find_free_slot_cases UINT64_MAX (by norm_num [UINT64_MAX])).1.2 rfl

theorem set_slot_low_bits (k : Nat) (hk : k < 64) :
    set_slot (low_bits k) k = low_bits (k + 1) := by
  apply Nat.eq_of_testBit_eq
  intro j
  rw [testBit_set_slot _ _ _ (low_bits_lt k (by omega)) hk, low_bits_testBit, low_bits_testBit]
  by_cases h1 : j < k
  · simp [h1, show j < k + 1 by omega]
  · by_cases h2 : k = j
    · simp [h2]
    · simp [h1, h2, show ¬ j < k + 1 by omega]

theorem fill_eq (n t j : Nat) (h : min (n - 64 * t) 64 = j) : fill n t = low_bits j := by
  unfold fill
  rw [h]

theorem fill_succ_same (n t : Nat) (h : min (n + 1 - 64 * t) 64 = min (n - 64 * t) 64) :
    fill (n + 1) t = fill n t := by
  unfold fill
  rw [h]

/-- With the first `k < 256` slots in ring order occupied, the search of `process_entry`
finds floor `k / 64`, slot `k % 64`, and setting that slot occupies the first `k + 1`. -/
theorem park_fill (k fuel : Nat) (hk : k < 256) (hfuel : 4 ≤ fuel) :
    ∃ f, (ring (fill k 0) (fill k 1) (fill k 2) (fill k 3))[k / 64]? = some f ∧
      f.floor_number = ((k / 64 : Nat) : Int) + 1 ∧
      find_floor (ring (fill k 0) (fill k 1) (fill k 2) (fill k 3)) (some 0) fuel (some 0)
        = some (some (k / 64), ((k % 64 : Nat) : Int)) ∧
      (ring (fill k 0) (fill k 1) (fill k 2) (fill k 3)).set (k / 64)
          { f with slots := set_slot f.slots (k % 64) }
        = ring (fill (k + 1) 0) (fill (k + 1) 1) (fill (k + 1) 2) (fill (k + 1) 3) := by
  rw [find_floor_ring _ _ _ _ fuel hfuel]
  have hm : k % 64 < 64 := Nat.mod_lt _ (by norm_num)
  have hs := find_free_slot_low_bits (k % 64) hm
  have hne : ((k % 64 : Nat) : Int) ≠ -1 := by omega
  have hfull : ¬ ((-1 : Int) ≠ -1) := fun h => h rfl
  have hcase : k / 64 = 0 ∨ k / 64 = 1 ∨ k / 64 = 2 ∨ k / 64 = 3 := by omega
  rcases hcase with h | h | h | h
  · have e0 : fill k 0 = low_bits (k % 64) := fill_eq _ _ _ (by omega)
    have n0 : fill (k + 1) 0 = low_bits (k % 64 + 1) := fill_eq _ _ _ (by omega)
    have n1 : fill (k + 1) 1 = fill k 1 := fill_succ_same _ _ (by omega)
    have n2 : fill (k + 1) 2 = fill k 2 := fill_succ_same _ _ (by omega)
    have n3 : fill (k + 1) 3 = fill k 3 := fill_succ_same _ _ (by omega)
    rw [h, e0, n0, n1, n2, n3]
    refine ⟨⟨1, low_bits (k % 64), some 1⟩, rfl, rfl, ?_, ?_⟩
    · rw [hs, if_pos hne]
    · simp only [ring, List.set_cons_zero, List.set_cons_succ, set_slot_low_bits _ hm]
  · have e0 : fill k 0 = low_bits 64 := fill_eq _ _ _ (by omega)
    have e1 : fill k 1 = low_bits (k % 64) := fill_eq _ _ _ (by omega)
    have n0 : fill (k + 1) 0 = low_bits 64 := fill_eq _ _ _ (by omega)
    have n1 : fill (k + 1) 1 = low_bits (k % 64 + 1) := fill_eq _ _ _ (by omega)
    have n2 : fill (k + 1) 2 = fill k 2 := fill_succ_same _ _ (by omega)
    have n3 : fill (k + 1) 3 = fill k 3 := fill_succ_same _ _ (by omega)
    rw [h, e0, e1, n0, n1, n2, n3]
    refine ⟨⟨2, low_bits (k % 64), some 2⟩, rfl, rfl, ?_, ?_⟩
    · rw [find_free_slot_full, if_neg hfull, hs, if_pos hne]
    · simp only [ring, List.set_cons_zero, List.set_cons_succ, set_slot_low_bits _ hm]
  · have e0 : fill k 0 = low_bits 64 := fill_eq _ _ _ (by omega)
    have e1 : fill k 1 = low_bits 64 := fill_eq _ _ _ (by omega)
    have e2 : fill k 2 = low_bits (k % 64) := fill_eq _ _ _ (by omega)
    have n0 : fill (k + 1) 0 = low_bits 64 := fill_eq _ _ _ (by omega)
    have n1 : fill (k + 1) 1 = low_bits 64 := fill_eq _ _ _ (by omega)
    have n2 : fill (k + 1) 2 = low_bits (k % 64 + 1) := fill_eq _ _ _ (by omega)
    have n3 : fill (k + 1) 3 = fill k 3 := fill_succ_same _ _ (by omega)
    rw [h, e0, e1, e2, n0, n1, n2, n3]
    refine ⟨⟨3, low_bits (k % 64), some 3⟩, rfl, rfl, ?_, ?_⟩
    · rw [find_free_slot_full, if_neg hfull, if_neg hfull, hs, if_pos hne]
    · simp only [ring, List.set_cons_zero, List.set_cons_succ, set_slot_low_bits _ hm]
  · have e0 : fill k 0 = low_bits 64 := fill_eq _ _ _ (by omega)
    have e1 : fill k 1 = low_bits 64 := fill_eq _ _ _ (by omega)
    have e2 : fill k 2 = low_bits 64 := fill_eq _ _ _ (by omega)
    have e3 : fill k 3 = low_bits (k % 64) := fill_eq _ _ _ (by omega)
    have n0 : fill (k + 1) 0 = low_bits 64 := fill_eq _ _ _ (by omega)
    have n1 : fill (k + 1) 1 = low_bits 64 := fill_eq _ _ _ (by omega)
    have n2 : fill (k + 1) 2 = low_bits 64 := fill_eq _ _ _ (by omega)
    have n3 : fill (k + 1) 3 = low_bits (k % 64 + 1) := fill_eq _ _ _ (by omega)
    rw [h, e0, e1, e2, e3, n0, n1, n2, n3]
    refine ⟨⟨4, low_bits (k % 64), some 0⟩, rfl, rfl, ?_, ?_⟩
    · rw [find_free_slot_full, if_neg hfull, if_neg hfull, if_neg hfull, hs, if_pos hne]
    · simp only [ring, List.set_cons_zero, List.set_cons_succ, set_slot_low_bits _ hm]

/-! ## Adding `n` cars, then parking them one by one -/

theorem id_range_zero (a : Nat) : id_range a 0 = [] := rfl

theorem id_range_succ (a len : Nat) :
    id_range a (len + 1) = (a : Int) :: id_range (a + 1) len := by
  simp [id_range, List.range'_succ]

theorem id_range_concat (a len : Nat) :
    id_range a (len + 1) = id_range a len ++ [((a + len : Nat) : Int)] := by
  simp [id_range, List.range'_1_concat]

theorem id_range_append (a n m : Nat) :
    id_range a (n + m) = id_range a n ++ id_range (a + n) m := by
  induction m with
  | zero => simp [id_range_zero]
  | succ m ih =>
    rw [← Nat.add_assoc, id_range_concat, ih, id_range_concat, List.append_assoc,
      Nat.add_assoc]

/-- Adding cars at the times `ts` appends the ids `c, c + 1, ...` to the entry queue,
where `c` is the counter at the start, and touches neither floors nor stack. -/
theorem adds_run (fuel : Nat) :
    ∀ (ts : List Int) (s : State) (as : List Nat) (c : Nat), WF s →
      QueueOK s.carHeap s.entryQueue as → s.carIdCounter = (c : Int) →
      ∃ s1 as1, run fuel (ts.map Cmd.add_entry) s = some s1 ∧ WF s1 ∧
        QueueOK s1.carHeap s1.entryQueue as1 ∧
        (records s1.carHeap as1).map Prod.fst
          = (records s.carHeap as).map Prod.fst ++ id_range c ts.length ∧
        s1.floorHeap = s.floorHeap ∧ s1.evacuationStack = s.evacuationStack ∧
        s1.carIdCounter = ((c + ts.length : Nat) : Int) := by
  intro ts
  induction ts with
  | nil =>
    intro s as c hwf hq hc
    exact ⟨s, as, rfl, hwf, hq, by simp [id_range_zero], rfl, rfl, by simpa using hc⟩
  | cons now ts ih =>
    intro s as c hwf hq hc
    obtain ⟨s1, hadd, hwf1, _, hfl1, hst1⟩ := add_car_to_entry_spec now s hwf
    obtain ⟨s1b, hadd2, hctr1, hrec1⟩ := add_car_to_entry_issues now s hwf
    rw [hadd] at hadd2
    simp only [Option.some.injEq] at hadd2
    subst hadd2
    obtain ⟨as1, hq1, hr1⟩ := hrec1 as hq
    have hc1 : s1.carIdCounter = ((c + 1 : Nat) : Int) := by rw [hctr1, hc]; push_cast; ring
    obtain ⟨s2, as2, hrun2, hwf2, hq2, hr2, hfl2, hst2, hc2⟩ := ih s1 as1 (c + 1) hwf1 hq1 hc1
    refine ⟨s2, as2, ?_, hwf2, hq2, ?_, by rw [hfl2, hfl1], by rw [hst2, hst1], ?_⟩
    · simp only [List.map_cons, run, exec, hadd]
      exact hrun2
    · rw [hr2, hr1, List.map_append, List.append_assoc, List.length_cons, id_range_succ, hc]
      rfl
    · rw [hc2, List.length_cons]
      congr 1
      omega

theorem fill_zero (t : Nat) : fill 0 t = 0 := by
  have : min (0 - 64 * t) 64 = 0 := by omega
  rw [fill_eq 0 t 0 this]
  rfl

/-- After the adds and before any park. -/
theorem stage_zero (fuel : Nat) (ts : List Int) :
    ∃ s, run fuel (ts.map Cmd.add_entry) initial = some s ∧ Stage 0 ts.length s := by
  obtain ⟨s1, as1, hrun, hwf, hq, hrec, hfl, hst, hc⟩ :=
    adds_run fuel ts initial [] 1 initial_wf ⟨(IsChain_nil _ _).2 rfl, rfl, rfl⟩ rfl
  refine ⟨s1, hrun, hwf, ?_, ?_, ?_, ?_, as1, hq, ?_⟩
  · rw [hfl, fill_zero, fill_zero, fill_zero, fill_zero]; rfl
  · rw [hst]; rfl
  · rw [hst]; rfl
  · rw [hc]; push_cast; ring
  · rw [hrec]
    simp [records]

/-- Parking the next car when `k` are parked and more are waiting. -/
theorem park_step (fuel : Nat) (hfuel : 4 ≤ fuel) (k n : Nat) (s : State) (hkn : k < n)
    (hn : n ≤ 256) (h : Stage k n s) :
    ∃ s1 f, process_entry fuel s = some s1 ∧ Stage (k + 1) n s1 ∧
      s.floorHeap[k / 64]? = some f ∧ f.floor_number = ((k / 64 : Nat) : Int) + 1 ∧
      s1.floorHeap = s.floorHeap.set (k / 64) { f with slots := set_slot f.slots (k % 64) } ∧
      s1.actionLog = log_action s.actionLog
        (parked_msg ((k + 1 : Nat) : Int) (((k / 64 : Nat) : Int) + 1) ((k % 64 : Nat) : Int)) := by
  obtain ⟨hwf, hfl, htop, hids, hctr, as, hq, hrec⟩ := h
  have hlen : n - k = (n - k - 1) + 1 := by omega
  rw [hlen, id_range_succ] at hrec
  cases as with
  | nil => simp [records] at hrec
  | cons a as1 =>
    obtain ⟨f, hf, hnum, hfind, hset⟩ := park_fill k fuel (by omega) hfuel
    rw [← hfl] at hf hfind hset
    have hhead : s.headFloor = some 0 := hwf.1.1
    have hfind2 : find_floor s.floorHeap s.headFloor fuel s.headFloor
        = some (some (k / 64), ((k % 64 : Nat) : Int)) := by rw [hhead]; exact hfind
    obtain ⟨c, q1, st1, hc, hdq, hpush, hpe⟩ :=
      process_entry_parks s fuel a as1 (k / 64) ((k % 64 : Nat) : Int) f hwf.2.1 hq hfind2 hf
    obtain ⟨c2, q2, hc2, hdq2, hq2, hrec2, _, _⟩ := dequeue_spec s.carHeap s.entryQueue a as1 hq
    rw [hc] at hc2
    have hcc : c = c2 := Option.some.inj (Option.some.inj hc2)
    subst hcc
    rw [hdq] at hdq2
    simp only [Option.some.injEq, Prod.mk.injEq, true_and, and_true] at hdq2
    subst hdq2
    rw [hrec2, List.map_cons, List.cons.injEq] at hrec
    obtain ⟨hid, hrest⟩ := hrec
    have hid1 : c.id = ((k + 1 : Nat) : Int) := hid
    have hroom : s.evacuationStack.top < 255 := by rw [htop]; omega
    have hpb := (push_below_capacity s.evacuationStack c.id hwf.2.1 hroom).1
    rw [hpush] at hpb
    simp only [Option.some.injEq] at hpb
    have hwf1 := process_entry_wf fuel s _ hwf hpe
    refine ⟨_, f, hpe, ⟨hwf1, ?_, ?_, ?_, hctr, as1, hq2, ?_⟩, hf, hnum, ?_, ?_⟩
    · show s.floorHeap.set (k / 64)
        { f with slots := set_slot f.slots (Int.toNat ((k % 64 : Nat) : Int)) } = _
      rw [Int.toNat_ofNat]
      exact hset
    · show st1.top = _
      rw [hpb]
      show s.evacuationStack.top + 1 = _
      rw [htop]; push_cast; ring
    · show stack_ids st1 = _
      rw [hpb, stack_ids_push _ _ hwf.2.1 hroom, hids, hid1, id_range_concat]
      congr 2
      omega
    · show (records (s.carHeap.set a none) as1).map Prod.fst = _
      rw [hrest, show n - k - 1 = n - (k + 1) by omega]
    · show s.floorHeap.set (k / 64)
        { f with slots := set_slot f.slots (Int.toNat ((k % 64 : Nat) : Int)) } = _
      rw [Int.toNat_ofNat]
    · show log_action s.actionLog (parked_msg c.id f.floor_number _) = _
      rw [hid1, hnum]

/-- Parking `j` more cars. -/
theorem parks_run (fuel : Nat) (hfuel : 4 ≤ fuel) (n : Nat) (hn : n ≤ 256) :
    ∀ (j k : Nat) (s : State), Stage k n s → k + j ≤ n →
      ∃ s1, run fuel (List.replicate j Cmd.process_entry) s = some s1 ∧ Stage (k + j) n s1 := by
  intro j
  induction j with
  | zero => intro k s h _; exact ⟨s, rfl, h⟩
  | succ j ih =>
    intro k s h hkj
    obtain ⟨s1, f, hpe, hst1, _⟩ := park_step fuel hfuel k n s (by omega) hn h
    obtain ⟨s2, hrun2, hst2⟩ := ih (k + 1) s1 hst1 (by omega)
    refine ⟨s2, ?_, ?_⟩
    · simp only [List.replicate_succ, run, exec, hpe]
      exact hrun2
    · rw [show k + (j + 1) = k + 1 + j by omega]
      exact hst2

/-- After the adds and `k` parks. -/
theorem stage_run (fuel : Nat) (hfuel : 4 ≤ fuel) (ts : List Int) (hn : ts.length ≤ 256)
    (k : Nat) (hk : k ≤ ts.length) :
    ∃ s, run fuel (fill_cmds ts k) initial = some s ∧ Stage k ts.length s := by
  obtain ⟨s0, hrun0, hst0⟩ := stage_zero fuel ts
  obtain ⟨s1, hrun1, hst1⟩ := parks_run fuel hfuel ts.length hn k 0 s0 hst0 (by omega)
  refine ⟨s1, ?_, by simpa using hst1⟩
  unfold fill_cmds
  rw [run_append fuel _ _ initial s0 hrun0]
  exact hrun1

/-! ## C16: car ids are monotonically increasing and never reused -/

/-- C16: in the state `s` reached from the initial state by the commands `cmds`, the id
counter is one more than the number of `add_entry` commands issued; `add_entry` succeeds,
enqueues the current counter value and adds one to the counter (so the k-th `add_entry`
issues id k); the ids in the entry queue are strictly increasing from front to rear; the
ids on the evacuation stack followed by those in the entry queue are strictly increasing,
hence no id occurs twice across the two structures; and each of them is strictly smaller
than the id counter. Ids are unbounded integers here (no overflow of the counter). -/
theorem car_ids_fresh_and_increasing (fuel : Nat) (cmds : List Cmd) (s : State) (now : Int)
    (hrun : run fuel cmds initial = some s) :
    s.carIdCounter = 1 + (issued cmds : Int) ∧
    (∃ s1, add_car_to_entry now s = some s1 ∧ s1.carIdCounter = s.carIdCounter + 1 ∧
      ∀ as, QueueOK s.carHeap s.entryQueue as →
        ∃ as1, QueueOK s1.carHeap s1.entryQueue as1 ∧
          records s1.carHeap as1 = records s.carHeap as ++ [(s.carIdCounter, now)]) ∧
    ∃ as, QueueOK s.carHeap s.entryQueue as ∧
      ((records s.carHeap as).map Prod.fst).Pairwise (· < ·) ∧
      (stack_ids s.evacuationStack ++ (records s.carHeap as).map Prod.fst).Pairwise (· < ·) ∧
      (stack_ids s.evacuationStack ++ (records s.carHeap as).map Prod.fst).Nodup ∧
      ∀ id, id ∈ stack_ids s.evacuationStack ++ (records s.carHeap as).map Prod.fst →
        id < s.carIdCounter := by
  have hwf := run_wf fuel cmds initial s initial_wf hrun
  obtain ⟨⟨as, hq, hpw, hlt⟩, hctr⟩ := ids_run fuel cmds initial s initial_wf ids_initial hrun
  refine ⟨?_, add_car_to_entry_issues now s hwf, as, hq, ?_, hpw, hpw.nodup, hlt⟩
  · rw [hctr]; rfl
  · exact (List.pairwise_append.1 hpw).2.1

theorem car_ids_fresh_and_increasing_witness :
    one_waiting.carIdCounter = 1 + (issued [Cmd.add_entry 0] : Int) ∧
    (∃ s1, add_car_to_entry 5 one_waiting = some s1 ∧
      s1.carIdCounter = one_waiting.carIdCounter + 1 ∧
      ∀ as, QueueOK one_waiting.carHeap one_waiting.entryQueue as →
        ∃ as1, QueueOK s1.carHeap s1.entryQueue as1 ∧
          records s1.carHeap as1
            = records one_waiting.carHeap as ++ [(one_waiting.carIdCounter, 5)]) ∧
    ∃ as, QueueOK one_waiting.carHeap one_waiting.entryQueue as ∧
      ((records one_waiting.carHeap as).map Prod.fst).Pairwise (· < ·) ∧
      (stack_ids one_waiting.evacuationStack
        ++ (records one_waiting.carHeap as).map Prod.fst).Pairwise (· < ·) ∧
      (stack_ids one_waiting.evacuationStack
        ++ (records one_waiting.carHeap as).map Prod.fst).Nodup ∧
      ∀ id, id ∈ stack_ids one_waiting.evacuationStack
          ++ (records one_waiting.carHeap as).map Prod.fst →
        id < one_waiting.carIdCounter :=
  car_ids_fresh_and_increasing 4 [Cmd.add_entry 0] one_waiting 5 rfl

/-! ## C17: the floor ring is a closed cycle of four floors -/

/-- C18: in every state reachable from `init_system` by the six commands the total number
of set occupancy bits over the four floors is at most the evacuation stack depth, the
depth is between 0 and 256, and `top` stays within -1..255 inside an array of 256 items. -/
theorem occupancy_bounded_by_stack (s : State) (hreach : Reachable s) :
    (total_occupied s.floorHeap : Int) ≤ depth s.evacuationStack ∧
    0 ≤ depth s.evacuationStack ∧ depth s.evacuationStack ≤ 256 ∧
    -1 ≤ s.evacuationStack.top ∧ s.evacuationStack.top ≤ 255 ∧
    s.evacuationStack.items.length = 256 := by
  have hb := reachable_balanced s hreach
  obtain ⟨hlen, hlo, hhi⟩ := (reachable_wf s hreach).2.1
  simp only [MAX_FLOORS, SLOTS_PER_FLOOR] at hlen hhi
  refine ⟨hb, ?_, ?_, hlo, ?_, hlen⟩
  · simp only [depth]; omega
  · simp only [depth]; omega
  · omega

theorem occupancy_bounded_by_stack_witness :
    (total_occupied one_waiting.floorHeap : Int) ≤ depth one_waiting.evacuationStack ∧
    0 ≤ depth one_waiting.evacuationStack ∧ depth one_waiting.evacuationStack ≤ 256 ∧
    -1 ≤ one_waiting.evacuationStack.top ∧ one_waiting.evacuationStack.top ≤ 255 ∧
    one_waiting.evacuationStack.items.length = 256 :=
  occupancy_bounded_by_stack one_waiting ⟨4, [Cmd.add_entry 0], initial, init_system_boot, rfl⟩

/-! ## C19: floors fill in ring order to full capacity -/

theorem fill_occupied (n t j : Nat) (hj : j < 64) :
    is_slot_occupied (fill n t) j = true ↔ 64 * t + j < n := by
  rw [is_slot_occupied_eq]
  unfold fill
  rw [low_bits_testBit]
  simp only [decide_eq_true_eq]
  omega

theorem ring_floor (m0 m1 m2 m3 t : Nat) (ht : t < 4) :
    ∃ f, (ring m0 m1 m2 m3)[t]? = some f ∧ f.floor_number = (t : Int) + 1 ∧
      f.slots = (if t = 0 then m0 else if t = 1 then m1 else if t = 2 then m2 else m3) := by
  interval_cases t
  · exact ⟨_, rfl, rfl, rfl⟩
  · exact ⟨_, rfl, rfl, rfl⟩
  · exact ⟨_, rfl, rfl, rfl⟩
  · exact ⟨_, rfl, rfl, rfl⟩

theorem fill_full (t : Nat) (ht : t < 4) : fill 256 t = UINT64_MAX := by
  have : min (256 - 64 * t) 64 = 64 := by omega
  rw [fill_eq 256 t 64 this]
  rfl

/-- C19: from the initial state, for every `n <= 256` and whatever the clock shows (the
times `ts`, `n` of them), after `n` `add_entry` commands followed by `n` `process_entry`
commands the entry queue is empty, the evacuation stack holds the ids `1..n` with `n` on
top, and slot `j` of floor `t + 1` is occupied exactly when `64 * t + j < n`; the `k`-th
`process_entry` (`1 <= k <= n`) is the one that sets slot `(k - 1) mod 64` of floor
`(k - 1) / 64 + 1`, free until then, and reports it for car `k`. At `n = 256` one further
`add_entry` and `process_entry` report "PARKING FULL! Please wait." and leave car 257 as
the only record of the entry queue. -/
theorem floors_fill_in_ring_order (fuel : Nat) (ts : List Int) (t257 : Int)
    (hfuel : MAX_FLOORS ≤ fuel) (hn : ts.length ≤ MAX_FLOORS * SLOTS_PER_FLOOR) :
    (∃ s, run fuel (fill_cmds ts ts.length) initial = some s ∧
      s.entryQueue = { front := none, rear := none, count := 0 } ∧
      stack_ids s.evacuationStack = id_range 1 ts.length ∧
      depth s.evacuationStack = (ts.length : Int) ∧
      ∀ t j, t < MAX_FLOORS → j < SLOTS_PER_FLOOR →
        ∃ f, s.floorHeap[t]? = some f ∧ f.floor_number = (t : Int) + 1 ∧
          (is_slot_occupied f.slots j = true ↔ 64 * t + j < ts.length)) ∧
    (∀ k, 1 ≤ k → k ≤ ts.length →
      ∃ sp sk f, run fuel (fill_cmds ts (k - 1)) initial = some sp ∧
        process_entry fuel sp = some sk ∧ run fuel (fill_cmds ts k) initial = some sk ∧
        sp.floorHeap[(k - 1) / 64]? = some f ∧
        f.floor_number = (((k - 1) / 64 : Nat) : Int) + 1 ∧
        is_slot_occupied f.slots ((k - 1) % 64) = false ∧
        sk.floorHeap
          = sp.floorHeap.set ((k - 1) / 64) { f with slots := set_slot f.slots ((k - 1) % 64) } ∧
        sk.actionLog = log_action sp.actionLog
          (parked_msg (k : Int) ((((k - 1) / 64 : Nat) : Int) + 1) (((k - 1) % 64 : Nat) : Int))) ∧
    (ts.length = MAX_FLOORS * SLOTS_PER_FLOOR →
      ∃ s, run fuel (fill_cmds ts ts.length ++ [Cmd.add_entry t257, Cmd.process_entry]) initial
          = some s ∧
        s.actionLog[0]? = some (c_row "PARKING FULL! Please wait.") ∧
        s.entryQueue.count = 1 ∧
        (∀ f, f ∈ s.floorHeap → f.slots = UINT64_MAX) ∧
        stack_ids s.evacuationStack = id_range 1 256 ∧
        ∃ as, QueueOK s.carHeap s.entryQueue as ∧
          (records s.carHeap as).map Prod.fst = [257]) := by
  have hn256 : ts.length ≤ 256 := hn
  refine ⟨?_, ?_, ?_⟩
  · obtain ⟨s, hrun, hwf, hfl, htop, hids, _, as, hq, hrec⟩ :=
      stage_run fuel hfuel ts hn256 ts.length (le_refl _)
    rw [Nat.sub_self, id_range_zero] at hrec
    have has : as = [] := by
      cases as with
      | nil => rfl
      | cons a as1 =>
        obtain ⟨c, hc⟩ := IsChain_live _ _ _ hq.1 a (List.mem_cons_self _ _)
        rw [records_cons_live _ _ _ _ hc] at hrec
        simp at hrec
    subst has
    obtain ⟨hf, hr, hc⟩ := QueueOK_nil_fields hq
    refine ⟨s, hrun, ?_, hids, by simp only [depth, htop]; ring, ?_⟩
    · cases hqe : s.entryQueue with
      | mk fr re co =>
        rw [hqe] at hf hr hc
        simp only at hf hr hc
        rw [hf, hr, hc]
    · intro t j ht hj
      obtain ⟨f, hft, hnum, hslots⟩ := ring_floor (fill ts.length 0) (fill ts.length 1)
        (fill ts.length 2) (fill ts.length 3) t ht
      rw [← hfl] at hft
      refine ⟨f, hft, hnum, ?_⟩
      have ht4 : t < 4 := ht
      rw [hslots]
      interval_cases t <;> exact fill_occupied _ _ j hj
  · intro k hk1 hk
    obtain ⟨sp, hrunp, hstp⟩ := stage_run fuel hfuel ts hn256 (k - 1) (by omega)
    obtain ⟨sk, f, hpe, _, hf, hnum, hset, hlog⟩ :=
      park_step fuel hfuel (k - 1) ts.length sp (by omega) hn256 hstp
    have hk' : k - 1 + 1 = k := by omega
    rw [hk'] at hlog
    refine ⟨sp, sk, f, hrunp, hpe, ?_, hf, hnum, ?_, hset, hlog⟩
    · have hcmds : fill_cmds ts k = fill_cmds ts (k - 1) ++ [Cmd.process_entry] := by
        unfold fill_cmds
        rw [List.append_assoc]
        congr 1
        rw [← List.replicate_succ', hk']
      rw [hcmds, run_append fuel _ _ initial sp hrunp]
      simp only [run, exec, hpe]
    · have hfl := hstp.2.1
      obtain ⟨g, hg, _, hgs⟩ := ring_floor (fill (k - 1) 0) (fill (k - 1) 1) (fill (k - 1) 2)
        (fill (k - 1) 3) ((k - 1) / 64) (by omega)
      rw [← hfl, hf] at hg
      have hfg : f = g := Option.some.inj hg
      rw [hfg, hgs]
      have hm : (k - 1) % 64 < 64 := Nat.mod_lt _ (by norm_num)
      have hnot : ∀ t, t = (k - 1) / 64 →
          ¬ (is_slot_occupied (fill (k - 1) t) ((k - 1) % 64) = true) := by
        intro t ht
        rw [fill_occupied _ _ _ hm]
        omega
      have hcase : (k - 1) / 64 = 0 ∨ (k - 1) / 64 = 1 ∨ (k - 1) / 64 = 2 ∨ (k - 1) / 64 = 3 := by
        omega
      rcases hcase with h | h | h | h <;> rw [h] <;> simp only [if_true, if_false,
        OfNat.ofNat_ne_zero, one_ne_zero, OfNat.ofNat_ne_one, reduceCtorEq] <;>
        first
        | simpa using hnot 0 h.symm
        | simpa using hnot 1 h.symm
        | simpa using hnot 2 h.symm
        | simpa using hnot 3 h.symm
  · intro hfull
    obtain ⟨s, hrun, hwf, hfl, htop, hids, hctr, as, hq, hrec⟩ :=
      stage_run fuel hfuel ts hn256 ts.length (le_refl _)
    rw [Nat.sub_self, id_range_zero] at hrec
    have hlen : ts.length = 256 := hfull
    obtain ⟨s1, hadd, hwf1, hcount1, hfl1, hst1⟩ := add_car_to_entry_spec t257 s hwf
    obtain ⟨s1b, hadd2, _, hrec1⟩ := add_car_to_entry_issues t257 s hwf
    rw [hadd] at hadd2
    simp only [Option.some.injEq] at hadd2
    subst hadd2
    obtain ⟨as1, hq1, hr1⟩ := hrec1 as hq
    have hc0 : s.entryQueue.count = 0 := by
      rw [hq.2.2, ← records_length _ _ _ hq.1, ← List.length_map (records s.carHeap as) Prod.fst,
        hrec]
      rfl
    have hne : s1.entryQueue.count ≠ 0 := by rw [hcount1, hc0]; decide
    have hallfull : ∀ f, f ∈ s1.floorHeap → f.slots = UINT64_MAX := by
      intro f hf
      rw [hfl1, hfl, hlen] at hf
      simp only [ring, List.mem_cons, List.mem_singleton, List.not_mem_nil, or_false] at hf
      rcases hf with rfl | rfl | rfl | rfl
      · exact fill_full 0 (by norm_num)
      · exact fill_full 1 (by norm_num)
      · exact fill_full 2 (by norm_num)
      · exact fill_full 3 (by norm_num)
    have hpe := process_entry_full s1 fuel (-1) hne
      (find_floor_all_full s1 fuel hwf1.1 hfuel hallfull)
    refine ⟨{ s1 with actionLog := log_action s1.actionLog "PARKING FULL! Please wait." },
      ?_, ?_, ?_, hallfull, ?_, as1, hq1, ?_⟩
    · rw [run_append fuel _ _ initial s hrun]
      simp only [run, exec, hadd, hpe]
    · show (log_action s1.actionLog "PARKING FULL! Please wait.")[0]? = _
      rw [log_action_head _ _ (by rw [hwf1.2.2.1]; decide), strncpy100_short _ (by decide) (by decide)]
    · show s1.entryQueue.count = 1
      rw [hcount1, hc0]; rfl
    · show stack_ids s1.evacuationStack = _
      rw [hst1, hids, hlen]
    · show (records s1.carHeap as1).map Prod.fst = _
      rw [hr1, List.map_append, hrec, hctr, hlen]
      rfl

theorem floors_fill_in_ring_order_witness :
    (∃ s, run 4 (fill_cmds [10, 11] ([10, 11] : List Int).length) initial = some s ∧
      s.entryQueue = { front := none, rear := none, count := 0 } ∧
      stack_ids s.evacuationStack = id_range 1 ([10, 11] : List Int).length ∧
      depth s.evacuationStack = (([10, 11] : List Int).length : Int) ∧
      ∀ t j, t < MAX_FLOORS → j < SLOTS_PER_FLOOR →
        ∃ f, s.floorHeap[t]? = some f ∧ f.floor_number = (t : Int) + 1 ∧
          (is_slot_occupied f.slots j = true ↔ 64 * t + j < ([10, 11] : List Int).length)) ∧
    (∀ k, 1 ≤ k → k ≤ ([10, 11] : List Int).length →
      ∃ sp sk f, run 4 (fill_cmds [10, 11] (k - 1)) initial = some sp ∧
        process_entry 4 sp = some sk ∧ run 4 (fill_cmds [10, 11] k) initial = some sk ∧
        sp.floorHeap[(k - 1) / 64]? = some f ∧
        f.floor_number = (((k - 1) / 64 : Nat) : Int) + 1 ∧
        is_slot_occupied f.slots ((k - 1) % 64) = false ∧
        sk.floorHeap
          = sp.floorHeap.set ((k - 1) / 64) { f with slots := set_slot f.slots ((k - 1) % 64) } ∧
        sk.actionLog = log_action sp.actionLog
          (parked_msg (k : Int) ((((k - 1) / 64 : Nat) : Int) + 1) (((k - 1) % 64 : Nat) : Int))) ∧
    (([10, 11] : List Int).length = MAX_FLOORS * SLOTS_PER_FLOOR →
      ∃ s, run 4 (fill_cmds [10, 11] ([10, 11] : List Int).length
            ++ [Cmd.add_entry 12, Cmd.process_entry]) initial = some s ∧
        s.actionLog[0]? = some (c_row "PARKING FULL! Please wait.") ∧
        s.entryQueue.count = 1 ∧
        (∀ f, f ∈ s.floorHeap → f.slots = UINT64_MAX) ∧
        stack_ids s.evacuationStack = id_range 1 256 ∧
        ∃ as, QueueOK s.carHeap s.entryQueue as ∧
          (records s.carHeap as).map Prod.fst = [257]) :=
  floors_fill_in_ring_order 4 [10, 11] 12 (by decide) (by decide)

/-! ## C20: the evacuation touches only floors, stack and log -/

/-- C20: from every pre-call state with the ring of `init_system` and a stack inside its
array, `simulate_emergency` returns (given fuel) a state whose entry queue (front, rear,
count and the nodes on the heap, hence records and their order), exit queue, id counter,
display cursor, ring head, floor numbers and `next` links are those of the pre-call state:
waiting cars are not evacuated, and the next id issued is the one that was due before. -/
theorem simulate_emergency_frame (s : State) (fuel : Nat) (now : Int) (hring : RingOK s)
    (hst : StackOK s.evacuationStack) (hfuel : MAX_FLOORS ≤ fuel)
    (hdepth : depth s.evacuationStack < (fuel : Int)) :
    ∃ s1, simulate_emergency fuel s = some s1 ∧
      s1.entryQueue = s.entryQueue ∧ s1.exitQueue = s.exitQueue ∧ s1.carHeap = s.carHeap ∧
      (∀ as, records s1.carHeap as = records s.carHeap as) ∧
      (∀ n, linked_ids s1.carHeap n s1.entryQueue.front
        = linked_ids s.carHeap n s.entryQueue.front) ∧
      (∀ n, linked_ids s1.carHeap n s1.exitQueue.front
        = linked_ids s.carHeap n s.exitQueue.front) ∧
      s1.carIdCounter = s.carIdCounter ∧
      s1.currentFloorDisplay = s.currentFloorDisplay ∧
      s1.headFloor = s.headFloor ∧
      s1.floorHeap.map (fun f => (f.floor_number, f.next))
        = s.floorHeap.map (fun f => (f.floor_number, f.next)) ∧
      (add_car_to_entry now s1).map (fun s2 => (s2.entryQueue, s2.carHeap, s2.carIdCounter))
        = (add_car_to_entry now s).map (fun s2 => (s2.entryQueue, s2.carHeap, s2.carIdCounter))
      := by
  obtain ⟨log1, hres⟩ := simulate_emergency_result fuel s hring hst hfuel hdepth
  refine ⟨_, hres, rfl, rfl, rfl, fun _ => rfl, fun _ => rfl, fun _ => rfl, rfl, rfl, rfl, ?_, ?_⟩
  · show (ring 0 0 0 0).map (fun f => (f.floor_number, f.next)) = _
    rw [hring.2.1]
    rfl
  · simp only [add_car_to_entry]
    cases enqueue s.carHeap s.entryQueue s.carIdCounter now with
    | none => rfl
    | some r => rfl

theorem simulate_emergency_frame_witness :
    ∃ s1, simulate_emergency 4 (sample 5 0 7 0 empty_stack 2) = some s1 ∧
      s1.entryQueue = (sample 5 0 7 0 empty_stack 2).entryQueue ∧
      s1.exitQueue = (sample 5 0 7 0 empty_stack 2).exitQueue ∧
      s1.carHeap = (sample 5 0 7 0 empty_stack 2).carHeap ∧
      (∀ as, records s1.carHeap as = records (sample 5 0 7 0 empty_stack 2).carHeap as) ∧
      (∀ n, linked_ids s1.carHeap n s1.entryQueue.front
        = linked_ids (sample 5 0 7 0 empty_stack 2).carHeap n
            (sample 5 0 7 0 empty_stack 2).entryQueue.front) ∧
      (∀ n, linked_ids s1.carHeap n s1.exitQueue.front
        = linked_ids (sample 5 0 7 0 empty_stack 2).carHeap n
            (sample 5 0 7 0 empty_stack 2).exitQueue.front) ∧
      s1.carIdCounter = (sample 5 0 7 0 empty_stack 2).carIdCounter ∧
      s1.currentFloorDisplay = (sample 5 0 7 0 empty_stack 2).currentFloorDisplay ∧
      s1.headFloor = (sample 5 0 7 0 empty_stack 2).headFloor ∧
      s1.floorHeap.map (fun f => (f.floor_number, f.next))
        = (sample 5 0 7 0 empty_stack 2).floorHeap.map (fun f => (f.floor_number, f.next)) ∧
      (add_car_to_entry 9 s1).map (fun s2 => (s2.entryQueue, s2.carHeap, s2.carIdCounter))
        = (add_car_to_entry 9 (sample 5 0 7 0 empty_stack 2)).map
            (fun s2 => (s2.entryQueue, s2.carHeap, s2.carIdCounter)) :=
  simulate_emergency_frame (sample 5 0 7 0 empty_stack 2) 4 9
    (sample_ring_ok _ _ _ _ _ _ (by norm_num) (by norm_num) (by norm_num) (by norm_num))
    empty_stack_ok (by decide) (by decide)

end ParkingSystem
